import Mathlib

/-!
# Slotted-page leaf node of the B-tree (`src/btree/leaf_node.cc`)

A shallow embedding of `leaf_node_handler`.  The block is modelled by its header
fields (`magic`, `npairs`, `frontmost_offset`), its slot directory
(`pair_offsets`, an array of `uint16_t` indexed from 0) and its bytes addressed by
absolute offset.  Stores into `uint16_t` fields go through `u16`.  That the
directory and the pair heap do not run into each other is invariant 3, which is
proved to be preserved rather than assumed by the layout.  `merge` and `level` write
into the directory of a page while its heap grows (`level` without a check of the
capacity), so their stores into the directory are also stores into the bytes of the
block (`store_offset`, `move_offsets`).  The header fields and the directory stay
apart from the bytes: a pair that `level` copies over the header or the directory of
the receiving page changes the bytes only.  The receiving page of `level` is therefore
described as the code leaves it when it has room for what it receives (`level_room`);
the return value is decided before the first store, and the sibling is another block,
which only loses pairs.
-/

namespace leaf_node_handler

/-! ## Declarations of `btree/leaf_node.hpp` and helpers used by the source -/

/-- Store of an integer into a `uint16_t`. -/
def u16 (x : Int) : Nat := (x % 65536).toNat

/-- Modelled from the spec: the declarations of `btree/leaf_node.hpp` and of the
configuration that `leaf_node.cc` uses and that are not among the sources:
`btree_leaf_node::expected_magic` (the spec's LEAF_MAGIC), `sizeof(btree_value)`
(the spec's fixed value header of `F` bytes), `btree_value::mem_size()` (the
payload size, derivable from the header) and `LEAF_EPSILON`. -/
structure leaf_decls where
  expected_magic : Nat
  sizeof_btree_value : Nat
  mem_size : List Nat → Nat
  LEAF_EPSILON : Nat

/-- Modelled from the spec: `sizeof(btree_leaf_node)`, the header of `H = 8` bytes
(`uint32 magic`, `uint16 n`, `uint16 frontmost_offset`) in front of `pair_offsets`. -/
def sizeof_btree_leaf_node : Nat := 8

/-- The directory entries are `uint16_t`: `sizeof(*node->pair_offsets)`. -/
def sizeof_pair_offset : Nat := 2

/-- Modelled from the spec: `sizeof(btree_leaf_pair)`.  The spec gives
`pair_size = key_prefix(1) + key.len + F + value.mem_size` and the source computes
`sizeof(btree_leaf_pair) + key.size + mem_size`, so the constant is `1 + F`. -/
def sizeof_btree_leaf_pair (c : leaf_decls) : Nat := 1 + c.sizeof_btree_value

/-- A key handed in by the caller: its contents, `key->size` being the length. -/
abbrev btree_key := List Nat

/-- A value handed in by the caller: the bytes at the `btree_value *`, the header of
`sizeof(btree_value)` bytes first and the payload after it. -/
abbrev btree_value := List Nat

/-- The leaf block: header fields, slot directory and bytes by absolute offset. -/
structure btree_leaf_node where
  magic : Nat
  npairs : Nat
  frontmost_offset : Nat
  pair_offsets : Nat → Nat
  bytes : Nat → Nat

/-- Modelled from the spec: `sized_strcmp`, unsigned-byte lexicographic comparison in
which a key that is a proper beginning of another one is the smaller.  Only the
sign of the result is used by the source. -/
def sized_strcmp : List Nat → List Nat → Int
  | [], [] => 0
  | [], _ :: _ => -1
  | _ :: _, [] => 1
  | a :: as, b :: bs =>
    if a < b then -1 else if b < a then 1 else sized_strcmp as bs

/-- The `len` bytes of memory `m` from offset `off` on. -/
def read_bytes (m : Nat → Nat) (off len : Nat) : List Nat :=
  (List.range len).map (fun i => m (off + i))

/-- Effect of `memcpy(m + dst, data, data.length)`. -/
def write_bytes (m : Nat → Nat) (dst : Nat) (data : List Nat) : Nat → Nat :=
  fun a => if dst ≤ a ∧ a < dst + data.length then data.getD (a - dst) 0 else m a

/-- The `key.size` byte of the pair at `off`. -/
def key_size (m : Nat → Nat) (off : Nat) : Nat := m off

/-- The key contents of the pair at `off`. -/
def key_at (m : Nat → Nat) (off : Nat) : btree_key :=
  read_bytes m (off + 1) (key_size m off)

/-- Offset of `pair->value()`: the value follows the key. -/
def value_ptr (m : Nat → Nat) (off : Nat) : Nat := off + 1 + key_size m off

/-- The `mem_size()` of the value stored at offset `voff`. -/
def stored_mem_size (c : leaf_decls) (m : Nat → Nat) (voff : Nat) : Nat :=
  c.mem_size (read_bytes m voff c.sizeof_btree_value)

/-- The `mem_size()` of a value handed in by the caller. -/
def value_mem_size (c : leaf_decls) (value : btree_value) : Nat :=
  c.mem_size (value.take c.sizeof_btree_value)

/-- The bytes of the stored value at `voff`: `sizeof(btree_value) + mem_size()` of them. -/
def value_at (c : leaf_decls) (m : Nat → Nat) (voff : Nat) : btree_value :=
  read_bytes m voff (c.sizeof_btree_value + stored_mem_size c m voff)

/-- Source `pair_size` (line 280), for the pair at offset `off` of memory `m`. -/
def pair_size (c : leaf_decls) (m : Nat → Nat) (off : Nat) : Nat :=
  sizeof_btree_leaf_pair c + key_size m off + stored_mem_size c m (value_ptr m off)

/-- Source `is_equal` (line 355). -/
def is_equal (key1 key2 : btree_key) : Bool := decide (sized_strcmp key1 key2 = 0)

/-- Modelled from the spec: `leaf_key_comp(node, key)` as `get_offset_index` uses it,
the key of the pair a slot points at is smaller than `key` in the ordering of §3. -/
def leaf_key_comp (node : btree_leaf_node) (key : btree_key) (i : Nat) : Bool :=
  decide (sized_strcmp (key_at node.bytes (node.pair_offsets i)) key < 0)

/-- Modelled from the spec: `leaf_key_comp(node)` as `std::sort` uses it on two
offsets, comparing the keys of the pairs at the offsets. -/
def leaf_key_lt (m : Nat → Nat) (o1 o2 : Nat) : Prop :=
  sized_strcmp (key_at m o1) (key_at m o2) < 0

instance leaf_key_lt_decidable (m : Nat → Nat) : DecidableRel (leaf_key_lt m) :=
  fun o1 o2 => inferInstanceAs (Decidable (sized_strcmp (key_at m o1) (key_at m o2) < 0))

/-- The bisection loop of `std::lower_bound` over `[first, first + len)`; the fuel is
the length, which at least halves in every round. -/
def lower_bound_loop (comp : Nat → Bool) : Nat → Nat → Nat → Nat
  | 0, first, _ => first
  | fuel + 1, first, len =>
    if len = 0 then first
    else
      let half := len / 2
      let middle := first + half
      if comp middle then lower_bound_loop comp fuel (middle + 1) (len - half - 1)
      else lower_bound_loop comp fuel first half

/-- The call `std::lower_bound(first, last, _, comp)` on indices. -/
def lower_bound (comp : Nat → Bool) (first last : Nat) : Nat :=
  lower_bound_loop comp (last - first) first (last - first)

/-! ## The functions of `leaf_node.cc` -/

/-- Source `init` (line 7). -/
def init (c : leaf_decls) (block_size : Nat) (node : btree_leaf_node) : btree_leaf_node :=
  { node with
    magic := c.expected_magic
    npairs := 0
    frontmost_offset := u16 block_size }

/-- Source `is_empty` (line 222). -/
def is_empty (node : btree_leaf_node) : Bool := decide (node.npairs = 0)

/-- Source `is_full` (line 226), without `DEBUG_MAX_LEAF`. -/
def is_full (c : leaf_decls) (node : btree_leaf_node) (key : btree_key)
    (value : btree_value) : Bool :=
  decide (sizeof_btree_leaf_node + (node.npairs + 1) * sizeof_pair_offset +
    sizeof_btree_leaf_pair c + key.length + value_mem_size c value ≥ node.frontmost_offset)

/-- Source `validate` (line 243): the conjunction of its assertions. -/
def validate (block_size : Nat) (node : btree_leaf_node) : Bool :=
  decide (sizeof_btree_leaf_node + node.npairs * sizeof_pair_offset ≤ node.frontmost_offset) &&
  decide (node.frontmost_offset > 0) &&
  decide (node.frontmost_offset ≤ block_size) &&
  (List.range node.npairs).all (fun i =>
    decide (node.pair_offsets i < block_size) &&
    decide (node.pair_offsets i ≥ node.frontmost_offset))

/-- Source `is_mergable` (line 255), without `DEBUG_MAX_INTERNAL`; the differences
`block_size - frontmost_offset` are those of pages with `frontmost_offset ≤ block_size`. -/
def is_mergable (c : leaf_decls) (block_size : Nat) (node sibling : btree_leaf_node) : Bool :=
  decide (sizeof_btree_leaf_node +
    (node.npairs + sibling.npairs) * sizeof_pair_offset +
    (block_size - node.frontmost_offset) +
    (block_size - sibling.frontmost_offset) +
    c.LEAF_EPSILON < block_size)

/-- Source `is_underfull` (line 266), without `DEBUG_MAX_LEAF`; the difference
`block_size - frontmost_offset` is that of a page with `frontmost_offset ≤ block_size`. -/
def is_underfull (c : leaf_decls) (block_size : Nat) (node : btree_leaf_node) : Bool :=
  decide ((sizeof_btree_leaf_node + 1) / 2 +
    node.npairs * sizeof_pair_offset +
    (block_size - node.frontmost_offset) +
    c.LEAF_EPSILON * 2 < block_size / 2)

/-- Source `shift_pairs` (line 288): the bytes `[frontmost_offset, offset)` move by
`shift`, `frontmost_offset` advances by `shift`, and every slot below `offset` is
adjusted.  The length of the `memmove` is that of a call with
`frontmost_offset ≤ offset`. -/
def shift_pairs (node : btree_leaf_node) (offset : Nat) (shift : Int) : btree_leaf_node :=
  let front := node.frontmost_offset
  let len := offset - front
  { node with
    bytes := fun a =>
      if (front : Int) + shift ≤ a ∧ (a : Int) < front + shift + len
      then node.bytes ((a : Int) - shift).toNat else node.bytes a
    frontmost_offset := u16 (front + shift)
    pair_offsets := fun i =>
      if i < node.npairs ∧ node.pair_offsets i < offset
      then u16 (node.pair_offsets i + shift) else node.pair_offsets i }

/-- Source `delete_pair` (line 299). -/
def delete_pair (c : leaf_decls) (node : btree_leaf_node) (offset : Nat) : btree_leaf_node :=
  shift_pairs node offset (pair_size c node.bytes offset)

/-- Source `insert_pair(node, pair)` (line 305): the pair at offset `off` of the
memory `src` is copied below the heap of `node`; the new offset is returned. -/
def insert_pair (c : leaf_decls) (node : btree_leaf_node) (src : Nat → Nat) (off : Nat) :
    btree_leaf_node × Nat :=
  let sz := pair_size c src off
  let front := u16 ((node.frontmost_offset : Int) - sz)
  ({ node with
     frontmost_offset := front
     bytes := write_bytes node.bytes front (read_bytes src off sz) }, front)

/-- Source `insert_pair(node, value, key)` (line 315). -/
def insert_pair_kv (c : leaf_decls) (node : btree_leaf_node) (value : btree_value)
    (key : btree_key) : btree_leaf_node × Nat :=
  let front := u16 ((node.frontmost_offset : Int) -
    (sizeof_btree_leaf_pair c + key.length + value_mem_size c value : Nat))
  let m1 := write_bytes node.bytes front (key.length :: key)
  let m2 := write_bytes m1 (value_ptr m1 front)
    (value.take (c.sizeof_btree_value + value_mem_size c value))
  ({ node with frontmost_offset := front, bytes := m2 }, front)

/-- Source `get_offset_index` (line 326). -/
def get_offset_index (node : btree_leaf_node) (key : btree_key) : Nat :=
  lower_bound (leaf_key_comp node key) 0 node.npairs

/-- Source `find_key` (line 332); `none` stands for the result `-1`. -/
def find_key (node : btree_leaf_node) (key : btree_key) : Option Nat :=
  let index := get_offset_index node key
  if index < node.npairs ∧ is_equal key (key_at node.bytes (node.pair_offsets index)) then
    some index
  else none

/-- Source `delete_offset` (line 340). -/
def delete_offset (node : btree_leaf_node) (index : Nat) : btree_leaf_node :=
  { node with
    pair_offsets := fun i =>
      if node.npairs > 1 ∧ index ≤ i ∧ i < index + (node.npairs - index - 1)
      then node.pair_offsets (i + 1) else node.pair_offsets i
    npairs := u16 ((node.npairs : Int) - 1) }

/-- Source `insert_offset` (line 347). -/
def insert_offset (node : btree_leaf_node) (offset : Nat) (index : Nat) : btree_leaf_node :=
  { node with
    pair_offsets := fun i =>
      if i = index then offset
      else if index < i ∧ i < index + 1 + (node.npairs - index)
      then node.pair_offsets (i - 1) else node.pair_offsets i
    npairs := u16 ((node.npairs : Int) + 1) }

/-- Source `insert` (line 22).  The debug-only `validate` is not part of the result. -/
def insert (c : leaf_decls) (_block_size : Nat) (node : btree_leaf_node) (key : btree_key)
    (value : btree_value) : Bool × btree_leaf_node :=
  if is_full c node key value then (false, node)
  else
    let index := get_offset_index node key
    let prev_offset := node.pair_offsets index
    if index ≠ node.npairs ∧ is_equal (key_at node.bytes prev_offset) key then
      let old_size := stored_mem_size c node.bytes (value_ptr node.bytes prev_offset)
      let shift : Int := (old_size : Int) - (value_mem_size c value : Int)
      let node1 :=
        if shift ≠ 0 then
          shift_pairs node
            (u16 ((prev_offset + pair_size c node.bytes prev_offset : Nat) - (old_size : Int)))
            shift
        else node
      let previous := node1.pair_offsets index
      (true, { node1 with
        bytes := write_bytes node1.bytes (value_ptr node1.bytes previous)
          (value.take (c.sizeof_btree_value + value_mem_size c value)) })
    else
      let r := insert_pair_kv c node value key
      (true, insert_offset r.1 r.2 index)

/-- Source `remove` (line 45).  `none` is the failure of `assert(index != -1)`: the
key must be present. -/
def remove (c : leaf_decls) (_block_size : Nat) (node : btree_leaf_node) (key : btree_key) :
    Option btree_leaf_node :=
  match find_key node key with
  | none => none
  | some index => some (delete_offset (delete_pair c node (node.pair_offsets index)) index)

/-- Source `lookup` (line 68): the stored value, header and payload, when the key is
found. -/
def lookup (c : leaf_decls) (node : btree_leaf_node) (key : btree_key) : Option btree_value :=
  match find_key node key with
  | some index => some (value_at c node.bytes (value_ptr node.bytes (node.pair_offsets index)))
  | none => none

/-- Modelled from the spec: `std::sort(pair_offsets, pair_offsets + npairs,
leaf_key_comp(node))`, the directory put in the key order of the pairs it points at. -/
def sort_offsets (node : btree_leaf_node) : btree_leaf_node :=
  let sorted := ((List.range node.npairs).map node.pair_offsets).insertionSort
    (leaf_key_lt node.bytes)
  { node with
    pair_offsets := fun i => if i < node.npairs then sorted.getD i 0 else node.pair_offsets i }

/-- The copy loop of the second `init` (line 15): `k` rounds are left, `i` is the loop
variable; `src` is the page copied from and `offsets` the array of its offsets. -/
def init_from_loop (c : leaf_decls) (src : btree_leaf_node) (offsets : Nat → Nat) :
    Nat → Nat → btree_leaf_node → btree_leaf_node
  | 0, _, node => node
  | k + 1, i, node =>
    let r := insert_pair c node src.bytes (offsets i)
    init_from_loop c src offsets k (i + 1)
      { r.1 with pair_offsets := Function.update r.1.pair_offsets (r.1.npairs + i) r.2 }

/-- Source `init(block_size, node, lnode, offsets, numpairs)` (line 13), the spec's
`init_from`. -/
def init_from (c : leaf_decls) (block_size : Nat) (node lnode : btree_leaf_node)
    (offsets : Nat → Nat) (numpairs : Int) : btree_leaf_node :=
  let node1 := init_from_loop c lnode offsets numpairs.toNat 0 (init c block_size node)
  sort_offsets { node1 with npairs := u16 (node1.npairs + numpairs) }

/-- The loop of `split` that finds the median index (line 85).  `none` when the loop
has not ended after `fuel` rounds. -/
def split_median_loop (c : leaf_decls) (node : btree_leaf_node) (half : Nat) :
    Nat → Nat → Nat → Option Nat
  | 0, first_pairs, index => if first_pairs < half then none else some index
  | fuel + 1, first_pairs, index =>
    if first_pairs < half then
      split_median_loop c node half fuel
        (u16 (first_pairs + pair_size c node.bytes (node.pair_offsets index) : Nat)) (index + 1)
    else some index

/-- The loop of `split` that deletes the moved pairs without removing their slots
(line 95): `k` rounds are left. -/
def split_delete_loop (c : leaf_decls) : Nat → Nat → btree_leaf_node → btree_leaf_node
  | 0, _, node => node
  | k + 1, index, node =>
    split_delete_loop c k (index + 1) (delete_pair c node (node.pair_offsets index))

/-- Source `split` (line 81): the left page, the right page and the median key.
On a valid page the median loop ends within `npairs ≤ block_size` rounds; `none`
when it has not ended after `block_size` rounds.  For `median_index = 0` the slot
read at index `-1` is the `uint16_t` in front of the directory, the header field
`frontmost_offset`. -/
def split (c : leaf_decls) (block_size : Nat) (node rnode : btree_leaf_node) :
    Option (btree_leaf_node × btree_leaf_node × btree_key) :=
  let total_pairs := u16 ((block_size : Int) - node.frontmost_offset)
  match split_median_loop c node (total_pairs / 2) block_size 0 0 with
  | none => none
  | some median_index =>
    let rnode1 := init_from c block_size rnode node
      (fun i => node.pair_offsets (median_index + i)) ((node.npairs : Int) - median_index)
    let node1 := split_delete_loop c (node.npairs - median_index) median_index node
    let node2 := { node1 with npairs := u16 median_index }
    let slot :=
      if median_index = 0 then node2.frontmost_offset
      else node2.pair_offsets (median_index - 1)
    some (node2, rnode1, key_at node2.bytes slot)

/-- Source `nodecmp` (line 359): the first keys of the two pages compared. -/
def nodecmp (node1 node2 : btree_leaf_node) : Int :=
  sized_strcmp (key_at node1.bytes (node1.pair_offsets 0))
    (key_at node2.bytes (node2.pair_offsets 0))

/-- The byte at address `a` of the `uint16_t` value `v` that is stored at an even
address and the odd one after it, low byte first. -/
def offset_byte (v a : Nat) : Nat := if a % 2 = 0 then v % 256 else v / 256 % 256

/-- The store `node->pair_offsets[j] = v` of `merge` and `level`, which write into the
directory while the heap of the same page grows.  The slot lies in the bytes of the
block at `sizeof(btree_leaf_node) + j * 2`, so the store is also a store of two bytes
there (low byte first): a pair the directory has grown into loses them. -/
def store_offset (node : btree_leaf_node) (j v : Nat) : btree_leaf_node :=
  { node with
    pair_offsets := fun i => if i = j then v else node.pair_offsets i
    bytes := fun a =>
      if sizeof_btree_leaf_node + j * sizeof_pair_offset ≤ a ∧
        a < sizeof_btree_leaf_node + (j + 1) * sizeof_pair_offset
      then offset_byte v a else node.bytes a }

/-- The call `memmove(pair_offsets + p, pair_offsets, npairs * sizeof(uint16_t))` of
`merge` (line 122) and `level` (line 194): the directory moves up by `p` slots, and so
do the bytes of the block the moved slots are stored in. -/
def move_offsets (node : btree_leaf_node) (p : Nat) : btree_leaf_node :=
  { node with
    pair_offsets := fun i =>
      if p ≤ i ∧ i < p + node.npairs then node.pair_offsets (i - p) else node.pair_offsets i
    bytes := fun a =>
      if sizeof_btree_leaf_node + p * sizeof_pair_offset ≤ a ∧
        a < sizeof_btree_leaf_node + (p + node.npairs) * sizeof_pair_offset
      then offset_byte
        (node.pair_offsets ((a - sizeof_btree_leaf_node) / sizeof_pair_offset - p)) a
      else node.bytes a }

/-- The copy loops of `merge` (line 124) and `level` (lines 166 and 195): `k` rounds are
left and `i` is the loop variable; the pair that slot `i` of `src` points at is copied
with `insert_pair` and its new offset is stored in slot `pos i` of the page. -/
def copy_loop (c : leaf_decls) (src : btree_leaf_node) (pos : Nat → Nat) :
    Nat → Nat → btree_leaf_node → btree_leaf_node
  | 0, _, node => node
  | k + 1, i, node =>
    let r := insert_pair c node src.bytes (src.pair_offsets i)
    copy_loop c src pos k (i + 1) (store_offset r.1 (pos i) r.2)

/-- Source `merge` (line 107): the merged right page and the key written to
`key_to_remove`; `none` is the failure of the always-on `guarantee`, whose left side
is computed in `size_t`.  The debug-only `validate` is not part of the result. -/
def merge (c : leaf_decls) (block_size : Nat) (node rnode : btree_leaf_node) :
    Option (btree_leaf_node × btree_key) :=
  if (((sizeof_btree_leaf_node + (node.npairs + rnode.npairs) * sizeof_pair_offset +
      block_size : Nat) : Int) - node.frontmost_offset + block_size -
      rnode.frontmost_offset) % 18446744073709551616 < block_size then
    let rnode1 := move_offsets rnode node.npairs
    let rnode2 := copy_loop c node (fun i => i) node.npairs 0 rnode1
    let rnode3 := { rnode2 with npairs := u16 ((rnode2.npairs : Int) + node.npairs) }
    some (rnode3, key_at rnode3.bytes (rnode3.pair_offsets 0))
  else none

/-- What `level` leaves: its return value, the two pages, and the keys written to
`key_to_replace` and `replacement_key` (`none` when the call does not write them). -/
structure level_result where
  result : Bool
  node : btree_leaf_node
  sibling : btree_leaf_node
  key_to_replace : Option btree_key
  replacement_key : Option btree_key

/-- The `uint16_t` that `pair_offsets[npairs - 1]` reads: the last slot, and for
`npairs = 0` the field in front of the directory, `frontmost_offset`. -/
def last_offset (node : btree_leaf_node) : Nat :=
  if node.npairs = 0 then node.frontmost_offset else node.pair_offsets (node.npairs - 1)

/-- The loop of `level` that walks the sibling from its first pair (line 158), with
`++index` before the read; `none` when it has not ended after `fuel` rounds. -/
def level_walk_up (c : leaf_decls) (sibling : btree_leaf_node) : Nat → Int → Int → Option Int
  | 0, optimal_adjustment, index => if optimal_adjustment > 0 then none else some index
  | fuel + 1, optimal_adjustment, index =>
    if optimal_adjustment > 0 then
      level_walk_up c sibling fuel
        (optimal_adjustment -
          pair_size c sibling.bytes (sibling.pair_offsets (index + 1).toNat))
        (index + 1)
    else some index

/-- The loop of `level` that walks the sibling from its last pair (line 183), with
`--index` before the read; `none` when the loop leaves the directory below slot 0 or
has not ended after `fuel` rounds. -/
def level_walk_down (c : leaf_decls) (sibling : btree_leaf_node) : Nat → Int → Nat → Option Nat
  | 0, optimal_adjustment, index => if optimal_adjustment > 0 then none else some index
  | fuel + 1, optimal_adjustment, index =>
    if optimal_adjustment > 0 then
      if index = 0 then none
      else
        level_walk_down c sibling fuel
          (optimal_adjustment -
            pair_size c sibling.bytes (sibling.pair_offsets (index - 1)))
          (index - 1)
    else some index

/-- The loop of `level` that deletes the first pair of the sibling `k` times
(line 172). -/
def level_delete_first (c : leaf_decls) : Nat → btree_leaf_node → btree_leaf_node
  | 0, sibling => sibling
  | k + 1, sibling =>
    level_delete_first c k (delete_offset (delete_pair c sibling (sibling.pair_offsets 0)) 0)

/-- The loop of `level` that deletes the pair at slot `index` of the sibling while
`index < sibling->npairs` (line 201); every round takes one from `npairs`, and the
fuel is the `npairs` of the start. -/
def level_delete_last (c : leaf_decls) (index : Nat) : Nat → btree_leaf_node → btree_leaf_node
  | 0, sibling => sibling
  | fuel + 1, sibling =>
    if index < sibling.npairs then
      level_delete_last c index fuel
        (delete_offset (delete_pair c sibling (sibling.pair_offsets index)) index)
    else sibling

/-- The transfer of `level` when the page holds the smaller keys (lines 166 to 178):
the first `index` pairs of the sibling are copied behind the pairs of the page and
deleted from the sibling; the keys are read from the first and the last slot of the
page. -/
def level_move_first (c : leaf_decls) (node sibling : btree_leaf_node) (index : Nat) :
    level_result :=
  let node1 := copy_loop c sibling (fun i => node.npairs + i) index 0 node
  let node2 := { node1 with npairs := u16 ((node1.npairs : Int) + index) }
  let sibling1 := level_delete_first c index sibling
  ⟨true, node2, sibling1, some (key_at node2.bytes (node2.pair_offsets 0)),
    some (key_at node2.bytes (last_offset node2))⟩

/-- The transfer of `level` when the sibling holds the smaller keys (lines 194 to
207): the directory of the page moves up by `pairs_to_move` slots, the pairs of the
sibling from slot `index` on are copied in front of the pairs of the page and deleted
from the sibling; the keys are read from the first and the last slot of the sibling. -/
def level_move_last (c : leaf_decls) (node sibling : btree_leaf_node) (index : Nat)
    (pairs_to_move : Nat) : level_result :=
  let node1 := move_offsets node pairs_to_move
  let node2 := copy_loop c sibling (fun i => i - index) (sibling.npairs - index) index node1
  let node3 := { node2 with npairs := u16 ((node2.npairs : Int) + pairs_to_move) }
  let sibling1 := level_delete_last c index sibling.npairs sibling
  ⟨true, node3, sibling1, some (key_at sibling1.bytes (sibling1.pair_offsets 0)),
    some (key_at sibling1.bytes (last_offset sibling1))⟩

/-- Source `level` (line 140), without `DEBUG_MAX_LEAF`.  Every pair has a size of at
least one byte, so the walks end within `optimal_adjustment` rounds; `none` is a walk
that has not ended by then or has left the directory, or the failure of the
`guarantee`.  The debug-only `validate` calls are not part of the result.  The fields
`npairs`, `frontmost_offset` and `pair_offsets` of the receiving page are those the
code computes as long as the `memcpy` of `insert_pair` stays clear of the header and
the directory, which `level_room` states; statements about the receiving page after a
transfer carry that hypothesis. -/
def level (c : leaf_decls) (block_size : Nat) (node sibling : btree_leaf_node) :
    Option level_result :=
  let node_size := u16 ((block_size : Int) - node.frontmost_offset)
  let sibling_size := u16 ((block_size : Int) - sibling.frontmost_offset)
  let optimal_adjustment : Int := Int.tdiv ((sibling_size : Int) - (node_size : Int)) 2
  if nodecmp node sibling < 0 then
    match level_walk_up c sibling optimal_adjustment.toNat optimal_adjustment (-1) with
    | none => none
    | some index =>
      if index ≤ 0 then some ⟨false, node, sibling, none, none⟩
      else some (level_move_first c node sibling index.toNat)
  else
    match level_walk_down c sibling optimal_adjustment.toNat optimal_adjustment
        sibling.npairs with
    | none => none
    | some index =>
      let pairs_to_move : Int := (sibling.npairs : Int) - index
      if pairs_to_move < 0 then none
      else if pairs_to_move = 0 then some ⟨false, node, sibling, none, none⟩
      else some (level_move_last c node sibling index pairs_to_move.toNat)

/-! ## The data model's invariants -/

/-- The slot directory as a list, `pair_offsets[0..npairs)`. -/
def slots (node : btree_leaf_node) : List Nat :=
  (List.range node.npairs).map node.pair_offsets

/-- The pairs at offsets `o1` and `o2` of memory `m` do not overlap. -/
def pairs_apart (c : leaf_decls) (m : Nat → Nat) (o1 o2 : Nat) : Prop :=
  o1 + pair_size c m o1 ≤ o2 ∨ o2 + pair_size c m o2 ≤ o1

/-- The sum of the `pair_size` of the pairs the directory points at. -/
def pairs_bytes (c : leaf_decls) (node : btree_leaf_node) : Nat :=
  ((slots node).map (pair_size c node.bytes)).sum

/-- Invariants 1 to 6 of the data model for a block of `block_size` bytes whose
offsets are `uint16_t` (`block_u16`): the magic (1), `0 < frontmost_offset ≤ B` (2),
directory and heap do not overlap (3), every pair lies inside
`[frontmost_offset, B)` (4), the keys strictly increase along the directory (5),
and the pairs do not overlap and fill `[frontmost_offset, B)` (6). -/
structure valid (c : leaf_decls) (block_size : Nat) (node : btree_leaf_node) : Prop where
  block_u16 : block_size ≤ 65535
  magic : node.magic = c.expected_magic
  front_pos : 0 < node.frontmost_offset
  front_le : node.frontmost_offset ≤ block_size
  dir : sizeof_btree_leaf_node + node.npairs * sizeof_pair_offset ≤ node.frontmost_offset
  slot_lo : ∀ o ∈ slots node, node.frontmost_offset ≤ o
  slot_hi : ∀ o ∈ slots node, o + pair_size c node.bytes o ≤ block_size
  sorted : (slots node).Pairwise (leaf_key_lt node.bytes)
  apart : (slots node).Pairwise (pairs_apart c node.bytes)
  dense : pairs_bytes c node = block_size - node.frontmost_offset

/-- A value handed in by the caller holds its header and the payload the header
announces, and nothing else. -/
def value_wf (c : leaf_decls) (value : btree_value) : Prop :=
  value.length = c.sizeof_btree_value + value_mem_size c value

instance value_wf_decidable (c : leaf_decls) (value : btree_value) :
    Decidable (value_wf c value) :=
  inferInstanceAs (Decidable (value.length = c.sizeof_btree_value + value_mem_size c value))

/-- The key stored at slot `i` of the directory. -/
def slot_key (node : btree_leaf_node) (i : Nat) : btree_key :=
  key_at node.bytes (node.pair_offsets i)

/-- The value stored at slot `i` of the directory, header and payload. -/
def slot_value (c : leaf_decls) (node : btree_leaf_node) (i : Nat) : btree_value :=
  value_at c node.bytes (value_ptr node.bytes (node.pair_offsets i))

/-- The key and the value (header and payload) of the pair at offset `o` of `m`. -/
def pair_kv (c : leaf_decls) (m : Nat → Nat) (o : Nat) : btree_key × btree_value :=
  (key_at m o, value_at c m (value_ptr m o))

/-- The key/value pairs of a page in directory order. -/
def entries (c : leaf_decls) (node : btree_leaf_node) : List (btree_key × btree_value) :=
  (slots node).map (pair_kv c node.bytes)

/-- The bytes of the pair at `o` of `m` are found again at `o'` of `m'`. -/
def same_pair (c : leaf_decls) (m : Nat → Nat) (o : Nat) (m' : Nat → Nat) (o' : Nat) : Prop :=
  ∀ i, i < pair_size c m o → m' (o' + i) = m (o + i)

/-- The pairs at the offsets `L` of memory `m` lie in `[front, B)`, do not overlap and
fill it: invariants 4 and 6 for a heap whose live pairs are those of `L`. -/
def heap_inv (c : leaf_decls) (block_size : Nat) (m : Nat → Nat) (front : Nat)
    (L : List Nat) : Prop :=
  front ≤ block_size ∧
  (∀ o ∈ L, front ≤ o ∧ o + pair_size c m o ≤ block_size) ∧
  L.Pairwise (pairs_apart c m) ∧
  (L.map (pair_size c m)).sum = block_size - front

/-- The cumulative byte size of the first `j` pairs in key order, `pairs 0..j` with the
upper bound exclusive. -/
def cum_bytes (c : leaf_decls) (node : btree_leaf_node) (j : Nat) : Nat :=
  (((slots node).take j).map (pair_size c node.bytes)).sum

/-- The pages that `init` followed by `insert` calls (whatever they return) and by
`remove` calls on keys that are present leads to, for blocks of `block_size` bytes. -/
inductive reachable (c : leaf_decls) (block_size : Nat) : btree_leaf_node → Prop
  | init (block : btree_leaf_node) : reachable c block_size (init c block_size block)
  | insert (node : btree_leaf_node) (key : btree_key) (value : btree_value) :
      reachable c block_size node → value_wf c value →
      reachable c block_size (insert c block_size node key value).2
  | remove (node node' : btree_leaf_node) (key : btree_key) :
      reachable c block_size node → remove c block_size node key = some node' →
      reachable c block_size node'

/-! ## Notions used to state the claims on `merge` and `level` -/

/-- The bytes a key/value pair takes in the heap: the size byte of the key, the key, and
the value with its header. -/
def entry_size (kv : btree_key × btree_value) : Nat := 1 + kv.1.length + kv.2.length

/-- The bytes the pairs of a list take in the heap. -/
def entries_bytes (L : List (btree_key × btree_value)) : Nat := (L.map entry_size).sum

/-- Every key of the pairs `L1` is smaller than every key of the pairs `L2`. -/
def keys_below (L1 L2 : List (btree_key × btree_value)) : Prop :=
  ∀ x ∈ L1, ∀ y ∈ L2, sized_strcmp x.1 y.1 < 0

instance keys_below_decidable (L1 L2 : List (btree_key × btree_value)) :
    Decidable (keys_below L1 L2) :=
  inferInstanceAs (Decidable (∀ x ∈ L1, ∀ y ∈ L2, sized_strcmp x.1 y.1 < 0))

/-- The page `node` has room for what `level` has moved to it from `sibling`: its
directory with the new slots and its heap with the bytes that have left the sibling
fit in the block, `r` being what the call has left. -/
def level_room (B : Nat) (node sibling : btree_leaf_node) (r : level_result) : Prop :=
  sizeof_btree_leaf_node + r.node.npairs * sizeof_pair_offset +
    (B - node.frontmost_offset) +
    (r.sibling.frontmost_offset - sibling.frontmost_offset) ≤ B

instance level_room_decidable (B : Nat) (node sibling : btree_leaf_node) (r : level_result) :
    Decidable (level_room B node sibling r) :=
  inferInstanceAs (Decidable (sizeof_btree_leaf_node + r.node.npairs * sizeof_pair_offset +
    (B - node.frontmost_offset) +
    (r.sibling.frontmost_offset - sibling.frontmost_offset) ≤ B))

/-- The rule of the spec for the number of pairs `level` transfers, in the words of the
spec: start from the adjustment, walk the pairs (here their sizes, from the end of the
sibling the transfer starts at), subtract the size of each pair, and stop as soon as
the remaining adjustment is `≤ 0`; the number of pairs walked is the count. -/
def spec_transfer_count : List Nat → Int → Nat
  | [], _ => 0
  | size :: rest, adjustment =>
    if adjustment ≤ 0 then 0 else 1 + spec_transfer_count rest (adjustment - size)

/-- The count of the rule of the spec for `level(a, b)`: the adjustment is
`(used(b) - used(a)) / 2`, and the pairs of `b` are walked from its first pair when the
keys of `a` are the smaller ones (`nodecmp(a, b) < 0`), from its last pair otherwise. -/
def spec_level_count (c : leaf_decls) (B : Nat) (a b : btree_leaf_node) : Nat :=
  let sizes := (slots b).map (pair_size c b.bytes)
  let adjustment := Int.tdiv (((B - b.frontmost_offset : Nat) : Int) -
    ((B - a.frontmost_offset : Nat) : Int)) 2
  if nodecmp a b < 0 then spec_transfer_count sizes adjustment
  else spec_transfer_count sizes.reverse adjustment

/-! ## Example pages -/

/-- Declarations for the examples: a value header of one byte that holds the payload
size, and a `LEAF_EPSILON` of a few bytes. -/
def example_decls : leaf_decls :=
  { expected_magic := 1718773100
    sizeof_btree_value := 1
    mem_size := fun header => header.headD 0
    LEAF_EPSILON := 3 }

/-- The zeroed block the cache hands to `init`. -/
def zero_block : btree_leaf_node :=
  { magic := 0, npairs := 0, frontmost_offset := 0, pair_offsets := fun _ => 0,
    bytes := fun _ => 0 }

/-- The empty page of 64 bytes. -/
def page0 : btree_leaf_node := init example_decls 64 zero_block

/-- Page of 64 bytes holding ("a", "1"). -/
def page1 : btree_leaf_node := (insert example_decls 64 page0 [97] [1, 49]).2

/-- Page of 64 bytes holding ("a", "1") and ("c", "3"). -/
def page2 : btree_leaf_node := (insert example_decls 64 page1 [99] [1, 51]).2

/-- Page of 64 bytes holding ("a", "1"), ("b", "2") and ("c", "3"). -/
def page3 : btree_leaf_node := (insert example_decls 64 page2 [98] [1, 50]).2

/-- A value with a payload of 36 bytes. -/
def big_value : btree_value := 36 :: List.replicate 36 0

/-- Page of 64 bytes holding ("a", "1") and ("z", `big_value`): 43 of its bytes are
used by pairs and `frontmost_offset` is 21. -/
def page_big : btree_leaf_node := (insert example_decls 64 page1 [122] big_value).2

/-- A key of 10 bytes. -/
def long_key : btree_key := List.replicate 10 107

/-- A value with a payload of 24 bytes. -/
def mid_value : btree_value := 24 :: List.replicate 24 0

/-- A value with a payload of 20 bytes. -/
def value20 : btree_value := 20 :: List.replicate 20 0

/-- Page of 64 bytes holding ("m", "2"), a pair of 4 bytes, and ("n", `value20`), a pair
of 23 bytes: 27 of its bytes are used by pairs. -/
def page_mn : btree_leaf_node :=
  (insert example_decls 64 (insert example_decls 64 page0 [109] [1, 50]).2 [110] value20).2

/-- A value whose header announces `n` payload bytes, all of them zero. -/
def zero_value (n : Nat) : btree_value := n :: List.replicate n 0

/-- Page of 64 bytes holding the keys "a", "b", "c", "d" with empty payloads (pairs of
3 bytes) and "e" with a payload of 27 bytes (a pair of 30 bytes): 5 slots, 42 bytes
used by pairs, `frontmost_offset = 22`, four free bytes. -/
def page_five : btree_leaf_node :=
  (insert example_decls 64
    (insert example_decls 64
      (insert example_decls 64
        (insert example_decls 64
          (insert example_decls 64 page0 [101] (zero_value 27)).2
          [97] (zero_value 0)).2
        [98] (zero_value 0)).2
      [99] (zero_value 0)).2
    [100] (zero_value 0)).2

/-- Page of 64 bytes holding "m" with an empty payload (a pair of 3 bytes) and "n" with
a payload of 44 bytes (a pair of 47 bytes): 50 bytes used by pairs. -/
def page_wide : btree_leaf_node :=
  (insert example_decls 64 (insert example_decls 64 page0 [109] (zero_value 0)).2
    [110] (zero_value 44)).2

/-- Page of 64 bytes holding "z" with a payload of 3 bytes, a pair of 6 bytes. -/
def page_z : btree_leaf_node := (insert example_decls 64 page0 [122] (zero_value 3)).2

/-- Page of 64 bytes holding "m", "n" and "o" with payloads of 2, 9 and 6 bytes: pairs
of 5, 12 and 9 bytes, 26 bytes used by pairs. -/
def page_mno : btree_leaf_node :=
  (insert example_decls 64
    (insert example_decls 64
      (insert example_decls 64 page0 [109] (zero_value 2)).2
      [110] (zero_value 9)).2
    [111] (zero_value 6)).2

/-- Page of 64 bytes holding "z" with an empty payload, a pair of 3 bytes. -/
def page_z_small : btree_leaf_node := (insert example_decls 64 page0 [122] (zero_value 0)).2

/-- Page of 64 bytes holding "m" with a payload of 37 bytes (a pair of 40 bytes) and "n"
with a payload of 1 byte (a pair of 4 bytes): 44 bytes used by pairs. -/
def page_m_large : btree_leaf_node :=
  (insert example_decls 64 (insert example_decls 64 page0 [109] (zero_value 37)).2
    [110] (zero_value 1)).2

/-- Page of 64 bytes holding the keys "m", "n", "o", "p", "q" and "r", each with a
payload of 4 bytes: six pairs of 7 bytes, 42 bytes used by pairs, `frontmost_offset = 22`. -/
def page_six : btree_leaf_node :=
  (insert example_decls 64
    (insert example_decls 64
      (insert example_decls 64
        (insert example_decls 64
          (insert example_decls 64
            (insert example_decls 64 page0 [109] (zero_value 4)).2
            [110] (zero_value 4)).2
          [111] (zero_value 4)).2
        [112] (zero_value 4)).2
      [113] (zero_value 4)).2
    [114] (zero_value 4)).2

/-! ## Theorems -/

theorem u16_of_lt (x : Int) (h0 : 0 ≤ x) (h1 : x < 65536) : u16 x = x.toNat := by
  unfold u16
  rw [Int.emod_eq_of_lt h0 h1]

theorem u16_nat (x : Nat) (h1 : x < 65536) : u16 (x : Int) = x := by
  rw [u16_of_lt _ (by omega) (by omega)]; simp

theorem u16_lt (x : Int) : u16 x < 65536 := by
  unfold u16
  have := Int.emod_lt_of_pos x (show (0:Int) < 65536 by norm_num)
  have := Int.emod_nonneg x (show (65536:Int) ≠ 0 by norm_num)
  omega

theorem sized_strcmp_self (a : List Nat) : sized_strcmp a a = 0 := by
  induction a with
  | nil => rfl
  | cons x xs ih => simp [sized_strcmp, ih]

theorem sized_strcmp_eq_zero {a b : List Nat} : sized_strcmp a b = 0 ↔ a = b := by
  constructor
  · intro h
    induction a generalizing b with
    | nil => cases b with
      | nil => rfl
      | cons y ys => simp [sized_strcmp] at h
    | cons x xs ih => cases b with
      | nil => simp [sized_strcmp] at h
      | cons y ys =>
        simp only [sized_strcmp] at h
        split_ifs at h with h1 h2
        · omega
        · have : x = y := by omega
          rw [this, ih h]
  · rintro rfl; exact sized_strcmp_self a

theorem sized_strcmp_swap {a b : List Nat} : sized_strcmp a b < 0 ↔ 0 < sized_strcmp b a := by
  induction a generalizing b with
  | nil => cases b <;> simp [sized_strcmp]
  | cons x xs ih => cases b with
    | nil => simp [sized_strcmp]
    | cons y ys =>
      simp only [sized_strcmp]
      split_ifs <;> first | omega | simp | exact ih

theorem sized_strcmp_trans {a b d : List Nat} (h1 : sized_strcmp a b < 0)
    (h2 : sized_strcmp b d < 0) : sized_strcmp a d < 0 := by
  induction a generalizing b d with
  | nil => cases d with
    | nil => cases b <;> simp [sized_strcmp] at h1 h2
    | cons z zs => simp [sized_strcmp]
  | cons x xs ih => cases b with
    | nil => simp [sized_strcmp] at h1
    | cons y ys => cases d with
      | nil => simp [sized_strcmp] at h2
      | cons z zs =>
        simp only [sized_strcmp] at h1 h2 ⊢
        split_ifs at h1 h2 ⊢ <;> first | omega | exact ih h1 h2

theorem sized_strcmp_irrefl (a : List Nat) : ¬ sized_strcmp a a < 0 := by
  rw [sized_strcmp_self]; omega

/-- What the bisection loop returns on a range where `comp` holds on an initial part only. -/
theorem lower_bound_loop_spec (comp : Nat → Bool) (fuel first len : Nat) (hf : len ≤ fuel)
    (hmono : ∀ i j, first ≤ i → i ≤ j → j < first + len → comp j = true → comp i = true) :
    first ≤ lower_bound_loop comp fuel first len ∧
    lower_bound_loop comp fuel first len ≤ first + len ∧
    (∀ i, first ≤ i → i < lower_bound_loop comp fuel first len → comp i = true) ∧
    (∀ i, lower_bound_loop comp fuel first len ≤ i → i < first + len → comp i = false) := by
  induction fuel generalizing first len with
  | zero =>
    have : len = 0 := by omega
    subst this
    simp only [lower_bound_loop]
    refine ⟨le_refl _, by omega, ?_, ?_⟩ <;> intro i h1 h2 <;> omega
  | succ fuel ih =>
    unfold lower_bound_loop
    by_cases hl : len = 0
    · subst hl
      simp only [if_true]
      refine ⟨le_refl _, by omega, ?_, ?_⟩ <;> intro i h1 h2 <;> omega
    · simp only [hl, if_false]
      by_cases hc : comp (first + len / 2) = true
      · simp only [hc, if_true]
        have hlen : len / 2 < len := Nat.div_lt_self (by omega) (by norm_num)
        obtain ⟨a1, a2, a3, a4⟩ := ih (first + len / 2 + 1) (len - len / 2 - 1) (by omega)
          (fun i j h1 h2 h3 h4 => hmono i j (by omega) h2 (by omega) h4)
        refine ⟨by omega, by omega, ?_, ?_⟩
        · intro i h1 h2
          by_cases hi : i ≤ first + len / 2
          · exact hmono i (first + len / 2) h1 hi (by omega) hc
          · exact a3 i (by omega) h2
        · intro i h1 h2
          exact a4 i h1 (by omega)
      · simp only [hc, Bool.false_eq_true, if_false]
        have hlen : len / 2 < len := Nat.div_lt_self (by omega) (by norm_num)
        obtain ⟨a1, a2, a3, a4⟩ := ih first (len / 2) (by omega)
          (fun i j h1 h2 h3 h4 => hmono i j h1 h2 (by omega) h4)
        refine ⟨a1, by omega, a3, ?_⟩
        intro i h1 h2
        by_cases hi : i < first + len / 2
        · exact a4 i h1 hi
        · by_contra hcon
          have hci : comp i = true := by simpa using hcon
          exact hc (hmono (first + len / 2) i (by omega) (by omega) h2 hci)

theorem lower_bound_spec (comp : Nat → Bool) (n : Nat)
    (hmono : ∀ i j, i ≤ j → j < n → comp j = true → comp i = true) :
    lower_bound comp 0 n ≤ n ∧
    (∀ i, i < lower_bound comp 0 n → comp i = true) ∧
    (∀ i, lower_bound comp 0 n ≤ i → i < n → comp i = false) := by
  have h := lower_bound_loop_spec comp (n - 0) 0 (n - 0) (le_refl _)
    (fun i j _ h2 h3 h4 => hmono i j h2 (by omega) h4)
  unfold lower_bound
  refine ⟨by omega, fun i hi => h.2.2.1 i (by omega) hi, fun i h1 h2 => h.2.2.2 i h1 (by omega)⟩

theorem length_read_bytes (m : Nat → Nat) (off len : Nat) : (read_bytes m off len).length = len := by
  simp [read_bytes]

theorem read_bytes_congr {m m' : Nat → Nat} {off off' len : Nat}
    (h : ∀ i, i < len → m' (off' + i) = m (off + i)) :
    read_bytes m' off' len = read_bytes m off len := by
  unfold read_bytes
  apply List.map_congr_left
  intro i hi
  exact h i (List.mem_range.mp hi)

theorem pair_size_pos (c : leaf_decls) (m : Nat → Nat) (o : Nat) : 0 < pair_size c m o := by
  unfold pair_size sizeof_btree_leaf_pair; omega

theorem pair_size_eq (c : leaf_decls) (m : Nat → Nat) (o : Nat) :
    pair_size c m o = 1 + m o + c.sizeof_btree_value + stored_mem_size c m (o + 1 + m o) := by
  unfold pair_size sizeof_btree_leaf_pair value_ptr key_size; omega

theorem same_pair_key_size {c : leaf_decls} {m m' : Nat → Nat} {o o' : Nat}
    (h : same_pair c m o m' o') : m' o' = m o := by
  have := h 0 (pair_size_pos c m o)
  simpa using this

theorem same_pair_key {c : leaf_decls} {m m' : Nat → Nat} {o o' : Nat}
    (h : same_pair c m o m' o') : key_at m' o' = key_at m o := by
  unfold key_at key_size
  rw [same_pair_key_size h]
  apply read_bytes_congr
  intro i hi
  have := h (1 + i) (by rw [pair_size_eq]; omega)
  rw [← Nat.add_assoc, ← Nat.add_assoc] at this
  exact this

theorem same_pair_mem_size {c : leaf_decls} {m m' : Nat → Nat} {o o' : Nat}
    (h : same_pair c m o m' o') :
    stored_mem_size c m' (o' + 1 + m' o') = stored_mem_size c m (o + 1 + m o) := by
  unfold stored_mem_size
  rw [same_pair_key_size h]
  congr 1
  apply read_bytes_congr
  intro i hi
  have := h (1 + m o + i) (by rw [pair_size_eq]; omega)
  rw [← Nat.add_assoc, ← Nat.add_assoc, ← Nat.add_assoc, ← Nat.add_assoc] at this
  exact this

theorem same_pair_size {c : leaf_decls} {m m' : Nat → Nat} {o o' : Nat}
    (h : same_pair c m o m' o') : pair_size c m' o' = pair_size c m o := by
  rw [pair_size_eq, pair_size_eq, same_pair_mem_size h, same_pair_key_size h]

theorem same_pair_value {c : leaf_decls} {m m' : Nat → Nat} {o o' : Nat}
    (h : same_pair c m o m' o') :
    value_at c m' (value_ptr m' o') = value_at c m (value_ptr m o) := by
  unfold value_at value_ptr key_size
  rw [same_pair_mem_size h, same_pair_key_size h]
  apply read_bytes_congr
  intro i hi
  have := h (1 + m o + i) (by rw [pair_size_eq]; omega)
  rw [← Nat.add_assoc, ← Nat.add_assoc, ← Nat.add_assoc, ← Nat.add_assoc] at this
  exact this

theorem same_pair_kv {c : leaf_decls} {m m' : Nat → Nat} {o o' : Nat}
    (h : same_pair c m o m' o') : pair_kv c m' o' = pair_kv c m o := by
  unfold pair_kv
  rw [same_pair_key h, same_pair_value h]

theorem same_pair_refl (c : leaf_decls) (m : Nat → Nat) (o : Nat) : same_pair c m o m o :=
  fun _ _ => rfl

theorem same_pair_trans {c : leaf_decls} {m m' m'' : Nat → Nat} {o o' o'' : Nat}
    (h1 : same_pair c m o m' o') (h2 : same_pair c m' o' m'' o'') : same_pair c m o m'' o'' := by
  intro i hi
  rw [h2 i (by rw [same_pair_size h1]; exact hi), h1 i hi]

/-! ### The directory as a list -/

theorem length_slots (node : btree_leaf_node) : (slots node).length = node.npairs := by
  simp [slots]

theorem mem_slots {node : btree_leaf_node} {o : Nat} :
    o ∈ slots node ↔ ∃ i, i < node.npairs ∧ node.pair_offsets i = o := by
  simp [slots]

theorem slot_mem (node : btree_leaf_node) {i : Nat} (h : i < node.npairs) :
    node.pair_offsets i ∈ slots node := mem_slots.mpr ⟨i, h, rfl⟩

theorem getElem_slots (node : btree_leaf_node) (i : Nat) (h : i < (slots node).length) :
    (slots node)[i] = node.pair_offsets i := by
  simp [slots]

theorem pairwise_slots {node : btree_leaf_node} {R : Nat → Nat → Prop} :
    (slots node).Pairwise R ↔
      ∀ i j, i < j → j < node.npairs → R (node.pair_offsets i) (node.pair_offsets j) := by
  rw [List.pairwise_iff_getElem]
  constructor
  · intro h i j hij hj
    have := h i j (by rw [length_slots]; omega) (by rw [length_slots]; omega) hij
    simpa [getElem_slots] using this
  · intro h i j hi hj hij
    rw [getElem_slots, getElem_slots]
    exact h i j hij (by rw [length_slots] at hj; exact hj)

theorem mem_entries {c : leaf_decls} {node : btree_leaf_node} {kv : btree_key × btree_value} :
    kv ∈ entries c node ↔
      ∃ i, i < node.npairs ∧ (slot_key node i, slot_value c node i) = kv := by
  simp [entries, slots, pair_kv, slot_key, slot_value]

/-! ### Binary search of the directory -/

theorem get_offset_index_spec {node : btree_leaf_node} (key : btree_key)
    (hs : (slots node).Pairwise (leaf_key_lt node.bytes)) :
    get_offset_index node key ≤ node.npairs ∧
    (∀ i, i < get_offset_index node key → sized_strcmp (slot_key node i) key < 0) ∧
    (∀ i, get_offset_index node key ≤ i → i < node.npairs →
      0 ≤ sized_strcmp (slot_key node i) key) := by
  have hmono : ∀ i j, i ≤ j → j < node.npairs →
      leaf_key_comp node key j = true → leaf_key_comp node key i = true := by
    intro i j hij hj hc
    rcases Nat.eq_or_lt_of_le hij with rfl | hlt
    · exact hc
    · have := pairwise_slots.mp hs i j hlt hj
      unfold leaf_key_comp at hc ⊢
      simp only [decide_eq_true_eq] at hc ⊢
      exact sized_strcmp_trans this hc
  obtain ⟨h1, h2, h3⟩ := lower_bound_spec (leaf_key_comp node key) node.npairs hmono
  refine ⟨h1, ?_, ?_⟩
  · intro i hi
    have := h2 i hi
    unfold leaf_key_comp at this
    simpa [slot_key] using this
  · intro i hi hn
    have := h3 i hi hn
    unfold leaf_key_comp at this
    simp only [decide_eq_false_iff_not, not_lt] at this
    exact this

theorem find_key_eq_some {node : btree_leaf_node} {key : btree_key} {i : Nat}
    (h : find_key node key = some i) : i < node.npairs ∧ slot_key node i = key := by
  unfold find_key at h
  simp only at h
  split_ifs at h with hc
  simp only [Option.some.injEq] at h
  subst h
  refine ⟨hc.1, ?_⟩
  have := hc.2
  unfold is_equal at this
  simp only [decide_eq_true_eq] at this
  exact (sized_strcmp_eq_zero.mp this).symm

theorem find_key_of_slot {node : btree_leaf_node} {i : Nat}
    (hs : (slots node).Pairwise (leaf_key_lt node.bytes)) (hi : i < node.npairs) :
    find_key node (slot_key node i) = some i := by
  obtain ⟨h1, h2, h3⟩ := get_offset_index_spec (slot_key node i) hs
  have hidx : get_offset_index node (slot_key node i) = i := by
    apply le_antisymm
    · by_contra hcon
      have := h2 i (by omega)
      exact sized_strcmp_irrefl _ this
    · by_contra hcon
      have hlt : get_offset_index node (slot_key node i) < i := by omega
      have := h3 _ (le_refl _) (by omega)
      have h4 := pairwise_slots.mp hs _ i hlt hi
      unfold leaf_key_lt at h4
      unfold slot_key at this h4
      omega
  unfold find_key
  simp only [hidx]
  rw [if_pos]
  refine ⟨hi, ?_⟩
  unfold is_equal
  simp only [decide_eq_true_eq]
  exact sized_strcmp_self _

theorem find_key_eq_none {node : btree_leaf_node} {key : btree_key}
    (h : ∀ i, i < node.npairs → slot_key node i ≠ key) : find_key node key = none := by
  cases hf : find_key node key with
  | none => rfl
  | some i => exact absurd (find_key_eq_some hf).2 (h i (find_key_eq_some hf).1)

theorem lookup_eq_map (c : leaf_decls) (node : btree_leaf_node) (key : btree_key) :
    lookup c node key = (find_key node key).map (slot_value c node) := by
  unfold lookup slot_value
  cases find_key node key <;> rfl

theorem lookup_of_mem {c : leaf_decls} {node : btree_leaf_node} {k : btree_key} {v : btree_value}
    (hs : (slots node).Pairwise (leaf_key_lt node.bytes)) (h : (k, v) ∈ entries c node) :
    lookup c node k = some v := by
  obtain ⟨i, hi, he⟩ := mem_entries.mp h
  simp only [Prod.mk.injEq] at he
  rw [lookup_eq_map, ← he.1, find_key_of_slot hs hi]
  simp [he.2]

theorem mem_of_lookup {c : leaf_decls} {node : btree_leaf_node} {k : btree_key} {v : btree_value}
    (h : lookup c node k = some v) : (k, v) ∈ entries c node := by
  rw [lookup_eq_map] at h
  cases hf : find_key node k with
  | none => simp [hf] at h
  | some i =>
    simp only [hf, Option.map_some', Option.some.injEq] at h
    obtain ⟨hi, hk⟩ := find_key_eq_some hf
    exact mem_entries.mpr ⟨i, hi, by rw [hk, h]⟩

theorem lookup_none_of_not_mem {c : leaf_decls} {node : btree_leaf_node} {k : btree_key}
    (h : ∀ v, (k, v) ∉ entries c node) : lookup c node k = none := by
  cases hl : lookup c node k with
  | none => rfl
  | some v => exact absurd (mem_of_lookup hl) (h v)

/-- Two pages with sorted directories that hold the same pairs under a key answer
`lookup` of that key alike. -/
theorem lookup_congr {c : leaf_decls} {node node' : btree_leaf_node} {k : btree_key}
    (hs : (slots node).Pairwise (leaf_key_lt node.bytes))
    (hs' : (slots node').Pairwise (leaf_key_lt node'.bytes))
    (h : ∀ v, (k, v) ∈ entries c node' ↔ (k, v) ∈ entries c node) :
    lookup c node' k = lookup c node k := by
  cases hl : lookup c node k with
  | none =>
    apply lookup_none_of_not_mem
    intro v hv
    have := lookup_of_mem hs ((h v).mp hv)
    rw [hl] at this
    exact Option.noConfusion this
  | some v => exact lookup_of_mem hs' ((h v).mpr (mem_of_lookup hl))

theorem pairs_apart_symm (c : leaf_decls) (m : Nat → Nat) : Symmetric (pairs_apart c m) :=
  fun _ _ h => Or.symm h

theorem valid.heap {c : leaf_decls} {B : Nat} {node : btree_leaf_node} (h : valid c B node) :
    heap_inv c B node.bytes node.frontmost_offset (slots node) :=
  ⟨h.front_le, fun o ho => ⟨h.slot_lo o ho, h.slot_hi o ho⟩, h.apart, h.dense⟩

theorem heap_inv_perm {c : leaf_decls} {B : Nat} {m : Nat → Nat} {front : Nat} {L L' : List Nat}
    (hp : L.Perm L') (h : heap_inv c B m front L) : heap_inv c B m front L' := by
  obtain ⟨h1, h2, h3, h4⟩ := h
  refine ⟨h1, fun o ho => h2 o (hp.mem_iff.mpr ho), ?_, ?_⟩
  · exact (hp.pairwise_iff (fun {a b} hab => pairs_apart_symm c m hab)).mp h3
  · rw [← h4]
    exact ((hp.map _).sum_eq).symm

theorem heap_inv_nil (c : leaf_decls) (B : Nat) (m : Nat → Nat) :
    heap_inv c B m B [] :=
  ⟨le_refl _, by simp, List.Pairwise.nil, by simp⟩

/-- In a heap that satisfies the invariant every pair lies below or above any other one. -/
theorem heap_inv_cons {c : leaf_decls} {B : Nat} {m : Nat → Nat} {front d : Nat} {L0 : List Nat}
    (h : heap_inv c B m front (d :: L0)) :
    front ≤ d ∧ d + pair_size c m d ≤ B ∧
    (∀ o ∈ L0, front ≤ o ∧ o + pair_size c m o ≤ B ∧
      (o + pair_size c m o ≤ d ∨ d + pair_size c m d ≤ o)) ∧
    L0.Pairwise (pairs_apart c m) ∧
    (L0.map (pair_size c m)).sum + pair_size c m d = B - front := by
  obtain ⟨h1, h2, h3, h4⟩ := h
  rw [List.pairwise_cons] at h3
  refine ⟨(h2 d (List.mem_cons_self _ _)).1, (h2 d (List.mem_cons_self _ _)).2, ?_, h3.2, ?_⟩
  · intro o ho
    refine ⟨(h2 o (List.mem_cons_of_mem _ ho)).1, (h2 o (List.mem_cons_of_mem _ ho)).2, ?_⟩
    exact (h3.1 o ho).symm
  · simp only [List.map_cons, List.sum_cons] at h4
    omega

/-! ### `shift_pairs` and `delete_pair` -/

theorem shift_pairs_npairs (node : btree_leaf_node) (cut : Nat) (sh : Int) :
    (shift_pairs node cut sh).npairs = node.npairs := rfl

theorem shift_pairs_magic (node : btree_leaf_node) (cut : Nat) (sh : Int) :
    (shift_pairs node cut sh).magic = node.magic := rfl

theorem shift_pairs_front (node : btree_leaf_node) (cut : Nat) (sh : Int) :
    (shift_pairs node cut sh).frontmost_offset = u16 (node.frontmost_offset + sh) := rfl

theorem shift_pairs_slots (node : btree_leaf_node) (cut : Nat) (sh : Int) :
    slots (shift_pairs node cut sh) =
      (slots node).map (fun o => if o < cut then u16 (o + sh) else o) := by
  unfold slots shift_pairs
  simp only [List.map_map]
  apply List.map_congr_left
  intro i hi
  have := List.mem_range.mp hi
  simp [this]

/-- The memory after `delete_pair`: a pair below the victim is found `shift` bytes
higher, a pair above it where it was. -/
theorem delete_pair_same_pair {c : leaf_decls} {node : btree_leaf_node} {d o : Nat}
    (hfo : node.frontmost_offset ≤ o)
    (hod : o + pair_size c node.bytes o ≤ d ∨ d + pair_size c node.bytes d ≤ o) :
    same_pair c node.bytes o (delete_pair c node d).bytes
      (if o < d then o + pair_size c node.bytes d else o) := by
  intro i hi
  have hp := pair_size_pos c node.bytes o
  have hpd := pair_size_pos c node.bytes d
  unfold delete_pair shift_pairs
  simp only
  rcases hod with h | h
  · have hlt : o < d := by omega
    rw [if_pos hlt, if_pos (by constructor <;> omega)]
    congr 1
    omega
  · have hlt : ¬ o < d := by omega
    rw [if_neg hlt, if_neg (by omega)]

theorem delete_pair_heap {c : leaf_decls} {B : Nat} {node : btree_leaf_node} {d : Nat}
    {L0 : List Nat} (hB : B ≤ 65535)
    (h : heap_inv c B node.bytes node.frontmost_offset (d :: L0)) :
    (delete_pair c node d).frontmost_offset =
      node.frontmost_offset + pair_size c node.bytes d ∧
    heap_inv c B (delete_pair c node d).bytes (delete_pair c node d).frontmost_offset
      (L0.map (fun o => if o < d then o + pair_size c node.bytes d else o)) ∧
    (∀ o ∈ L0, same_pair c node.bytes o (delete_pair c node d).bytes
      (if o < d then o + pair_size c node.bytes d else o)) := by
  obtain ⟨h1, h2, h3, h4, h5⟩ := heap_inv_cons h
  have hsame : ∀ o ∈ L0, same_pair c node.bytes o (delete_pair c node d).bytes
      (if o < d then o + pair_size c node.bytes d else o) :=
    fun o ho => delete_pair_same_pair (h3 o ho).1 (h3 o ho).2.2
  have hfront : (delete_pair c node d).frontmost_offset =
      node.frontmost_offset + pair_size c node.bytes d := by
    unfold delete_pair
    rw [shift_pairs_front]
    have := u16_nat (node.frontmost_offset + pair_size c node.bytes d) (by omega)
    rw [← this]; congr 1
  refine ⟨hfront, ⟨?_, ?_, ?_, ?_⟩, hsame⟩
  · rw [hfront]; omega
  · intro o' ho'
    obtain ⟨o, ho, rfl⟩ := List.mem_map.mp ho'
    rw [same_pair_size (hsame o ho), hfront]
    obtain ⟨a1, a2, a3⟩ := h3 o ho
    have hp := pair_size_pos c node.bytes o
    split_ifs <;> omega
  · rw [List.pairwise_map]
    refine List.Pairwise.imp_of_mem ?_ h4
    intro a b ha hb hab
    unfold pairs_apart at hab ⊢
    rw [same_pair_size (hsame a ha), same_pair_size (hsame b hb)]
    obtain ⟨a1, a2, a3⟩ := h3 a ha
    obtain ⟨b1, b2, b3⟩ := h3 b hb
    have hpa := pair_size_pos c node.bytes a
    have hpb := pair_size_pos c node.bytes b
    split_ifs <;> omega
  · rw [List.map_map, hfront]
    have : L0.map (pair_size c (delete_pair c node d).bytes ∘
        fun o => if o < d then o + pair_size c node.bytes d else o) =
        L0.map (pair_size c node.bytes) := by
      apply List.map_congr_left
      intro o ho
      exact same_pair_size (hsame o ho)
    rw [this]; omega

theorem getElem?_slots (node : btree_leaf_node) (j : Nat) :
    (slots node)[j]? = if j < node.npairs then some (node.pair_offsets j) else none := by
  unfold slots
  rw [List.getElem?_map]
  by_cases h : j < node.npairs
  · rw [List.getElem?_range h, if_pos h]; rfl
  · rw [if_neg h, List.getElem?_eq_none (by simp; omega)]; rfl

theorem slots_insert_offset (node : btree_leaf_node) (off idx : Nat)
    (hidx : idx ≤ node.npairs) (hn : node.npairs + 1 < 65536) :
    slots (insert_offset node off idx) =
      (slots node).take idx ++ off :: (slots node).drop idx := by
  have hnp : (insert_offset node off idx).npairs = node.npairs + 1 := by
    unfold insert_offset
    simp only
    have := u16_nat (node.npairs + 1) hn
    rw [← this]; congr 1
  apply List.ext_getElem?
  intro j
  rw [getElem?_slots, hnp, List.getElem?_append, List.length_take, length_slots,
    Nat.min_eq_left hidx]
  by_cases h1 : j < idx
  · rw [if_pos h1, List.getElem?_take_of_lt h1, getElem?_slots, if_pos (by omega), if_pos (by omega)]
    unfold insert_offset
    simp only
    rw [if_neg (by omega), if_neg (by omega)]
  · rw [if_neg h1, List.getElem?_cons]
    by_cases h2 : j = idx
    · subst h2
      rw [if_pos (show j - j = 0 by omega), if_pos (show j < node.npairs + 1 by omega)]
      unfold insert_offset
      simp
    · rw [if_neg (show ¬ (j - idx = 0) by omega), List.getElem?_drop, getElem?_slots]
      have e : idx + (j - idx - 1) = j - 1 := by omega
      rw [e]
      by_cases h3 : j < node.npairs + 1
      · rw [if_pos h3, if_pos (show j - 1 < node.npairs by omega)]
        unfold insert_offset
        simp only
        rw [if_neg h2, if_pos (by omega)]
      · rw [if_neg h3, if_neg (show ¬ (j - 1 < node.npairs) by omega)]

theorem slots_delete_offset (node : btree_leaf_node) (idx : Nat)
    (hidx : idx < node.npairs) (hn : node.npairs < 65536) :
    slots (delete_offset node idx) =
      (slots node).take idx ++ (slots node).drop (idx + 1) := by
  have hnp : (delete_offset node idx).npairs = node.npairs - 1 := by
    unfold delete_offset
    simp only
    have := u16_nat (node.npairs - 1) (by omega)
    rw [← this]; congr 1; omega
  apply List.ext_getElem?
  intro j
  rw [getElem?_slots, hnp, List.getElem?_append, List.length_take, length_slots,
    Nat.min_eq_left (by omega)]
  by_cases h1 : j < idx
  · rw [if_pos h1, List.getElem?_take_of_lt h1, getElem?_slots, if_pos (by omega), if_pos (by omega)]
    unfold delete_offset
    simp only
    rw [if_neg (by omega)]
  · rw [if_neg h1, List.getElem?_drop, getElem?_slots]
    have e : idx + 1 + (j - idx) = j + 1 := by omega
    rw [e]
    by_cases h3 : j < node.npairs - 1
    · rw [if_pos h3, if_pos (by omega)]
      unfold delete_offset
      simp only
      rw [if_pos (by omega)]
    · rw [if_neg h3, if_neg (by omega)]

theorem slots_split (node : btree_leaf_node) {idx : Nat} (hidx : idx < node.npairs) :
    slots node = (slots node).take idx ++ node.pair_offsets idx :: (slots node).drop (idx + 1) := by
  have hl : idx < (slots node).length := by rw [length_slots]; exact hidx
  have h := List.take_append_drop idx (slots node)
  rw [List.drop_eq_getElem_cons hl, getElem_slots] at h
  exact h.symm

theorem slots_perm_cons (node : btree_leaf_node) {idx : Nat} (hidx : idx < node.npairs) :
    (slots node).Perm
      (node.pair_offsets idx :: ((slots node).take idx ++ (slots node).drop (idx + 1))) := by
  have h := slots_split node hidx
  have h2 : ((slots node).take idx ++ node.pair_offsets idx :: (slots node).drop (idx + 1)).Perm
      (node.pair_offsets idx :: ((slots node).take idx ++ (slots node).drop (idx + 1))) :=
    List.perm_middle
  rw [← h] at h2
  exact h2

theorem take_drop_succ_sublist {α : Type} (L : List α) (idx : Nat) :
    (L.take idx ++ L.drop (idx + 1)).Sublist L := by
  rw [← List.eraseIdx_eq_take_drop_succ]
  exact List.eraseIdx_sublist L idx

/-! ### Carrying pairs over to another memory -/

theorem transport_sorted {c : leaf_decls} {m m' : Nat → Nat} {L : List Nat} {f : Nat → Nat}
    (hsame : ∀ o ∈ L, same_pair c m o m' (f o)) (hs : L.Pairwise (leaf_key_lt m)) :
    (L.map f).Pairwise (leaf_key_lt m') := by
  rw [List.pairwise_map]
  refine List.Pairwise.imp_of_mem ?_ hs
  intro a b ha hb hab
  unfold leaf_key_lt at hab ⊢
  rw [same_pair_key (hsame a ha), same_pair_key (hsame b hb)]
  exact hab

theorem transport_kv {c : leaf_decls} {m m' : Nat → Nat} {L : List Nat} {f : Nat → Nat}
    (hsame : ∀ o ∈ L, same_pair c m o m' (f o)) :
    (L.map f).map (pair_kv c m') = L.map (pair_kv c m) := by
  rw [List.map_map]
  apply List.map_congr_left
  intro o ho
  exact same_pair_kv (hsame o ho)

theorem transport_sizes {c : leaf_decls} {m m' : Nat → Nat} {L : List Nat} {f : Nat → Nat}
    (hsame : ∀ o ∈ L, same_pair c m o m' (f o)) :
    (L.map f).map (pair_size c m') = L.map (pair_size c m) := by
  rw [List.map_map]
  apply List.map_congr_left
  intro o ho
  exact same_pair_size (hsame o ho)

theorem valid_of_heap {c : leaf_decls} {B : Nat} {node : btree_leaf_node} (hB : B ≤ 65535)
    (hmagic : node.magic = c.expected_magic) (hpos : 0 < node.frontmost_offset)
    (hdir : sizeof_btree_leaf_node + node.npairs * sizeof_pair_offset ≤ node.frontmost_offset)
    (hheap : heap_inv c B node.bytes node.frontmost_offset (slots node))
    (hsorted : (slots node).Pairwise (leaf_key_lt node.bytes)) : valid c B node :=
  ⟨hB, hmagic, hpos, hheap.1, hdir, fun o ho => (hheap.2.1 o ho).1,
    fun o ho => (hheap.2.1 o ho).2, hsorted, hheap.2.2.1, hheap.2.2.2⟩

theorem valid.npairs_lt {c : leaf_decls} {B : Nat} {node : btree_leaf_node}
    (h : valid c B node) : node.npairs * 2 + 8 ≤ node.frontmost_offset ∧
      node.frontmost_offset ≤ 65535 := by
  have h1 := h.dir
  have h2 := h.front_le
  have h3 := h.block_u16
  unfold sizeof_btree_leaf_node sizeof_pair_offset at h1
  omega

/-! ### Reading back what `write_bytes` wrote -/

theorem write_bytes_outside (m : Nat → Nat) (dst : Nat) (data : List Nat) (a : Nat)
    (h : a < dst ∨ dst + data.length ≤ a) : write_bytes m dst data a = m a := by
  unfold write_bytes
  rw [if_neg (by omega)]

theorem write_bytes_inside (m : Nat → Nat) (dst : Nat) (data : List Nat) (i : Nat)
    (h : i < data.length) : write_bytes m dst data (dst + i) = data[i] := by
  unfold write_bytes
  rw [if_pos (by omega)]
  simp [List.getD_eq_getElem?_getD, h]

theorem read_bytes_write_bytes (m : Nat → Nat) (dst : Nat) (data : List Nat) :
    read_bytes (write_bytes m dst data) dst data.length = data := by
  apply List.ext_getElem
  · rw [length_read_bytes]
  · intro i h1 h2
    unfold read_bytes
    simp only [List.getElem_map, List.getElem_range]
    exact write_bytes_inside m dst data i h2

theorem read_bytes_eq_of_forall {m m' : Nat → Nat} {off len : Nat}
    (h : ∀ a, off ≤ a → a < off + len → m' a = m a) :
    read_bytes m' off len = read_bytes m off len :=
  read_bytes_congr (fun i hi => h (off + i) (by omega) (by omega))

theorem getElem_entries (c : leaf_decls) (node : btree_leaf_node) (j : Nat)
    (h : j < (entries c node).length) :
    (entries c node)[j] = (slot_key node j, slot_value c node j) := by
  unfold entries
  rw [List.getElem_map, getElem_slots]
  rfl

theorem length_entries (c : leaf_decls) (node : btree_leaf_node) :
    (entries c node).length = node.npairs := by
  unfold entries; rw [List.length_map, length_slots]

theorem sorted_keys_ne {node : btree_leaf_node}
    (hs : (slots node).Pairwise (leaf_key_lt node.bytes)) {i j : Nat}
    (hi : i < node.npairs) (hj : j < node.npairs) (hij : i ≠ j) :
    slot_key node i ≠ slot_key node j := by
  intro he
  rcases Nat.lt_or_gt_of_ne hij with h | h
  · have := pairwise_slots.mp hs i j h hj
    unfold leaf_key_lt at this
    unfold slot_key at he
    rw [he] at this
    exact sized_strcmp_irrefl _ this
  · have := pairwise_slots.mp hs j i h hi
    unfold leaf_key_lt at this
    unfold slot_key at he
    rw [he] at this
    exact sized_strcmp_irrefl _ this

/-- What `remove` does to a valid page that holds the key at slot `idx`. -/
theorem remove_spec {c : leaf_decls} {B : Nat} {node : btree_leaf_node} {k : btree_key}
    {idx : Nat} (hv : valid c B node) (hf : find_key node k = some idx) :
    ∃ node', remove c B node k = some node' ∧ valid c B node' ∧
      node'.npairs = node.npairs - 1 ∧
      entries c node' = (entries c node).eraseIdx idx := by
  obtain ⟨hidx, hkey⟩ := find_key_eq_some hf
  obtain ⟨hn1, hn2⟩ := hv.npairs_lt
  have hB := hv.block_u16
  refine ⟨delete_offset (delete_pair c node (node.pair_offsets idx)) idx, ?_, ?_⟩
  · unfold remove; rw [hf]
  set d := node.pair_offsets idx with hd
  set L0 := (slots node).take idx ++ (slots node).drop (idx + 1) with hL0
  have hheap : heap_inv c B node.bytes node.frontmost_offset (d :: L0) :=
    heap_inv_perm (slots_perm_cons node hidx) hv.heap
  obtain ⟨hfront, hheap', hsame⟩ := delete_pair_heap hv.block_u16 hheap
  obtain ⟨c1, c2, c3, c4, c5⟩ := heap_inv_cons hheap
  have hslots : slots (delete_offset (delete_pair c node d) idx) =
      L0.map (fun o => if o < d then o + pair_size c node.bytes d else o) := by
    rw [slots_delete_offset _ _ (by rw [delete_pair, shift_pairs_npairs]; exact hidx)
      (by rw [delete_pair, shift_pairs_npairs]; omega)]
    unfold delete_pair
    rw [shift_pairs_slots, ← List.map_take, ← List.map_drop, ← List.map_append]
    apply List.map_congr_left
    intro o ho
    by_cases hlt : o < d
    · rw [if_pos hlt, if_pos hlt]
      have := c3 o ho
      have hp := pair_size_pos c node.bytes o
      have := u16_nat (o + pair_size c node.bytes d) (by omega)
      rw [← this]; congr 1
    · rw [if_neg hlt, if_neg hlt]
  have hsub : L0.Sublist (slots node) := take_drop_succ_sublist _ _
  refine ⟨?_, ?_, ?_⟩
  · apply valid_of_heap hv.block_u16
    · exact hv.magic
    · show 0 < (delete_pair c node d).frontmost_offset
      rw [hfront]; have := hv.front_pos; omega
    · show sizeof_btree_leaf_node + (delete_offset (delete_pair c node d) idx).npairs *
        sizeof_pair_offset ≤ (delete_pair c node d).frontmost_offset
      have hnp : (delete_offset (delete_pair c node d) idx).npairs = node.npairs - 1 := by
        unfold delete_offset
        simp only
        rw [delete_pair, shift_pairs_npairs]
        have := u16_nat (node.npairs - 1) (by omega)
        rw [← this]; congr 1; omega
      rw [hnp, hfront]
      have := hv.dir
      unfold sizeof_btree_leaf_node sizeof_pair_offset at this ⊢
      omega
    · rw [hslots]; exact hheap'
    · rw [hslots]
      exact transport_sorted hsame (hv.sorted.sublist hsub)
  · unfold delete_offset
    simp only
    rw [delete_pair, shift_pairs_npairs]
    have := u16_nat (node.npairs - 1) (by omega)
    rw [← this]; congr 1; omega
  · unfold entries
    rw [hslots]
    show List.map (pair_kv c (delete_pair c node d).bytes) _ = _
    rw [transport_kv hsame, hL0, List.eraseIdx_eq_take_drop_succ, List.map_append,
      List.map_take, List.map_drop]

theorem read_bytes_write_take (m : Nat → Nat) (dst : Nat) (data : List Nat) (n : Nat)
    (hn : n ≤ data.length) :
    read_bytes (write_bytes m dst data) dst n = data.take n := by
  apply List.ext_getElem
  · rw [length_read_bytes, List.length_take, Nat.min_eq_left hn]
  · intro i h1 h2
    unfold read_bytes
    simp only [List.getElem_map, List.getElem_range, List.getElem_take]
    rw [length_read_bytes] at h1
    exact write_bytes_inside m dst data i (by omega)

theorem value_wf_take {c : leaf_decls} {v : btree_value} (h : value_wf c v) :
    v.take (c.sizeof_btree_value + value_mem_size c v) = v := by
  unfold value_wf at h
  exact List.take_of_length_le (by omega)

/-- What `insert_pair(node, value, key)` writes: the new pair lies right below the
old heap and nothing of the old heap changes. -/
theorem insert_pair_kv_spec {c : leaf_decls} {node : btree_leaf_node} {k : btree_key}
    {v : btree_value} (hwf : value_wf c v)
    (hfit : sizeof_btree_leaf_pair c + k.length + value_mem_size c v ≤ node.frontmost_offset)
    (hfront : node.frontmost_offset < 65536) :
    (insert_pair_kv c node v k).2 =
      node.frontmost_offset - (sizeof_btree_leaf_pair c + k.length + value_mem_size c v) ∧
    (insert_pair_kv c node v k).1.frontmost_offset = (insert_pair_kv c node v k).2 ∧
    (insert_pair_kv c node v k).1.npairs = node.npairs ∧
    (insert_pair_kv c node v k).1.pair_offsets = node.pair_offsets ∧
    (insert_pair_kv c node v k).1.magic = node.magic ∧
    (∀ a, node.frontmost_offset ≤ a → (insert_pair_kv c node v k).1.bytes a = node.bytes a) ∧
    pair_kv c (insert_pair_kv c node v k).1.bytes (insert_pair_kv c node v k).2 = (k, v) ∧
    pair_size c (insert_pair_kv c node v k).1.bytes (insert_pair_kv c node v k).2 =
      sizeof_btree_leaf_pair c + k.length + value_mem_size c v := by
  set psz := sizeof_btree_leaf_pair c + k.length + value_mem_size c v with hpsz
  set front' := node.frontmost_offset - psz with hfront'
  have hu : u16 ((node.frontmost_offset : Int) - (psz : Nat)) = front' := by
    have := u16_nat front' (by omega)
    rw [← this]; congr 1; omega
  have hwl : v.length = c.sizeof_btree_value + value_mem_size c v := hwf
  have hsp : sizeof_btree_leaf_pair c = 1 + c.sizeof_btree_value := rfl
  set m1 := write_bytes node.bytes front' (k.length :: k) with hm1
  have hks1 : m1 front' = k.length := by
    have := write_bytes_inside node.bytes front' (k.length :: k) 0 (by simp)
    simpa using this
  have hvp : value_ptr m1 front' = front' + 1 + k.length := by
    unfold value_ptr key_size; rw [hks1]
  set m2 := write_bytes m1 (front' + 1 + k.length) v with hm2
  have hres : insert_pair_kv c node v k =
      ({ node with frontmost_offset := front', bytes := m2 }, front') := by
    unfold insert_pair_kv
    simp only [← hpsz, hu, ← hm1, hvp, value_wf_take hwf, ← hm2]
  rw [hres]
  have hks2 : m2 front' = k.length := by
    rw [hm2, write_bytes_outside _ _ _ _ (by omega), hks1]
  have hkey : key_at m2 front' = k := by
    unfold key_at key_size
    rw [hks2]
    apply List.ext_getElem
    · rw [length_read_bytes]
    · intro i h1 h2
      unfold read_bytes
      simp only [List.getElem_map, List.getElem_range]
      rw [hm2, write_bytes_outside _ _ _ _ (by omega), hm1]
      have := write_bytes_inside node.bytes front' (k.length :: k) (1 + i) (by simp; omega)
      rw [← Nat.add_assoc] at this
      rw [this]
      simp [Nat.add_comm 1 i]
  have hvp2 : value_ptr m2 front' = front' + 1 + k.length := by
    unfold value_ptr key_size; rw [hks2]
  have hms : stored_mem_size c m2 (front' + 1 + k.length) = value_mem_size c v := by
    unfold stored_mem_size value_mem_size
    rw [hm2, read_bytes_write_take _ _ _ _ (by omega)]
  have hval : value_at c m2 (front' + 1 + k.length) = v := by
    unfold value_at
    rw [hms, ← hwl, hm2, read_bytes_write_bytes]
  refine ⟨rfl, rfl, rfl, rfl, rfl, ?_, ?_, ?_⟩
  · intro a ha
    show m2 a = node.bytes a
    rw [hm2, write_bytes_outside _ _ _ _ (by omega), hm1,
      write_bytes_outside _ _ _ _ (by simp; omega)]
  · show pair_kv c m2 front' = (k, v)
    unfold pair_kv
    rw [hkey, hvp2, hval]
  · show pair_size c m2 front' = psz
    unfold pair_size
    rw [hvp2, hms]
    unfold key_size
    rw [hks2]

theorem slots_congr {node node' : btree_leaf_node} (h1 : node'.npairs = node.npairs)
    (h2 : node'.pair_offsets = node.pair_offsets) : slots node' = slots node := by
  unfold slots; rw [h1, h2]

theorem is_full_false {c : leaf_decls} {node : btree_leaf_node} {k : btree_key} {v : btree_value}
    (h : is_full c node k v = false) :
    8 + (node.npairs + 1) * 2 + (sizeof_btree_leaf_pair c + k.length + value_mem_size c v) <
      node.frontmost_offset := by
  unfold is_full sizeof_btree_leaf_node sizeof_pair_offset at h
  simp only [ge_iff_le, decide_eq_false_iff_not, not_le] at h
  omega

/-- Below the lower-bound index the keys are smaller than the searched key, and when
the key is not at the index, the keys from the index on are larger. -/
theorem get_offset_index_gt {node : btree_leaf_node} {k : btree_key}
    (hs : (slots node).Pairwise (leaf_key_lt node.bytes))
    (hnew : ¬ (get_offset_index node k ≠ node.npairs ∧
      is_equal (key_at node.bytes (node.pair_offsets (get_offset_index node k))) k = true))
    {j : Nat} (h1 : get_offset_index node k ≤ j) (h2 : j < node.npairs) :
    sized_strcmp k (slot_key node j) < 0 := by
  obtain ⟨a1, a2, a3⟩ := get_offset_index_spec k hs
  rw [sized_strcmp_swap]
  have hge := a3 j h1 h2
  rcases lt_or_eq_of_le hge with h | h
  · exact h
  · exfalso
    have hk : slot_key node j = k := sized_strcmp_eq_zero.mp h.symm
    rcases Nat.eq_or_lt_of_le h1 with he | hlt
    · apply hnew
      refine ⟨by omega, ?_⟩
      unfold is_equal
      simp only [decide_eq_true_eq]
      rw [he]
      exact h.symm
    · have h4 := pairwise_slots.mp hs _ j hlt h2
      have h5 := a3 _ (le_refl _) (by omega)
      unfold leaf_key_lt at h4
      unfold slot_key at hk h5
      rw [hk] at h4
      omega

theorem insert_new_spec {c : leaf_decls} {B : Nat} {node : btree_leaf_node} {k : btree_key}
    {v : btree_value} (hv : valid c B node) (hwf : value_wf c v)
    (hnf : is_full c node k v = false)
    (hnew : ¬ (get_offset_index node k ≠ node.npairs ∧
      is_equal (key_at node.bytes (node.pair_offsets (get_offset_index node k))) k = true)) :
    (insert c B node k v).1 = true ∧ valid c B (insert c B node k v).2 ∧
    (insert c B node k v).2.npairs = node.npairs + 1 ∧
    entries c (insert c B node k v).2 =
      (entries c node).take (get_offset_index node k) ++
        (k, v) :: (entries c node).drop (get_offset_index node k) := by
  obtain ⟨hn1, hn2⟩ := hv.npairs_lt
  have hB := hv.block_u16
  have hfull := is_full_false hnf
  obtain ⟨b1, b2, b3⟩ := get_offset_index_spec k hv.sorted
  set idx := get_offset_index node k with hidx
  obtain ⟨r1, r2, r3, r4, r5, r6, r7, r8⟩ :=
    @insert_pair_kv_spec c node k v hwf (by omega) (by omega)
  set psz := sizeof_btree_leaf_pair c + k.length + value_mem_size c v with hpsz
  have hins : insert c B node k v =
      (true, insert_offset (insert_pair_kv c node v k).1 (insert_pair_kv c node v k).2 idx) := by
    unfold insert
    rw [if_neg (by rw [hnf]; simp)]
    simp only
    rw [if_neg hnew]
  rw [hins]
  set r := insert_pair_kv c node v k with hr
  set L := slots node with hL
  have hsl : slots r.1 = L := slots_congr r3 r4
  have hslots : slots (insert_offset r.1 r.2 idx) = L.take idx ++ r.2 :: L.drop idx := by
    rw [slots_insert_offset _ _ _ (by rw [r3]; exact b1) (by rw [r3]; omega), hsl]
  have hsame : ∀ o ∈ L, same_pair c node.bytes o r.1.bytes o := by
    intro o ho i _
    exact r6 (o + i) (by have := hv.slot_lo o ho; omega)
  have hsame' : ∀ o ∈ L, same_pair c node.bytes o r.1.bytes (id o) := hsame
  have hfr : r.1.frontmost_offset = node.frontmost_offset - psz := by rw [r2, r1]
  have hheap : heap_inv c B r.1.bytes r.1.frontmost_offset (r.2 :: L) := by
    refine ⟨?_, ?_, ?_, ?_⟩
    · rw [hfr]; have := hv.front_le; omega
    · intro o ho
      rcases List.mem_cons.mp ho with rfl | ho
      · rw [r8, r2, r1]; have := hv.front_le; omega
      · rw [same_pair_size (hsame o ho), hfr]
        have := hv.slot_lo o ho; have := hv.slot_hi o ho; omega
    · rw [List.pairwise_cons]
      constructor
      · intro o ho
        left
        rw [r8, r1]
        have := hv.slot_lo o ho; omega
      · refine List.Pairwise.imp_of_mem ?_ hv.apart
        intro a b ha hb hab
        unfold pairs_apart at hab ⊢
        rw [same_pair_size (hsame a ha), same_pair_size (hsame b hb)]
        exact hab
    · rw [List.map_cons, List.sum_cons, r8]
      have e := transport_sizes hsame'
      rw [List.map_id] at e
      rw [e, hfr]
      have := hv.dense
      unfold pairs_bytes at this
      rw [this]
      have := hv.front_le
      omega
  have hperm : (r.2 :: L).Perm (L.take idx ++ r.2 :: L.drop idx) := by
    have h2 : (L.take idx ++ r.2 :: L.drop idx).Perm (r.2 :: (L.take idx ++ L.drop idx)) :=
      List.perm_middle
    rw [List.take_append_drop] at h2
    exact h2.symm
  have hs' : L.Pairwise (leaf_key_lt r.1.bytes) := by
    have := transport_sorted hsame' hv.sorted
    rwa [List.map_id] at this
  have hkey_new : key_at r.1.bytes r.2 = k := by
    have := congrArg Prod.fst r7
    exact this
  have hkey_old : ∀ j, j < node.npairs →
      key_at r.1.bytes (node.pair_offsets j) = slot_key node j := by
    intro j hj
    exact same_pair_key (hsame _ (slot_mem node hj))
  have hsorted : (L.take idx ++ r.2 :: L.drop idx).Pairwise (leaf_key_lt r.1.bytes) := by
    have hsplit := hs'
    rw [← List.take_append_drop idx L, List.pairwise_append] at hsplit
    obtain ⟨s1, s2, s3⟩ := hsplit
    rw [List.pairwise_append, List.pairwise_cons]
    refine ⟨s1, ⟨?_, s2⟩, ?_⟩
    · intro b hb
      obtain ⟨j, hj, rfl⟩ := List.mem_drop_iff_getElem.mp hb
      rw [length_slots] at hj
      rw [getElem_slots]
      unfold leaf_key_lt
      rw [hkey_new, hkey_old _ (by omega)]
      exact get_offset_index_gt hv.sorted hnew (by omega) (by omega)
    · intro a ha b hb
      rcases List.mem_cons.mp hb with rfl | hb
      · obtain ⟨i, hi, rfl⟩ := List.mem_take_iff_getElem.mp ha
        rw [length_slots] at hi
        rw [getElem_slots]
        unfold leaf_key_lt
        rw [hkey_new, hkey_old _ (by omega)]
        exact b2 i (by omega)
      · exact s3 a ha b hb
  have hnp : (insert_offset r.1 r.2 idx).npairs = node.npairs + 1 := by
    unfold insert_offset
    simp only
    rw [r3]
    have := u16_nat (node.npairs + 1) (by omega)
    rw [← this]; congr 1
  refine ⟨rfl, ?_, hnp, ?_⟩
  · apply valid_of_heap hB
    · show r.1.magic = c.expected_magic
      rw [r5]; exact hv.magic
    · show 0 < r.1.frontmost_offset
      rw [hfr]; omega
    · show sizeof_btree_leaf_node + (insert_offset r.1 r.2 idx).npairs * sizeof_pair_offset ≤
        r.1.frontmost_offset
      rw [hnp, hfr]
      unfold sizeof_btree_leaf_node sizeof_pair_offset
      omega
    · rw [hslots]
      exact heap_inv_perm hperm hheap
    · rw [hslots]; exact hsorted
  · unfold entries
    rw [hslots]
    show List.map (pair_kv c r.1.bytes) _ = _
    rw [List.map_append, List.map_cons, r7, ← List.map_take, ← List.map_drop]
    congr 1
    · apply List.map_congr_left
      intro o ho
      exact same_pair_kv (hsame o (List.mem_of_mem_take ho))
    · congr 1
      apply List.map_congr_left
      intro o ho
      exact same_pair_kv (hsame o (List.mem_of_mem_drop ho))

/-- The memory after the duplicate-key branch of `insert`: `m1` is the memory after
the shift by `sh` of the bytes `[front, cut)`, `cut` being where the payload of the
replaced pair at `d` starts, and the new value is written over the value region. -/
theorem dup_memory {c : leaf_decls} {m m1 : Nat → Nat} {front d : Nat} {sh : Int}
    {v : btree_value} (hwf : value_wf c v) (hfd : front ≤ d)
    (hsh : sh = (stored_mem_size c m (d + 1 + m d) : Int) - (value_mem_size c v : Int))
    (hpos : 0 ≤ (front : Int) + sh)
    (hm1 : ∀ a : Nat, m1 a =
      if (front : Int) + sh ≤ a ∧ (a : Int) < (d + 1 + m d + c.sizeof_btree_value : Nat) + sh
      then m ((a : Int) - sh).toNat else m a) :
    (∀ o, front ≤ o → o + pair_size c m o ≤ d →
      same_pair c m o (write_bytes m1 (((d : Int) + sh).toNat + 1 + m d) v)
        ((o : Int) + sh).toNat) ∧
    (∀ o, d + pair_size c m d ≤ o →
      same_pair c m o (write_bytes m1 (((d : Int) + sh).toNat + 1 + m d) v) o) ∧
    key_at (write_bytes m1 (((d : Int) + sh).toNat + 1 + m d) v) ((d : Int) + sh).toNat =
      key_at m d ∧
    pair_size c (write_bytes m1 (((d : Int) + sh).toNat + 1 + m d) v) ((d : Int) + sh).toNat =
      sizeof_btree_leaf_pair c + m d + value_mem_size c v ∧
    value_at c (write_bytes m1 (((d : Int) + sh).toNat + 1 + m d) v)
      (value_ptr (write_bytes m1 (((d : Int) + sh).toNat + 1 + m d) v) ((d : Int) + sh).toNat)
      = v := by
  have hwl : v.length = c.sizeof_btree_value + value_mem_size c v := hwf
  have hpd := pair_size_eq c m d
  set d' := ((d : Int) + sh).toNat with hd'
  set m2 := write_bytes m1 (d' + 1 + m d) v with hm2
  have hd'e : (d' : Int) = d + sh := by omega
  have hks1 : m1 d' = m d := by
    rw [hm1, if_pos (by constructor <;> omega)]
    congr 1; omega
  have hks2 : m2 d' = m d := by
    rw [hm2, write_bytes_outside _ _ _ _ (by omega), hks1]
  have hvp2 : value_ptr m2 d' = d' + 1 + m d := by
    unfold value_ptr key_size; rw [hks2]
  have hms : stored_mem_size c m2 (d' + 1 + m d) = value_mem_size c v := by
    unfold stored_mem_size value_mem_size
    rw [hm2, read_bytes_write_take _ _ _ _ (by omega)]
  refine ⟨?_, ?_, ?_, ?_, ?_⟩
  · intro o h1 h2 i hi
    have hp := pair_size_pos c m o
    rw [hm2, write_bytes_outside _ _ _ _ (by omega), hm1, if_pos (by constructor <;> omega)]
    congr 1; omega
  · intro o h1 i hi
    rw [hm2, write_bytes_outside _ _ _ _ (by omega), hm1, if_neg (by omega)]
  · unfold key_at key_size
    rw [hks2]
    apply read_bytes_congr
    intro i hi
    rw [hm2, write_bytes_outside _ _ _ _ (by omega), hm1, if_pos (by constructor <;> omega)]
    congr 1; omega
  · unfold pair_size
    rw [hvp2, hms]
    unfold key_size
    rw [hks2]
  · rw [hvp2]
    unfold value_at
    rw [hms, ← hwl, hm2, read_bytes_write_bytes]

theorem slots_eq_map {node node1 : btree_leaf_node} {f : Nat → Nat}
    (hn : node1.npairs = node.npairs)
    (h : ∀ i, i < node.npairs → node1.pair_offsets i = f (node.pair_offsets i)) :
    slots node1 = (slots node).map f := by
  unfold slots
  rw [hn, List.map_map]
  apply List.map_congr_left
  intro i hi
  exact h i (List.mem_range.mp hi)

theorem transport_sorted_keys {m m' : Nat → Nat} {L : List Nat} {f : Nat → Nat}
    (hkey : ∀ o ∈ L, key_at m' (f o) = key_at m o) (hs : L.Pairwise (leaf_key_lt m)) :
    (L.map f).Pairwise (leaf_key_lt m') := by
  rw [List.pairwise_map]
  refine List.Pairwise.imp_of_mem ?_ hs
  intro a b ha hb hab
  unfold leaf_key_lt at hab ⊢
  rw [hkey a ha, hkey b hb]
  exact hab

/-- The page after the optional `shift_pairs` of the duplicate-key branch, whether
the shift is zero (no call) or not. -/
theorem dup_node1 {node : btree_leaf_node} {cut : Nat} {sh : Int}
    (hfront : 0 ≤ (node.frontmost_offset : Int) + sh ∧ (node.frontmost_offset : Int) + sh < 65536)
    (hslots : ∀ i, i < node.npairs → node.pair_offsets i < cut →
      0 ≤ (node.pair_offsets i : Int) + sh ∧ (node.pair_offsets i : Int) + sh < 65536)
    (hcut : node.frontmost_offset ≤ cut) :
    (if sh ≠ 0 then shift_pairs node cut sh else node).npairs = node.npairs ∧
    (if sh ≠ 0 then shift_pairs node cut sh else node).magic = node.magic ∧
    (if sh ≠ 0 then shift_pairs node cut sh else node).frontmost_offset =
      ((node.frontmost_offset : Int) + sh).toNat ∧
    (∀ i, i < node.npairs →
      (if sh ≠ 0 then shift_pairs node cut sh else node).pair_offsets i =
        if node.pair_offsets i < cut then ((node.pair_offsets i : Int) + sh).toNat
        else node.pair_offsets i) ∧
    (∀ a : Nat, (if sh ≠ 0 then shift_pairs node cut sh else node).bytes a =
      if (node.frontmost_offset : Int) + sh ≤ a ∧ (a : Int) < (cut : Int) + sh
      then node.bytes ((a : Int) - sh).toNat else node.bytes a) := by
  by_cases h0 : sh = 0
  · subst h0
    simp only [ne_eq, not_true_eq_false, if_false, add_zero, Int.toNat_ofNat, sub_zero,
      ite_self, implies_true, and_self]
  · simp only [ne_eq, h0, not_false_eq_true, if_true]
    refine ⟨rfl, rfl, ?_, ?_, ?_⟩
    · rw [shift_pairs_front, u16_of_lt _ hfront.1 hfront.2]
    · intro i hi
      unfold shift_pairs
      simp only
      by_cases hc : node.pair_offsets i < cut
      · rw [if_pos ⟨hi, hc⟩, if_pos hc, u16_of_lt _ (hslots i hi hc).1 (hslots i hi hc).2]
      · rw [if_neg (by tauto), if_neg hc]
    · intro a
      unfold shift_pairs
      simp only
      have e : (node.frontmost_offset : Int) + sh + ((cut - node.frontmost_offset : Nat) : Int) =
          (cut : Int) + sh := by omega
      rw [e]

theorem key_length_of_key_at {m : Nat → Nat} {d : Nat} {k : btree_key} (h : key_at m d = k) :
    k.length = m d := by
  rw [← h]; unfold key_at key_size; rw [length_read_bytes]

/-- The heap after the duplicate-key branch of `insert`: the pairs below the replaced
pair have moved by the difference of the payload sizes, and the replaced pair has its
new size. -/
theorem dup_heap {c : leaf_decls} {B : Nat} {m m2 : Nat → Nat} {front d : Nat}
    {L0 : List Nat} {old new : Nat} (f : Nat → Nat)
    (hf : ∀ o, f o = if o < d + 1 + m d + c.sizeof_btree_value
      then ((o : Int) + ((old : Int) - (new : Int))).toNat else o)
    (hheap : heap_inv c B m front (d :: L0))
    (hpd : pair_size c m d = 1 + m d + c.sizeof_btree_value + old)
    (hroom : new ≤ front)
    (hsame : ∀ o ∈ L0, same_pair c m o m2 (f o))
    (g4 : pair_size c m2 (f d) = sizeof_btree_leaf_pair c + m d + new) :
    heap_inv c B m2 ((front : Int) + ((old : Int) - (new : Int))).toNat (f d :: L0.map f) := by
  obtain ⟨c1, c2, c3, c4, c5⟩ := heap_inv_cons hheap
  have hsp : sizeof_btree_leaf_pair c = 1 + c.sizeof_btree_value := rfl
  have hfd := hf d
  rw [if_pos (by omega)] at hfd
  have hB := hheap.1
  refine ⟨?_, ?_, ?_, ?_⟩
  · omega
  · intro o' ho'
    rcases List.mem_cons.mp ho' with rfl | ho'
    · rw [g4, hfd]; omega
    · obtain ⟨o, ho, rfl⟩ := List.mem_map.mp ho'
      rw [same_pair_size (hsame o ho)]
      obtain ⟨a1, a2, a3⟩ := c3 o ho
      have hp := pair_size_pos c m o
      rw [hf o]
      split_ifs <;> omega
  · rw [List.pairwise_cons]
    constructor
    · intro o' ho'
      obtain ⟨o, ho, rfl⟩ := List.mem_map.mp ho'
      unfold pairs_apart
      rw [same_pair_size (hsame o ho), g4, hfd]
      obtain ⟨a1, a2, a3⟩ := c3 o ho
      have hp := pair_size_pos c m o
      rw [hf o]
      split_ifs <;> omega
    · rw [List.pairwise_map]
      refine List.Pairwise.imp_of_mem ?_ c4
      intro a b ha hb hab
      unfold pairs_apart at hab ⊢
      rw [same_pair_size (hsame a ha), same_pair_size (hsame b hb)]
      obtain ⟨a1, a2, a3⟩ := c3 a ha
      obtain ⟨b1, b2, b3⟩ := c3 b hb
      have hpa := pair_size_pos c m a
      have hpb := pair_size_pos c m b
      rw [hf a, hf b]
      split_ifs <;> omega
  · rw [List.map_cons, List.sum_cons, g4, transport_sizes hsame]
    omega

set_option maxHeartbeats 1000000 in
theorem insert_dup_spec {c : leaf_decls} {B : Nat} {node : btree_leaf_node} {k : btree_key}
    {v : btree_value} (hv : valid c B node) (hwf : value_wf c v)
    (hnf : is_full c node k v = false)
    (hdup : get_offset_index node k ≠ node.npairs ∧
      is_equal (key_at node.bytes (node.pair_offsets (get_offset_index node k))) k = true) :
    (insert c B node k v).1 = true ∧ valid c B (insert c B node k v).2 ∧
    (insert c B node k v).2.npairs = node.npairs ∧
    entries c (insert c B node k v).2 =
      (entries c node).take (get_offset_index node k) ++
        (k, v) :: (entries c node).drop (get_offset_index node k + 1) := by
  obtain ⟨hn1, hn2⟩ := hv.npairs_lt
  have hB := hv.block_u16
  have hfull := is_full_false hnf
  obtain ⟨b1, b2, b3⟩ := get_offset_index_spec k hv.sorted
  set idx := get_offset_index node k with hidx
  have hidxlt : idx < node.npairs := by omega
  set d := node.pair_offsets idx with hd
  have hkd : key_at node.bytes d = k := by
    have := hdup.2
    unfold is_equal at this
    simp only [decide_eq_true_eq] at this
    exact sized_strcmp_eq_zero.mp this
  have hkl := key_length_of_key_at hkd
  set L := slots node with hL
  set L0 := L.take idx ++ L.drop (idx + 1) with hL0
  have hperm : L.Perm (d :: L0) := slots_perm_cons node hidxlt
  have hheap : heap_inv c B node.bytes node.frontmost_offset (d :: L0) :=
    heap_inv_perm hperm hv.heap
  obtain ⟨c1, c2, c3, c4, c5⟩ := heap_inv_cons hheap
  have hpd := pair_size_eq c node.bytes d
  have hvpd : value_ptr node.bytes d = d + 1 + node.bytes d := rfl
  set old := stored_mem_size c node.bytes (d + 1 + node.bytes d) with hold
  set new := value_mem_size c v with hnew
  set sh : Int := (old : Int) - (new : Int) with hsh
  set cut := d + 1 + node.bytes d + c.sizeof_btree_value with hcutdef
  have hsp : sizeof_btree_leaf_pair c = 1 + c.sizeof_btree_value := rfl
  have hcut : u16 (((d + pair_size c node.bytes d : Nat) : Int) - (old : Int)) = cut := by
    have := u16_nat cut (by omega)
    rw [← this]; congr 1; omega
  have hmemL : ∀ o ∈ L, o = d ∨ o ∈ L0 := fun o ho => List.mem_cons.mp (hperm.mem_iff.mp ho)
  obtain ⟨f1, f2, f3, f4, f5⟩ := @dup_node1 node cut sh
    (by constructor <;> omega)
    (by
      intro i hi hc
      rcases hmemL _ (slot_mem node hi) with h | h
      · rw [h]; constructor <;> omega
      · obtain ⟨a1, a2, a3⟩ := c3 _ h
        have hp := pair_size_pos c node.bytes (node.pair_offsets i)
        constructor <;> omega)
    (by omega)
  set node1 := (if sh ≠ 0 then shift_pairs node cut sh else node) with hnode1
  set d' := ((d : Int) + sh).toNat with hd'
  have hprev : node1.pair_offsets idx = d' := by
    rw [f4 idx hidxlt, if_pos (by omega)]
  have hks1 : node1.bytes d' = node.bytes d := by
    rw [f5, if_pos (by constructor <;> omega)]
    congr 1; omega
  set m2 := write_bytes node1.bytes (d' + 1 + node.bytes d) v with hm2
  have hins : insert c B node k v = (true, { node1 with bytes := m2 }) := by
    unfold insert
    rw [if_neg (by rw [hnf]; simp)]
    simp only
    rw [if_pos hdup]
    simp only [← hd, hvpd, ← hold, ← hnew, ← hsh, hcut, ← hnode1, hprev, value_ptr, key_size,
      hks1, value_wf_take hwf, ← hm2]
  rw [hins]
  obtain ⟨g1, g2, g3, g4, g5⟩ := @dup_memory c node.bytes node1.bytes
    node.frontmost_offset d sh v hwf c1 (by rw [hsh]) (by omega) f5
  rw [← hd', ← hm2] at g1 g2 g3 g4 g5
  set f : Nat → Nat := fun o => if o < cut then ((o : Int) + sh).toNat else o with hf
  have hfd : f d = d' := by rw [hf]; simp only; rw [if_pos (by omega)]
  have hsame : ∀ o ∈ L0, same_pair c node.bytes o m2 (f o) := by
    intro o ho
    obtain ⟨a1, a2, a3⟩ := c3 o ho
    have hp := pair_size_pos c node.bytes o
    rcases a3 with h | h
    · rw [hf]; simp only; rw [if_pos (by omega)]
      exact g1 o a1 h
    · rw [hf]; simp only; rw [if_neg (by omega)]
      exact g2 o h
  have hslots : slots { node1 with bytes := m2 } = L.map f :=
    @slots_eq_map node { node1 with bytes := m2 } f f1 f4
  have hfront : node1.frontmost_offset = ((node.frontmost_offset : Int) + sh).toNat := f3
  have hheap2 : heap_inv c B m2 node1.frontmost_offset (f d :: L0.map f) := by
    rw [hfront]
    exact dup_heap f (fun o => rfl) hheap hpd (by omega) hsame (by rw [hfd]; exact g4)
  have hkeys : ∀ o ∈ L, key_at m2 (f o) = key_at node.bytes o := by
    intro o ho
    rcases hmemL o ho with rfl | h
    · rw [hfd]; exact g3
    · exact same_pair_key (hsame o h)
  have hkv_d : pair_kv c m2 d' = (k, v) := by
    unfold pair_kv
    rw [g3, g5, hkd]
  refine ⟨rfl, ?_, f1, ?_⟩
  · apply valid_of_heap hB
    · show node1.magic = c.expected_magic
      rw [f2]; exact hv.magic
    · show 0 < node1.frontmost_offset
      rw [hfront]; omega
    · show sizeof_btree_leaf_node + node1.npairs * sizeof_pair_offset ≤ node1.frontmost_offset
      rw [f1, hfront]
      unfold sizeof_btree_leaf_node sizeof_pair_offset
      omega
    · rw [hslots]
      exact heap_inv_perm (hperm.map f).symm hheap2
    · rw [hslots]
      exact transport_sorted_keys hkeys hv.sorted
  · unfold entries
    rw [hslots]
    show List.map (pair_kv c m2) (L.map f) = _
    rw [← hL, ← List.map_take, ← List.map_drop]
    have hsplit : L = L.take idx ++ d :: L.drop (idx + 1) := slots_split node hidxlt
    have e1 : List.map (pair_kv c m2) (L.map f) =
        List.map (pair_kv c m2) ((L.take idx ++ d :: L.drop (idx + 1)).map f) := by
      rw [← hsplit]
    rw [e1, List.map_append, List.map_cons, List.map_append, List.map_cons, hfd, hkv_d]
    congr 1
    · apply transport_kv
      intro o ho
      exact hsame o (List.mem_append_left _ ho)
    · congr 1
      apply transport_kv
      intro o ho
      exact hsame o (List.mem_append_right _ ho)

theorem entries_split (c : leaf_decls) (node : btree_leaf_node) {idx : Nat}
    (hidx : idx < node.npairs) :
    entries c node = (entries c node).take idx ++
      (slot_key node idx, slot_value c node idx) :: (entries c node).drop (idx + 1) := by
  have hl : idx < (entries c node).length := by rw [length_entries]; exact hidx
  have h := List.take_append_drop idx (entries c node)
  rw [List.drop_eq_getElem_cons hl, getElem_entries] at h
  exact h.symm

theorem insert_fst (c : leaf_decls) (B : Nat) (node : btree_leaf_node) (k : btree_key)
    (v : btree_value) : (insert c B node k v).1 = !is_full c node k v := by
  unfold insert
  by_cases h : is_full c node k v = true
  · rw [if_pos h, h]; rfl
  · rw [if_neg h]
    simp only [Bool.not_eq_true] at h
    rw [h]
    simp only
    split_ifs <;> rfl

theorem insert_of_full (c : leaf_decls) (B : Nat) (node : btree_leaf_node) (k : btree_key)
    (v : btree_value) (h : is_full c node k v = true) : (insert c B node k v).2 = node := by
  unfold insert
  rw [if_pos h]

/-- An `insert` that is let through leaves a valid page valid and holds the new pair
in place of the old pair of that key, or next to the pairs of the other keys. -/
theorem insert_spec {c : leaf_decls} {B : Nat} {node : btree_leaf_node} {k : btree_key}
    {v : btree_value} (hv : valid c B node) (hwf : value_wf c v)
    (hnf : is_full c node k v = false) :
    valid c B (insert c B node k v).2 ∧
    (k, v) ∈ entries c (insert c B node k v).2 ∧
    ∀ k' w, k' ≠ k → ((k', w) ∈ entries c (insert c B node k v).2 ↔ (k', w) ∈ entries c node) := by
  by_cases hdup : get_offset_index node k ≠ node.npairs ∧
      is_equal (key_at node.bytes (node.pair_offsets (get_offset_index node k))) k = true
  · obtain ⟨_, h2, _, h4⟩ := insert_dup_spec hv hwf hnf hdup
    have hidx : get_offset_index node k < node.npairs := by
      have := (get_offset_index_spec k hv.sorted).1
      omega
    have hkd : slot_key node (get_offset_index node k) = k := by
      have := hdup.2
      unfold is_equal at this
      simp only [decide_eq_true_eq] at this
      exact sized_strcmp_eq_zero.mp this
    refine ⟨h2, ?_, ?_⟩
    · rw [h4]; simp
    · intro k' w hne
      rw [h4]
      conv_rhs => rw [entries_split c node hidx]
      simp only [List.mem_append, List.mem_cons, Prod.mk.injEq, hkd, hne, false_and]
  · obtain ⟨_, h2, _, h4⟩ := insert_new_spec hv hwf hnf hdup
    refine ⟨h2, ?_, ?_⟩
    · rw [h4]; simp
    · intro k' w hne
      rw [h4]
      conv_rhs => rw [← List.take_append_drop (get_offset_index node k) (entries c node)]
      simp only [List.mem_append, List.mem_cons, Prod.mk.injEq, hne, false_and, false_or]

theorem init_valid (c : leaf_decls) (B : Nat) (block : btree_leaf_node)
    (h1 : sizeof_btree_leaf_node ≤ B) (h2 : B ≤ 65535) : valid c B (init c B block) := by
  have hf : (init c B block).frontmost_offset = B := by
    unfold init; simp only; exact u16_nat B (by omega)
  have hs : slots (init c B block) = [] := by
    unfold slots init; simp
  unfold sizeof_btree_leaf_node at h1
  apply valid_of_heap h2 rfl
  · rw [hf]; omega
  · rw [hf]
    show sizeof_btree_leaf_node + 0 * sizeof_pair_offset ≤ B
    unfold sizeof_btree_leaf_node; omega
  · rw [hs, hf]; exact heap_inv_nil c B _
  · rw [hs]; exact List.Pairwise.nil

theorem insert_valid {c : leaf_decls} {B : Nat} {node : btree_leaf_node} (k : btree_key)
    {v : btree_value} (hv : valid c B node) (hwf : value_wf c v) :
    valid c B (insert c B node k v).2 := by
  cases hf : is_full c node k v with
  | true => rw [insert_of_full c B node k v hf]; exact hv
  | false => exact (insert_spec hv hwf hf).1

theorem remove_valid {c : leaf_decls} {B : Nat} {node node' : btree_leaf_node} {k : btree_key}
    (hv : valid c B node) (hr : remove c B node k = some node') : valid c B node' := by
  cases hf : find_key node k with
  | none => unfold remove at hr; rw [hf] at hr; exact Option.noConfusion hr
  | some idx =>
    obtain ⟨n', h1, h2, _, _⟩ := remove_spec hv hf
    rw [h1] at hr
    cases hr
    exact h2

theorem validate_of_valid {c : leaf_decls} {B : Nat} {node : btree_leaf_node}
    (hv : valid c B node) : validate B node = true := by
  unfold validate
  simp only [Bool.and_eq_true, decide_eq_true_eq, List.all_eq_true, List.mem_range, gt_iff_lt,
    ge_iff_le]
  refine ⟨⟨⟨hv.dir, hv.front_pos⟩, hv.front_le⟩, ?_⟩
  intro i hi
  have h1 := hv.slot_lo _ (slot_mem node hi)
  have h2 := hv.slot_hi _ (slot_mem node hi)
  have h3 := pair_size_pos c node.bytes (node.pair_offsets i)
  constructor <;> omega

theorem reachable_valid {c : leaf_decls} {B : Nat} {node : btree_leaf_node}
    (h1 : sizeof_btree_leaf_node ≤ B) (h2 : B ≤ 65535) (hr : reachable c B node) :
    valid c B node := by
  induction hr with
  | init block => exact init_valid c B block h1 h2
  | insert node k v _ hwf ih => exact insert_valid k ih hwf
  | remove node node' k _ hrem ih => exact remove_valid ih hrem

/-! ### The example pages are valid -/

theorem page0_valid : valid example_decls 64 page0 :=
  init_valid example_decls 64 zero_block (by decide) (by decide)

theorem page1_valid : valid example_decls 64 page1 :=
  insert_valid [97] page0_valid (by decide)

theorem page2_valid : valid example_decls 64 page2 :=
  insert_valid [99] page1_valid (by decide)

theorem page3_valid : valid example_decls 64 page3 :=
  insert_valid [98] page2_valid (by decide)

/-! ### Claims on `insert`, `remove` and `lookup` -/

/-- C1: after an `insert(k, v)` on a valid page that returns `true`, `lookup` of `k`
returns `v` (header and payload) and `lookup` of any other key returns what it
returned before, in the new-key branch and in the duplicate-key branch alike. -/
theorem insert_then_lookup (c : leaf_decls) (B : Nat) (node : btree_leaf_node) (k : btree_key)
    (v : btree_value) (hv : valid c B node) (hwf : value_wf c v)
    (hins : (insert c B node k v).1 = true) (k' : btree_key) :
    lookup c (insert c B node k v).2 k' = if k' = k then some v else lookup c node k' := by
  have hnf : is_full c node k v = false := by
    rw [insert_fst] at hins
    simpa using hins
  obtain ⟨h1, h2, h3⟩ := insert_spec hv hwf hnf
  by_cases hk : k' = k
  · rw [if_pos hk, hk]
    exact lookup_of_mem h1.sorted h2
  · rw [if_neg hk]
    exact lookup_congr hv.sorted h1.sorted (fun w => h3 k' w hk)

theorem insert_then_lookup_witness :
    valid example_decls 64 page3 ∧ value_wf example_decls [2, 50, 50] ∧
    (insert example_decls 64 page3 [98] [2, 50, 50]).1 = true ∧
    lookup example_decls (insert example_decls 64 page3 [98] [2, 50, 50]).2 [98] =
      (if ([98] : btree_key) = [98] then some [2, 50, 50] else lookup example_decls page3 [98]) :=
  ⟨page3_valid, by decide, by decide,
    insert_then_lookup example_decls 64 page3 [98] [2, 50, 50] page3_valid (by decide)
      (by decide) [98]⟩

/-- C2: `remove(k)` on a valid page that stores `k` succeeds; afterwards `lookup` of
`k` finds nothing, the pair count is one less, and `lookup` of every other key
returns what it returned before. -/
theorem remove_then_lookup (c : leaf_decls) (B : Nat) (node : btree_leaf_node) (k : btree_key)
    (hv : valid c B node) (hk : ∃ i, i < node.npairs ∧ slot_key node i = k) :
    ∃ node', remove c B node k = some node' ∧ lookup c node' k = none ∧
      node'.npairs + 1 = node.npairs ∧
      ∀ k', k' ≠ k → lookup c node' k' = lookup c node k' := by
  obtain ⟨idx, hidx, hkey⟩ := hk
  have hf : find_key node k = some idx := by
    rw [← hkey]; exact find_key_of_slot hv.sorted hidx
  obtain ⟨node', h1, h2, h3, h4⟩ := remove_spec hv hf
  refine ⟨node', h1, ?_, by omega, ?_⟩
  · apply lookup_none_of_not_mem
    intro w hw
    rw [h4] at hw
    obtain ⟨j, hj, hne, he⟩ := List.mem_eraseIdx_iff_getElem.mp hw
    rw [getElem_entries] at he
    rw [length_entries] at hj
    have := congrArg Prod.fst he
    simp only at this
    exact sorted_keys_ne hv.sorted hj hidx hne (by rw [this, hkey])
  · intro k' hne
    apply lookup_congr hv.sorted h2.sorted
    intro w
    rw [h4]
    constructor
    · exact List.mem_of_mem_eraseIdx
    · intro hw
      obtain ⟨j, hj, he⟩ := List.mem_iff_getElem.mp hw
      refine List.mem_eraseIdx_iff_getElem.mpr ⟨j, hj, ?_, he⟩
      intro hji
      subst hji
      rw [getElem_entries] at he
      have := congrArg Prod.fst he
      simp only at this
      exact hne (by rw [← this, hkey])

theorem remove_then_lookup_witness :
    valid example_decls 64 page3 ∧ (∃ i, i < page3.npairs ∧ slot_key page3 i = [98]) ∧
    ∃ node', remove example_decls 64 page3 [98] = some node' ∧
      lookup example_decls node' [98] = none ∧ node'.npairs + 1 = page3.npairs ∧
      ∀ k', k' ≠ [98] → lookup example_decls node' k' = lookup example_decls page3 k' :=
  ⟨page3_valid, ⟨1, by decide, by decide⟩,
    remove_then_lookup example_decls 64 page3 [98] page3_valid ⟨1, by decide, by decide⟩⟩

/-- C3: on a valid page `lookup` returns the stored value of the pair whose key is the
searched one when the directory refers to such a pair, and not-found otherwise;
`find_key` reports slot `i` exactly when the key is at slot `i`, and
`get_offset_index` is the lower bound of the key in the directory.  `lookup` takes
the page read-only and returns only the value. -/
theorem lookup_correct (c : leaf_decls) (B : Nat) (node : btree_leaf_node) (k : btree_key)
    (hv : valid c B node) :
    (∀ i, i < node.npairs → slot_key node i = k →
      lookup c node k = some (slot_value c node i)) ∧
    ((∀ i, i < node.npairs → slot_key node i ≠ k) → lookup c node k = none) ∧
    (∀ i, find_key node k = some i ↔ i < node.npairs ∧ slot_key node i = k) ∧
    get_offset_index node k ≤ node.npairs ∧
    (∀ i, i < get_offset_index node k → sized_strcmp (slot_key node i) k < 0) ∧
    (∀ i, get_offset_index node k ≤ i → i < node.npairs →
      0 ≤ sized_strcmp (slot_key node i) k) := by
  obtain ⟨b1, b2, b3⟩ := get_offset_index_spec k hv.sorted
  refine ⟨?_, ?_, ?_, b1, b2, b3⟩
  · intro i hi hk
    rw [lookup_eq_map, ← hk, find_key_of_slot hv.sorted hi]
    rfl
  · intro h
    rw [lookup_eq_map, find_key_eq_none h]
    rfl
  · intro i
    constructor
    · exact find_key_eq_some
    · rintro ⟨hi, hk⟩
      rw [← hk]; exact find_key_of_slot hv.sorted hi

theorem lookup_correct_witness :
    valid example_decls 64 page3 ∧
    lookup example_decls page3 [98] = some (slot_value example_decls page3 1) ∧
    lookup example_decls page3 [100] = none :=
  ⟨page3_valid,
    (lookup_correct example_decls 64 page3 [98] page3_valid).1 1 (by decide) (by decide),
    (lookup_correct example_decls 64 page3 [100] page3_valid).2.1 (by decide)⟩

/-- C4: every page reached from `init(B)`, for `H ≤ B ≤ 65535`, by `insert` calls
(whatever they return) and `remove` calls on present keys satisfies invariants 1 to
6: the magic, `0 < frontmost_offset ≤ B`, `H + 2n ≤ frontmost_offset`, every pair
inside `[frontmost_offset, B)`, keys strictly increasing, pairs without overlap whose
sizes sum up to `B - frontmost_offset`; the assertions of `validate` hold. -/
theorem reachable_invariants (c : leaf_decls) (B : Nat) (node : btree_leaf_node)
    (h1 : sizeof_btree_leaf_node ≤ B) (h2 : B ≤ 65535) (hr : reachable c B node) :
    valid c B node ∧ validate B node = true ∧
    node.magic = c.expected_magic ∧
    0 < node.frontmost_offset ∧ node.frontmost_offset ≤ B ∧
    sizeof_btree_leaf_node + 2 * node.npairs ≤ node.frontmost_offset ∧
    (∀ i, i < node.npairs →
      node.frontmost_offset ≤ node.pair_offsets i ∧ node.pair_offsets i < B ∧
      node.pair_offsets i + pair_size c node.bytes (node.pair_offsets i) ≤ B) ∧
    (∀ i, i + 1 < node.npairs → sized_strcmp (slot_key node i) (slot_key node (i + 1)) < 0) ∧
    (∀ i j, i < j → j < node.npairs →
      pairs_apart c node.bytes (node.pair_offsets i) (node.pair_offsets j)) ∧
    pairs_bytes c node = B - node.frontmost_offset := by
  have hv := reachable_valid h1 h2 hr
  refine ⟨hv, validate_of_valid hv, hv.magic, hv.front_pos, hv.front_le, ?_, ?_, ?_, ?_,
    hv.dense⟩
  · have := hv.dir
    unfold sizeof_pair_offset at this
    omega
  · intro i hi
    have a1 := hv.slot_lo _ (slot_mem node hi)
    have a2 := hv.slot_hi _ (slot_mem node hi)
    have a3 := pair_size_pos c node.bytes (node.pair_offsets i)
    exact ⟨a1, by omega, a2⟩
  · intro i hi
    exact pairwise_slots.mp hv.sorted i (i + 1) (by omega) hi
  · exact pairwise_slots.mp hv.apart

theorem reachable_invariants_witness :
    reachable example_decls 64 page3 ∧ valid example_decls 64 page3 ∧
    pairs_bytes example_decls page3 = 64 - page3.frontmost_offset :=
  have hr : reachable example_decls 64 page3 :=
    reachable.insert page2 [98] [1, 50]
      (reachable.insert page1 [99] [1, 51]
        (reachable.insert page0 [97] [1, 49] (reachable.init zero_block) (by decide))
        (by decide))
      (by decide)
  ⟨hr, (reachable_invariants example_decls 64 page3 (by decide) (by decide) hr).1,
    (reachable_invariants example_decls 64 page3 (by decide) (by decide) hr).2.2.2.2.2.2.2.2.2⟩

/-- C5: `insert` returns `false` exactly when `is_full(page, key, value)` holds, and
then the page is returned as it was, also when the key is already present; whenever
`is_full` does not hold `insert` returns `true`. -/
theorem insert_false_iff_full (c : leaf_decls) (B : Nat) (node : btree_leaf_node)
    (k : btree_key) (v : btree_value) :
    ((insert c B node k v).1 = false ↔ is_full c node k v = true) ∧
    (is_full c node k v = true → (insert c B node k v).2 = node) ∧
    (is_full c node k v = false → (insert c B node k v).1 = true) := by
  refine ⟨?_, insert_of_full c B node k v, ?_⟩
  · rw [insert_fst]; simp
  · intro h; rw [insert_fst, h]; rfl

/-- C6, what the source computes: `is_full` holds exactly when
`H + (n+1)*2 + pair_size(key, value) ≥ frontmost_offset`; on the empty page of 16
bytes the pair ("ab", "12") of 6 bytes would fill the free space exactly
(`8 + 2 + 6 = 16`) and is reported full. -/
theorem is_full_exact_fit :
    (∀ (c : leaf_decls) (node : btree_leaf_node) (k : btree_key) (v : btree_value),
      is_full c node k v = true ↔
        sizeof_btree_leaf_node + (node.npairs + 1) * 2 +
          (sizeof_btree_leaf_pair c + k.length + value_mem_size c v) ≥ node.frontmost_offset) ∧
    sizeof_btree_leaf_node + ((init example_decls 16 zero_block).npairs + 1) * 2 +
      (sizeof_btree_leaf_pair example_decls + ([97, 98] : btree_key).length +
        value_mem_size example_decls [2, 49, 50]) =
      (init example_decls 16 zero_block).frontmost_offset ∧
    is_full example_decls (init example_decls 16 zero_block) [97, 98] [2, 49, 50] = true := by
  refine ⟨?_, by decide, by decide⟩
  intro c node k v
  unfold is_full sizeof_pair_offset
  simp only [ge_iff_le, decide_eq_true_eq]
  omega

theorem cum_bytes_zero (c : leaf_decls) (node : btree_leaf_node) : cum_bytes c node 0 = 0 := by
  simp [cum_bytes]

theorem cum_bytes_succ (c : leaf_decls) (node : btree_leaf_node) {j : Nat}
    (hj : j < node.npairs) :
    cum_bytes c node (j + 1) =
      cum_bytes c node j + pair_size c node.bytes (node.pair_offsets j) := by
  unfold cum_bytes
  have hl : j < (slots node).length := by rw [length_slots]; exact hj
  rw [List.take_succ, List.getElem?_eq_getElem hl, getElem_slots]
  simp

theorem cum_bytes_all (c : leaf_decls) (node : btree_leaf_node) :
    cum_bytes c node node.npairs = pairs_bytes c node := by
  unfold cum_bytes pairs_bytes
  rw [List.take_of_length_le (by rw [length_slots])]

theorem cum_bytes_mono (c : leaf_decls) (node : btree_leaf_node) {i j : Nat}
    (hij : i ≤ j) (hj : j ≤ node.npairs) : cum_bytes c node i ≤ cum_bytes c node j := by
  induction j with
  | zero =>
    have : i = 0 := by omega
    rw [this]
  | succ j ih =>
    rcases Nat.eq_or_lt_of_le hij with h | h
    · rw [h]
    · have := ih (by omega) (by omega)
      rw [cum_bytes_succ c node (by omega)]
      omega

theorem cum_bytes_lt_succ (c : leaf_decls) (node : btree_leaf_node) {j : Nat}
    (hj : j < node.npairs) : cum_bytes c node j < cum_bytes c node (j + 1) := by
  rw [cum_bytes_succ c node hj]
  have := pair_size_pos c node.bytes (node.pair_offsets j)
  omega

/-- The median loop of `split` on a valid page ends and returns the first index at
which the cumulative size reaches `half`. -/
theorem split_median_loop_spec {c : leaf_decls} {B : Nat} {node : btree_leaf_node}
    (hv : valid c B node) (half : Nat) (hhalf : half ≤ B - node.frontmost_offset)
    (fuel index : Nat) (hfuel : node.npairs ≤ index + fuel) (hidx : index ≤ node.npairs)
    (hlt : ∀ j, j < index → cum_bytes c node j < half) :
    ∃ m, split_median_loop c node half fuel (cum_bytes c node index) index = some m ∧
      m ≤ node.npairs ∧ half ≤ cum_bytes c node m ∧
      ∀ j, j < m → cum_bytes c node j < half := by
  have htot : cum_bytes c node node.npairs = B - node.frontmost_offset := by
    rw [cum_bytes_all]; exact hv.dense
  have hB := hv.block_u16
  induction fuel generalizing index with
  | zero =>
    have hi : index = node.npairs := by omega
    refine ⟨index, ?_, hidx, ?_, hlt⟩
    · unfold split_median_loop
      rw [if_neg (by rw [hi, htot]; omega)]
    · rw [hi, htot]; exact hhalf
  | succ fuel ih =>
    unfold split_median_loop
    by_cases hc : cum_bytes c node index < half
    · rw [if_pos hc]
      have hi : index < node.npairs := by
        by_contra hcon
        have : index = node.npairs := by omega
        rw [this, htot] at hc
        omega
      have hstep : u16 ((cum_bytes c node index +
          pair_size c node.bytes (node.pair_offsets index) : Nat) : Int) =
          cum_bytes c node (index + 1) := by
        rw [cum_bytes_succ c node hi]
        apply u16_nat
        have := cum_bytes_mono c node (show index + 1 ≤ node.npairs by omega) (le_refl _)
        rw [cum_bytes_succ c node hi, htot] at this
        omega
      rw [hstep]
      apply ih (index + 1) (by omega) (by omega)
      intro j hj
      rcases Nat.eq_or_lt_of_le (Nat.lt_succ_iff.mp hj) with h | h
      · rw [h]; exact hc
      · exact hlt j h
    · rw [if_neg hc]
      exact ⟨index, rfl, hidx, by omega, hlt⟩

/-- One round of the delete loop of `split` on a heap whose live pairs are those of
the index lists `A` and `C` plus the victim at slot `index`: every live slot follows
its pair. -/
theorem delete_pair_live {c : leaf_decls} {B : Nat} {nd : btree_leaf_node} (hB : B ≤ 65535)
    {index : Nat} {I : List Nat} (hI : ∀ i ∈ I, i < nd.npairs)
    (h : heap_inv c B nd.bytes nd.frontmost_offset
      (nd.pair_offsets index :: I.map nd.pair_offsets)) :
    heap_inv c B (delete_pair c nd (nd.pair_offsets index)).bytes
      (delete_pair c nd (nd.pair_offsets index)).frontmost_offset
      (I.map (delete_pair c nd (nd.pair_offsets index)).pair_offsets) ∧
    (∀ i ∈ I, same_pair c nd.bytes (nd.pair_offsets i)
      (delete_pair c nd (nd.pair_offsets index)).bytes
      ((delete_pair c nd (nd.pair_offsets index)).pair_offsets i)) := by
  set d := nd.pair_offsets index with hd
  obtain ⟨hfront, hheap, hsame⟩ := delete_pair_heap hB h
  obtain ⟨c1, c2, c3, c4, c5⟩ := heap_inv_cons h
  have hpo : ∀ i ∈ I, (delete_pair c nd d).pair_offsets i =
      (fun o => if o < d then o + pair_size c nd.bytes d else o) (nd.pair_offsets i) := by
    intro i hi
    have hmem : nd.pair_offsets i ∈ I.map nd.pair_offsets := List.mem_map_of_mem _ hi
    obtain ⟨a1, a2, a3⟩ := c3 _ hmem
    have hp := pair_size_pos c nd.bytes (nd.pair_offsets i)
    unfold delete_pair shift_pairs
    simp only
    by_cases hlt : nd.pair_offsets i < d
    · rw [if_pos ⟨hI i hi, hlt⟩, if_pos hlt]
      have := u16_nat (nd.pair_offsets i + pair_size c nd.bytes d) (by omega)
      rw [← this]; congr 1
    · rw [if_neg (by tauto), if_neg hlt]
  have hmap : I.map (delete_pair c nd d).pair_offsets =
      (I.map nd.pair_offsets).map (fun o => if o < d then o + pair_size c nd.bytes d else o) := by
    rw [List.map_map]
    apply List.map_congr_left
    intro i hi
    exact hpo i hi
  refine ⟨by rw [hmap]; exact hheap, ?_⟩
  intro i hi
  rw [hpo i hi]
  exact hsame _ (List.mem_map_of_mem _ hi)

theorem split_delete_loop_spec {c : leaf_decls} {B : Nat} {node0 : btree_leaf_node}
    (hB : B ≤ 65535) (m : Nat) (k : Nat) :
    ∀ (index : Nat) (nd : btree_leaf_node), m ≤ index → index + k = node0.npairs →
      nd.npairs = node0.npairs → nd.magic = node0.magic →
      heap_inv c B nd.bytes nd.frontmost_offset
        ((List.range m ++ List.range' index k).map nd.pair_offsets) →
      (∀ i, i < m ∨ (index ≤ i ∧ i < node0.npairs) →
        same_pair c node0.bytes (node0.pair_offsets i) nd.bytes (nd.pair_offsets i)) →
      (split_delete_loop c k index nd).npairs = node0.npairs ∧
      (split_delete_loop c k index nd).magic = node0.magic ∧
      heap_inv c B (split_delete_loop c k index nd).bytes
        (split_delete_loop c k index nd).frontmost_offset
        ((List.range m).map (split_delete_loop c k index nd).pair_offsets) ∧
      (∀ i, i < m → same_pair c node0.bytes (node0.pair_offsets i)
        (split_delete_loop c k index nd).bytes
        ((split_delete_loop c k index nd).pair_offsets i)) := by
  induction k with
  | zero =>
    intro index nd _ _ h1 h2 h3 h4
    unfold split_delete_loop
    simp only [List.range'_zero, List.append_nil] at h3
    exact ⟨h1, h2, h3, fun i hi => h4 i (Or.inl hi)⟩
  | succ k ih =>
    intro index nd hmi hik h1 h2 h3 h4
    unfold split_delete_loop
    have hI : ∀ i ∈ List.range m ++ List.range' (index + 1) k, i < nd.npairs := by
      intro i hi
      rcases List.mem_append.mp hi with h | h
      · have := List.mem_range.mp h; omega
      · have := List.mem_range'_1.mp h; omega
    have hperm : ((List.range m ++ List.range' index (k + 1)).map nd.pair_offsets).Perm
        (nd.pair_offsets index ::
          (List.range m ++ List.range' (index + 1) k).map nd.pair_offsets) := by
      rw [List.range'_succ, List.map_append, List.map_cons, List.map_append]
      exact List.perm_middle
    obtain ⟨g1, g2⟩ := delete_pair_live hB hI (heap_inv_perm hperm h3)
    apply ih (index + 1) (delete_pair c nd (nd.pair_offsets index)) (by omega) (by omega)
      h1 h2 g1
    intro i hi
    have hmem : i ∈ List.range m ++ List.range' (index + 1) k := by
      rcases hi with h | h
      · exact List.mem_append_left _ (List.mem_range.mpr h)
      · exact List.mem_append_right _ (List.mem_range'_1.mpr (by omega))
    exact same_pair_trans (h4 i (by omega)) (g2 i hmem)

theorem insert_pair_spec {c : leaf_decls} {nd : btree_leaf_node} {src : Nat → Nat} {off : Nat}
    (hfit : pair_size c src off ≤ nd.frontmost_offset) (hfront : nd.frontmost_offset < 65536) :
    (insert_pair c nd src off).2 = nd.frontmost_offset - pair_size c src off ∧
    (insert_pair c nd src off).1.frontmost_offset = (insert_pair c nd src off).2 ∧
    (insert_pair c nd src off).1.npairs = nd.npairs ∧
    (insert_pair c nd src off).1.pair_offsets = nd.pair_offsets ∧
    (insert_pair c nd src off).1.magic = nd.magic ∧
    (∀ a, nd.frontmost_offset ≤ a → (insert_pair c nd src off).1.bytes a = nd.bytes a) ∧
    same_pair c src off (insert_pair c nd src off).1.bytes (insert_pair c nd src off).2 := by
  have hu : u16 ((nd.frontmost_offset : Int) - (pair_size c src off : Nat)) =
      nd.frontmost_offset - pair_size c src off := by
    have := u16_nat (nd.frontmost_offset - pair_size c src off) (by omega)
    rw [← this]; congr 1; omega
  unfold insert_pair
  simp only [hu]
  refine ⟨trivial, trivial, trivial, trivial, trivial, ?_, ?_⟩
  · intro a ha
    rw [write_bytes_outside _ _ _ _ (by rw [length_read_bytes]; omega)]
  · intro i hi
    have := write_bytes_inside nd.bytes (nd.frontmost_offset - pair_size c src off)
      (read_bytes src off (pair_size c src off)) i (by rw [length_read_bytes]; exact hi)
    rw [this]
    unfold read_bytes
    simp

/-- A pair put right below a heap that satisfies the invariant keeps the invariant. -/
theorem heap_inv_push {c : leaf_decls} {B : Nat} {m m' : Nat → Nat} {front new : Nat}
    {L : List Nat} (h : heap_inv c B m front L)
    (hsame : ∀ o ∈ L, same_pair c m o m' o)
    (hfit : new + pair_size c m' new = front) : heap_inv c B m' new (new :: L) := by
  obtain ⟨h1, h2, h3, h4⟩ := h
  refine ⟨by omega, ?_, ?_, ?_⟩
  · intro o ho
    rcases List.mem_cons.mp ho with rfl | ho
    · omega
    · rw [same_pair_size (hsame o ho)]
      have := h2 o ho
      omega
  · rw [List.pairwise_cons]
    constructor
    · intro o ho
      left
      have := h2 o ho
      omega
    · refine List.Pairwise.imp_of_mem ?_ h3
      intro a b ha hb hab
      unfold pairs_apart at hab ⊢
      rw [same_pair_size (hsame a ha), same_pair_size (hsame b hb)]
      exact hab
  · rw [List.map_cons, List.sum_cons]
    have e := transport_sizes (f := id) hsame
    rw [List.map_id] at e
    rw [e, h4]
    omega

theorem init_from_loop_spec {c : leaf_decls} {B : Nat} {src : btree_leaf_node}
    (offsets : Nat → Nat) (hB : B ≤ 65535) (k : Nat) :
    ∀ (i : Nat) (nd : btree_leaf_node), nd.npairs = 0 →
      heap_inv c B nd.bytes nd.frontmost_offset ((List.range i).map nd.pair_offsets) →
      (∀ t, t < i → same_pair c src.bytes (offsets t) nd.bytes (nd.pair_offsets t)) →
      ((List.range' i k).map (fun t => pair_size c src.bytes (offsets t))).sum ≤
        nd.frontmost_offset →
      (init_from_loop c src offsets k i nd).npairs = 0 ∧
      (init_from_loop c src offsets k i nd).magic = nd.magic ∧
      heap_inv c B (init_from_loop c src offsets k i nd).bytes
        (init_from_loop c src offsets k i nd).frontmost_offset
        ((List.range (i + k)).map (init_from_loop c src offsets k i nd).pair_offsets) ∧
      (∀ t, t < i + k → same_pair c src.bytes (offsets t)
        (init_from_loop c src offsets k i nd).bytes
        ((init_from_loop c src offsets k i nd).pair_offsets t)) ∧
      (init_from_loop c src offsets k i nd).frontmost_offset +
        ((List.range' i k).map (fun t => pair_size c src.bytes (offsets t))).sum =
        nd.frontmost_offset := by
  induction k with
  | zero =>
    intro i nd h1 h2 h3 _
    unfold init_from_loop
    exact ⟨h1, rfl, h2, h3, by simp⟩
  | succ k ih =>
    intro i nd h1 h2 h3 h4
    unfold init_from_loop
    simp only
    rw [List.range'_succ, List.map_cons, List.sum_cons] at h4 ⊢
    have hfr : nd.frontmost_offset < 65536 := by have := h2.1; omega
    obtain ⟨r1, r2, r3, r4, r5, r6, r7⟩ :=
      @insert_pair_spec c nd src.bytes (offsets i) (by omega) hfr
    set r := insert_pair c nd src.bytes (offsets i) with hr
    have hidx : r.1.npairs + i = i := by rw [r3, h1]; omega
    rw [hidx]
    set nd' : btree_leaf_node :=
      { r.1 with pair_offsets := Function.update r.1.pair_offsets i r.2 } with hnd'
    have hpo_lt : ∀ t, t < i → nd'.pair_offsets t = nd.pair_offsets t := by
      intro t ht
      show Function.update r.1.pair_offsets i r.2 t = _
      rw [Function.update_noteq (by omega), r4]
    have hpo_i : nd'.pair_offsets i = r.2 := by
      show Function.update r.1.pair_offsets i r.2 i = _
      rw [Function.update_same]
    have hold : ∀ o ∈ (List.range i).map nd.pair_offsets, same_pair c nd.bytes o r.1.bytes o := by
      intro o ho j _
      exact r6 (o + j) (by have := (h2.2.1 o ho).1; omega)
    have hmap : (List.range (i + 1)).map nd'.pair_offsets =
        (List.range i).map nd.pair_offsets ++ [r.2] := by
      rw [List.range_succ, List.map_append, List.map_cons, List.map_nil, hpo_i]
      congr 1
      apply List.map_congr_left
      intro t ht
      exact hpo_lt t (List.mem_range.mp ht)
    have hheap : heap_inv c B nd'.bytes nd'.frontmost_offset
        ((List.range (i + 1)).map nd'.pair_offsets) := by
      rw [hmap]
      have hp : heap_inv c B r.1.bytes r.2 (r.2 :: (List.range i).map nd.pair_offsets) := by
        apply heap_inv_push h2 hold
        rw [same_pair_size r7, r1]
        omega
      have hperm : (r.2 :: (List.range i).map nd.pair_offsets).Perm
          ((List.range i).map nd.pair_offsets ++ [r.2]) := by
        have := @List.perm_append_comm _ [r.2] ((List.range i).map nd.pair_offsets)
        exact this
      have := heap_inv_perm hperm hp
      rw [← r2] at this
      exact this
    have hsame' : ∀ t, t < i + 1 →
        same_pair c src.bytes (offsets t) nd'.bytes (nd'.pair_offsets t) := by
      intro t ht
      rcases Nat.eq_or_lt_of_le (Nat.lt_succ_iff.mp ht) with h | h
      · rw [h, hpo_i]; exact r7
      · rw [hpo_lt t h]
        exact same_pair_trans (h3 t h)
          (hold _ (List.mem_map_of_mem _ (List.mem_range.mpr h)))
    have hfit' : ((List.range' (i + 1) k).map (fun t => pair_size c src.bytes (offsets t))).sum ≤
        nd'.frontmost_offset := by
      show _ ≤ r.1.frontmost_offset
      rw [r2, r1]; omega
    obtain ⟨g1, g2, g3, g4, g5⟩ := ih (i + 1) nd' (by show r.1.npairs = 0; rw [r3, h1])
      hheap hsame' hfit'
    refine ⟨g1, ?_, ?_, ?_, ?_⟩
    · rw [g2]; exact r5
    · rw [show i + (k + 1) = i + 1 + k by omega]; exact g3
    · intro t ht; exact g4 t (by omega)
    · have e : nd'.frontmost_offset = nd.frontmost_offset - pair_size c src.bytes (offsets i) := by
        show r.1.frontmost_offset = _
        rw [r2, r1]
      rw [e] at g5
      omega

theorem slots_sort_offsets (nd : btree_leaf_node) :
    slots (sort_offsets nd) = (slots nd).insertionSort (leaf_key_lt nd.bytes) := by
  apply List.ext_getElem?
  intro j
  rw [getElem?_slots]
  have hlen : ((slots nd).insertionSort (leaf_key_lt nd.bytes)).length = nd.npairs := by
    rw [List.length_insertionSort, length_slots]
  unfold sort_offsets
  simp only
  by_cases hj : j < nd.npairs
  · rw [if_pos hj, if_pos hj, List.getElem?_eq_getElem (by rw [hlen]; exact hj)]
    congr 1
    unfold slots
    rw [List.getD_eq_getElem?_getD, List.getElem?_eq_getElem (by unfold slots at hlen; rw [hlen]; exact hj)]
    rfl
  · rw [if_neg hj, List.getElem?_eq_none (by rw [hlen]; omega)]

theorem slots_sort_offsets_of_sorted {nd : btree_leaf_node}
    (h : (slots nd).Pairwise (leaf_key_lt nd.bytes)) : slots (sort_offsets nd) = slots nd := by
  rw [slots_sort_offsets]
  exact List.Sorted.insertionSort_eq h

theorem range_append_range' (m n : Nat) (h : m ≤ n) :
    List.range m ++ List.range' m (n - m) = List.range n := by
  rw [List.range_eq_range', List.range_eq_range']
  have := @List.range'_append 0 m (n - m) 1
  simp only [Nat.one_mul, Nat.zero_add] at this
  rw [this]
  congr 1; omega

theorem slots_take (node : btree_leaf_node) {m : Nat} (h : m ≤ node.npairs) :
    (slots node).take m = (List.range m).map node.pair_offsets := by
  unfold slots
  rw [← List.map_take, List.take_range, Nat.min_eq_left h]

theorem slots_drop (node : btree_leaf_node) (m : Nat) :
    (slots node).drop m =
      (List.range (node.npairs - m)).map (fun t => node.pair_offsets (m + t)) := by
  apply List.ext_getElem?
  intro j
  rw [List.getElem?_drop, getElem?_slots, List.getElem?_map]
  by_cases hj : j < node.npairs - m
  · rw [if_pos (by omega), List.getElem?_range hj]; rfl
  · rw [if_neg (by omega), List.getElem?_eq_none (by simp; omega)]; rfl

theorem cum_bytes_add_rest (c : leaf_decls) (node : btree_leaf_node) (m : Nat) :
    cum_bytes c node m +
      ((List.range' 0 (node.npairs - m)).map
        (fun t => pair_size c node.bytes (node.pair_offsets (m + t)))).sum =
      pairs_bytes c node := by
  unfold cum_bytes pairs_bytes
  rw [← List.range_eq_range']
  have h1 : (List.range (node.npairs - m)).map
      (fun t => pair_size c node.bytes (node.pair_offsets (m + t))) =
      ((slots node).drop m).map (pair_size c node.bytes) := by
    rw [slots_drop, List.map_map]; rfl
  rw [h1, ← List.sum_append, ← List.map_append, List.take_append_drop]

theorem sort_offsets_fields (nd : btree_leaf_node) :
    (sort_offsets nd).bytes = nd.bytes ∧ (sort_offsets nd).npairs = nd.npairs ∧
    (sort_offsets nd).frontmost_offset = nd.frontmost_offset ∧
    (sort_offsets nd).magic = nd.magic := ⟨rfl, rfl, rfl, rfl⟩

/-- The right page that `split` builds with `init_from` out of the pairs at the slots
`[m, n)` of a valid page. -/
theorem init_from_spec {c : leaf_decls} {B : Nat} {node : btree_leaf_node}
    (rnode : btree_leaf_node) (hv : valid c B node) {m : Nat} (hm : m ≤ node.npairs) :
    valid c B (init_from c B rnode node (fun i => node.pair_offsets (m + i))
      ((node.npairs : Int) - m)) ∧
    (init_from c B rnode node (fun i => node.pair_offsets (m + i))
      ((node.npairs : Int) - m)).npairs = node.npairs - m ∧
    entries c (init_from c B rnode node (fun i => node.pair_offsets (m + i))
      ((node.npairs : Int) - m)) = (entries c node).drop m ∧
    (init_from c B rnode node (fun i => node.pair_offsets (m + i))
      ((node.npairs : Int) - m)).frontmost_offset + pairs_bytes c node =
      B + cum_bytes c node m := by
  obtain ⟨hn1, hn2⟩ := hv.npairs_lt
  have hB := hv.block_u16
  have hrest := cum_bytes_add_rest c node m
  have hdense := hv.dense
  have hfl := hv.front_le
  have hfp := hv.front_pos
  set k := node.npairs - m with hk
  have hk' : ((node.npairs : Int) - (m : Int)).toNat = k := by omega
  have hinitf : (init c B rnode).frontmost_offset = B := by
    unfold init; simp only; exact u16_nat B (by omega)
  obtain ⟨g1, g2, g3, g4, g5⟩ := @init_from_loop_spec c B node
    (fun i => node.pair_offsets (m + i)) hB k 0
    (init c B rnode) rfl
    (by rw [hinitf]; exact heap_inv_nil c B _)
    (by intro t ht; omega)
    (by rw [hinitf]; beta_reduce; omega)
  rw [Nat.zero_add] at g3 g4
  set node1 := init_from_loop c node (fun i => node.pair_offsets (m + i)) k 0
    (init c B rnode) with hnode1
  have hu : u16 ((node1.npairs : Int) + ((node.npairs : Int) - (m : Int))) = k := by
    rw [g1]
    have := u16_nat k (by omega)
    rw [← this]; congr 1; omega
  set nd2 : btree_leaf_node := { node1 with npairs := k } with hnd2
  have hres : init_from c B rnode node (fun i => node.pair_offsets (m + i))
      ((node.npairs : Int) - m) = sort_offsets nd2 := by
    unfold init_from
    simp only [hk', ← hnode1, hu]
  rw [hres]
  have hslots2 : slots nd2 = (List.range k).map node1.pair_offsets := rfl
  have hsorted2 : (slots nd2).Pairwise (leaf_key_lt nd2.bytes) := by
    rw [pairwise_slots]
    intro i j hij hj
    have hj' : j < k := hj
    show leaf_key_lt node1.bytes (node1.pair_offsets i) (node1.pair_offsets j)
    unfold leaf_key_lt
    rw [same_pair_key (g4 i (by omega)), same_pair_key (g4 j hj')]
    exact pairwise_slots.mp hv.sorted (m + i) (m + j) (by omega) (by omega)
  have hslots : slots (sort_offsets nd2) = (List.range k).map node1.pair_offsets := by
    rw [slots_sort_offsets_of_sorted hsorted2, hslots2]
  have hfront : node1.frontmost_offset + pairs_bytes c node = B + cum_bytes c node m := by
    rw [hinitf] at g5
    omega
  refine ⟨?_, rfl, ?_, hfront⟩
  · apply valid_of_heap hB
    · show node1.magic = c.expected_magic
      rw [g2]; rfl
    · show 0 < node1.frontmost_offset
      have := cum_bytes_mono c node hm (le_refl _)
      rw [cum_bytes_all] at this
      omega
    · show sizeof_btree_leaf_node + k * sizeof_pair_offset ≤ node1.frontmost_offset
      have := hv.dir
      unfold sizeof_btree_leaf_node sizeof_pair_offset at this ⊢
      have := cum_bytes_mono c node hm (le_refl _)
      rw [cum_bytes_all] at this
      omega
    · rw [hslots]; exact g3
    · rw [hslots, ← hslots2]; exact hsorted2
  · unfold entries
    rw [hslots, ← List.map_drop, slots_drop, List.map_map, List.map_map]
    apply List.map_congr_left
    intro t ht
    exact same_pair_kv (g4 t (List.mem_range.mp ht))

/-- The left page that `split` leaves after the delete loop and the store of
`npairs = m`: it holds the pairs of the slots `[0, m)` of the valid page. -/
theorem split_left_spec {c : leaf_decls} {B : Nat} {node : btree_leaf_node}
    (hv : valid c B node) {m : Nat} (hm : m ≤ node.npairs) :
    valid c B { split_delete_loop c (node.npairs - m) m node with npairs := u16 m } ∧
    entries c { split_delete_loop c (node.npairs - m) m node with npairs := u16 m } =
      (entries c node).take m ∧
    (split_delete_loop c (node.npairs - m) m node).frontmost_offset + cum_bytes c node m = B ∧
    u16 (m : Int) = m ∧
    (∀ i, i < m → key_at (split_delete_loop c (node.npairs - m) m node).bytes
      ((split_delete_loop c (node.npairs - m) m node).pair_offsets i) = slot_key node i) := by
  obtain ⟨hn1, hn2⟩ := hv.npairs_lt
  have hB := hv.block_u16
  have hdense := hv.dense
  have hfl := hv.front_le
  have hfp := hv.front_pos
  have hmono := cum_bytes_mono c node hm (le_refl _)
  rw [cum_bytes_all] at hmono
  have hheap0 : heap_inv c B node.bytes node.frontmost_offset
      ((List.range m ++ List.range' m (node.npairs - m)).map node.pair_offsets) := by
    rw [range_append_range' m node.npairs hm]
    exact hv.heap
  obtain ⟨g1, g2, g3, g4⟩ := @split_delete_loop_spec c B node hB m (node.npairs - m) m node
    (le_refl _) (by omega) rfl rfl hheap0 (fun i _ => same_pair_refl c node.bytes _)
  set node1 := split_delete_loop c (node.npairs - m) m node with hnode1
  have hum : u16 (m : Int) = m := u16_nat m (by omega)
  rw [hum]
  set node2 : btree_leaf_node := { node1 with npairs := m } with hnode2
  have hslots : slots node2 = (List.range m).map node1.pair_offsets := rfl
  have hsizes : (List.map (pair_size c node1.bytes) ((List.range m).map node1.pair_offsets)) =
      ((slots node).take m).map (pair_size c node.bytes) := by
    rw [slots_take node hm, List.map_map, List.map_map]
    apply List.map_congr_left
    intro i hi
    exact same_pair_size (g4 i (List.mem_range.mp hi))
  have hfront : node1.frontmost_offset + cum_bytes c node m = B := by
    have h4 := g3.2.2.2
    rw [hsizes] at h4
    have h1 := g3.1
    unfold cum_bytes
    omega
  have hsorted : (slots node2).Pairwise (leaf_key_lt node2.bytes) := by
    rw [pairwise_slots]
    intro i j hij hj
    have hj' : j < m := hj
    show leaf_key_lt node1.bytes (node1.pair_offsets i) (node1.pair_offsets j)
    unfold leaf_key_lt
    rw [same_pair_key (g4 i (by omega)), same_pair_key (g4 j hj')]
    exact pairwise_slots.mp hv.sorted i j hij (by omega)
  refine ⟨?_, ?_, hfront, rfl, fun i hi => same_pair_key (g4 i hi)⟩
  · apply valid_of_heap hB
    · show node1.magic = c.expected_magic
      rw [g2]; exact hv.magic
    · show 0 < node1.frontmost_offset
      omega
    · show sizeof_btree_leaf_node + m * sizeof_pair_offset ≤ node1.frontmost_offset
      unfold sizeof_btree_leaf_node sizeof_pair_offset
      omega
    · rw [hslots]; exact g3
    · exact hsorted
  · unfold entries
    rw [hslots, ← List.map_take, slots_take node hm, List.map_map, List.map_map]
    apply List.map_congr_left
    intro i hi
    exact same_pair_kv (g4 i (List.mem_range.mp hi))

/-- What `split` does to a valid page: with `m` the first index at which the
cumulative pair size reaches half of the used bytes, the left page keeps the pairs of
the slots `[0, m)`, the right page gets those of `[m, n)`, both pages are valid, and
the median is the key of the last slot of the left page. -/
theorem split_spec {c : leaf_decls} {B : Nat} {node : btree_leaf_node}
    (rnode : btree_leaf_node) (hv : valid c B node) :
    ∃ m l r med, split c B node rnode = some (l, r, med) ∧
      m ≤ node.npairs ∧ (B - node.frontmost_offset) / 2 ≤ cum_bytes c node m ∧
      (∀ j, j < m → cum_bytes c node j < (B - node.frontmost_offset) / 2) ∧
      valid c B l ∧ valid c B r ∧ l.npairs = m ∧ r.npairs = node.npairs - m ∧
      entries c l = (entries c node).take m ∧ entries c r = (entries c node).drop m ∧
      l.frontmost_offset + cum_bytes c node m = B ∧
      r.frontmost_offset + pairs_bytes c node = B + cum_bytes c node m ∧
      (0 < m → med = slot_key l (m - 1) ∧ med = slot_key node (m - 1)) := by
  have hB := hv.block_u16
  have hfl := hv.front_le
  have hu : u16 ((B : Int) - node.frontmost_offset) = B - node.frontmost_offset := by
    have := u16_nat (B - node.frontmost_offset) (by omega)
    rw [← this]; congr 1; omega
  obtain ⟨m, h1, h2, h3, h4⟩ := split_median_loop_spec hv ((B - node.frontmost_offset) / 2)
    (Nat.div_le_self _ _) B 0 (by have := hv.npairs_lt; omega) (Nat.zero_le _)
    (fun j hj => absurd hj (Nat.not_lt_zero j))
  rw [cum_bytes_zero] at h1
  obtain ⟨r1, r2, r3, r4⟩ := init_from_spec rnode hv h2
  obtain ⟨l1, l2, l3, l4, l5⟩ := split_left_spec hv h2
  refine ⟨m, { split_delete_loop c (node.npairs - m) m node with npairs := u16 m },
    init_from c B rnode node (fun i => node.pair_offsets (m + i)) ((node.npairs : Int) - m),
    key_at (split_delete_loop c (node.npairs - m) m node).bytes
      (if m = 0 then (split_delete_loop c (node.npairs - m) m node).frontmost_offset
       else (split_delete_loop c (node.npairs - m) m node).pair_offsets (m - 1)),
    ?_, h2, h3, h4, l1, r1, l4, r2, l2, r3, l3, r4, ?_⟩
  · unfold split
    simp only [hu, h1]
  · intro hm
    rw [if_neg (by omega)]
    refine ⟨rfl, ?_⟩
    exact l5 (m - 1) (by omega)

theorem getElem?_entries (c : leaf_decls) (node : btree_leaf_node) (i : Nat) :
    (entries c node)[i]? =
      if i < node.npairs then some (slot_key node i, slot_value c node i) else none := by
  unfold entries
  rw [List.getElem?_map, getElem?_slots]
  split_ifs <;> rfl

theorem slot_of_entries_take {c : leaf_decls} {l node : btree_leaf_node} {m : Nat}
    (h : entries c l = (entries c node).take m) (hl : l.npairs = m) (hm : m ≤ node.npairs)
    {i : Nat} (hi : i < m) :
    slot_key l i = slot_key node i ∧ slot_value c l i = slot_value c node i := by
  have h1 := getElem?_entries c l i
  rw [h, List.getElem?_take_of_lt hi, getElem?_entries, if_pos (by omega), if_pos (by omega)] at h1
  simp only [Option.some.injEq, Prod.mk.injEq] at h1
  exact ⟨h1.1.symm, h1.2.symm⟩

theorem slot_of_entries_drop {c : leaf_decls} {r node : btree_leaf_node} {m : Nat}
    (h : entries c r = (entries c node).drop m) (hr : r.npairs = node.npairs - m)
    {i : Nat} (hi : i < r.npairs) :
    slot_key r i = slot_key node (m + i) ∧ slot_value c r i = slot_value c node (m + i) := by
  have h1 := getElem?_entries c r i
  rw [h, List.getElem?_drop, getElem?_entries, if_pos (by omega), if_pos (by omega)] at h1
  simp only [Option.some.injEq, Prod.mk.injEq] at h1
  exact ⟨h1.1.symm, h1.2.symm⟩

theorem page_big_valid : valid example_decls 64 page_big :=
  insert_valid [122] page1_valid (by decide)

/-! ### Claims on `split` -/

/-- C7: `split` of a valid page with at least two pairs returns; the median it writes
is the key of the last slot of the left page, every key left on the page is `≤` the
median and every key on the right page is `>` the median. -/
theorem split_median_separates (c : leaf_decls) (B : Nat) (node rnode : btree_leaf_node)
    (hv : valid c B node) (hn : 2 ≤ node.npairs) :
    ∃ l r med, split c B node rnode = some (l, r, med) ∧ 0 < l.npairs ∧
      med = slot_key l (l.npairs - 1) ∧
      (∀ i, i < l.npairs → sized_strcmp (slot_key l i) med ≤ 0) ∧
      (∀ i, i < r.npairs → sized_strcmp med (slot_key r i) < 0) := by
  obtain ⟨m, l, r, med, h1, h2, h3, h4, h5, h6, h7, h8, h9, h10, h11, h12, h13⟩ :=
    split_spec rnode hv
  have htot : 2 ≤ B - node.frontmost_offset := by
    have a1 : cum_bytes c node 0 < cum_bytes c node 1 :=
      cum_bytes_lt_succ c node (show 0 < node.npairs by omega)
    have a2 : cum_bytes c node 1 < cum_bytes c node 2 :=
      cum_bytes_lt_succ c node (show 1 < node.npairs by omega)
    have a3 := cum_bytes_mono c node (show 2 ≤ node.npairs by omega) (le_refl _)
    rw [cum_bytes_all, hv.dense] at a3
    omega
  have hm : 0 < m := by
    by_contra hcon
    have : m = 0 := by omega
    rw [this, cum_bytes_zero] at h3
    omega
  obtain ⟨k1, k2⟩ := h13 hm
  refine ⟨l, r, med, h1, by omega, by rw [h7]; exact k1, ?_, ?_⟩
  · intro i hi
    rw [(slot_of_entries_take h9 h7 h2 (by omega)).1, k2]
    rcases Nat.eq_or_lt_of_le (show i ≤ m - 1 by omega) with h | h
    · rw [h, sized_strcmp_self]
    · exact le_of_lt (pairwise_slots.mp hv.sorted i (m - 1) h (by omega))
  · intro i hi
    rw [(slot_of_entries_drop h10 h8 hi).1, k2]
    exact pairwise_slots.mp hv.sorted (m - 1) (m + i) (by omega) (by omega)

theorem split_median_separates_witness :
    valid example_decls 64 page3 ∧ 2 ≤ page3.npairs ∧
    ∃ l r med, split example_decls 64 page3 zero_block = some (l, r, med) ∧ 0 < l.npairs ∧
      med = slot_key l (l.npairs - 1) ∧
      (∀ i, i < l.npairs → sized_strcmp (slot_key l i) med ≤ 0) ∧
      (∀ i, i < r.npairs → sized_strcmp med (slot_key r i) < 0) :=
  ⟨page3_valid, by decide,
    split_median_separates example_decls 64 page3 zero_block page3_valid (by decide)⟩

/-- C8: `split` of a valid page, empty or not, loses and duplicates nothing: the left
page holds exactly the pairs of the slots `[0, m)`, `m` being its pair count, and the
right page exactly those of the slots `[m, n)`, keys and values unchanged and in
order; both pages satisfy invariants 1 to 6. -/
theorem split_partitions (c : leaf_decls) (B : Nat) (node rnode : btree_leaf_node)
    (hv : valid c B node) :
    ∃ l r med, split c B node rnode = some (l, r, med) ∧
      l.npairs ≤ node.npairs ∧ r.npairs = node.npairs - l.npairs ∧
      entries c l = (entries c node).take l.npairs ∧
      entries c r = (entries c node).drop l.npairs ∧
      (∀ i, i < l.npairs →
        slot_key l i = slot_key node i ∧ slot_value c l i = slot_value c node i) ∧
      (∀ i, i < r.npairs →
        slot_key r i = slot_key node (l.npairs + i) ∧
        slot_value c r i = slot_value c node (l.npairs + i)) ∧
      valid c B l ∧ valid c B r := by
  obtain ⟨m, l, r, med, h1, h2, h3, h4, h5, h6, h7, h8, h9, h10, h11, h12, h13⟩ :=
    split_spec rnode hv
  refine ⟨l, r, med, h1, by omega, by rw [h7]; exact h8, by rw [h7]; exact h9,
    by rw [h7]; exact h10, ?_, ?_, h5, h6⟩
  · intro i hi
    exact slot_of_entries_take h9 h7 h2 (by omega)
  · intro i hi
    rw [h7]
    exact slot_of_entries_drop h10 h8 hi

theorem split_partitions_witness :
    valid example_decls 64 page3 ∧
    ∃ l r med, split example_decls 64 page3 zero_block = some (l, r, med) ∧
      l.npairs ≤ page3.npairs ∧ r.npairs = page3.npairs - l.npairs ∧
      entries example_decls l = (entries example_decls page3).take l.npairs ∧
      entries example_decls r = (entries example_decls page3).drop l.npairs ∧
      (∀ i, i < l.npairs →
        slot_key l i = slot_key page3 i ∧
        slot_value example_decls l i = slot_value example_decls page3 i) ∧
      (∀ i, i < r.npairs →
        slot_key r i = slot_key page3 (l.npairs + i) ∧
        slot_value example_decls r i = slot_value example_decls page3 (l.npairs + i)) ∧
      valid example_decls 64 l ∧ valid example_decls 64 r :=
  ⟨page3_valid, split_partitions example_decls 64 page3 zero_block page3_valid⟩

/-- C9 as amended: the median index chosen by `split` on a valid page, the pair count
of the left page, is the smallest index `m` at which the cumulative byte size of the
pairs `0..m` is at least (not: strictly greater than) half of the used heap bytes,
`(B - frontmost_offset) / 2` rounded down. -/
theorem split_median_index (c : leaf_decls) (B : Nat) (node rnode : btree_leaf_node)
    (hv : valid c B node) :
    ∃ l r med, split c B node rnode = some (l, r, med) ∧ l.npairs ≤ node.npairs ∧
      (B - node.frontmost_offset) / 2 ≤ cum_bytes c node l.npairs ∧
      ∀ j, j < l.npairs → cum_bytes c node j < (B - node.frontmost_offset) / 2 := by
  obtain ⟨m, l, r, med, h1, h2, h3, h4, h5, h6, h7, h8, h9, h10, h11, h12, h13⟩ :=
    split_spec rnode hv
  exact ⟨l, r, med, h1, by omega, by rw [h7]; exact h3, by rw [h7]; exact h4⟩

theorem split_median_index_witness :
    valid example_decls 64 page2 ∧
    ∃ l r med, split example_decls 64 page2 zero_block = some (l, r, med) ∧
      l.npairs ≤ page2.npairs ∧
      (64 - page2.frontmost_offset) / 2 ≤ cum_bytes example_decls page2 l.npairs ∧
      ∀ j, j < l.npairs → cum_bytes example_decls page2 j < (64 - page2.frontmost_offset) / 2 :=
  ⟨page2_valid, split_median_index example_decls 64 page2 zero_block page2_valid⟩

/-- C9 as stated fails: the valid page of 64 bytes with the two pairs ("a", "1") and
("c", "3") of 4 bytes each has 8 used bytes; `split` leaves one pair on the page,
and the cumulative size of that one pair, 4, does not exceed half of the used bytes,
4. -/
theorem split_median_not_exceeding :
    valid example_decls 64 page2 ∧
    (split example_decls 64 page2 zero_block).map (fun r => r.1.npairs) = some 1 ∧
    page2.npairs = 2 ∧
    ¬ (cum_bytes example_decls page2 1 > (64 - page2.frontmost_offset) / 2) :=
  ⟨page2_valid, by decide, by decide, by decide⟩

theorem page_six_valid : valid example_decls 64 page_six :=
  insert_valid [114] (insert_valid [113] (insert_valid [112] (insert_valid [111]
    (insert_valid [110] (insert_valid [109] page0_valid (by decide)) (by decide))
    (by decide)) (by decide)) (by decide)) (by decide)

/-- The bound on `LEAF_EPSILON` in `split_not_underfull` is needed: under a
`LEAF_EPSILON` of 3 bytes the valid page of 64 bytes with the pairs ("a", "1") of 4
bytes and ("z", 36 bytes) of 39 bytes is full for the pair ("b", "12345"); `split`
leaves both pairs on the page, and the right page, which is empty, is `is_underfull`. -/
theorem split_right_underfull :
    valid example_decls 64 page_big ∧
    is_full example_decls page_big [98] [5, 49, 50, 51, 52, 53] = true ∧
    (split example_decls 64 page_big zero_block).map
      (fun r => (r.1.npairs, r.2.1.npairs, is_underfull example_decls 64 r.2.1)) =
      some (2, 0, true) :=
  ⟨page_big_valid, by decide, by decide⟩

theorem entries_of_npairs_zero (c : leaf_decls) {node : btree_leaf_node} (h : node.npairs = 0) :
    entries c node = [] := by
  unfold entries slots
  rw [h]
  rfl

/-- C20 as amended: for every block size `B` with `sizeof(btree_leaf_node) ≤ B ≤ 65535`,
`init` writes the header `LEAF_MAGIC`, `npairs = 0`, `frontmost_offset = B`; the page
is empty, satisfies invariants 1 to 6, and `lookup` finds no key on it. -/
theorem init_empty_page (c : leaf_decls) (B : Nat) (block : btree_leaf_node)
    (h1 : sizeof_btree_leaf_node ≤ B) (h2 : B ≤ 65535) :
    (init c B block).magic = c.expected_magic ∧
    (init c B block).npairs = 0 ∧
    (init c B block).frontmost_offset = B ∧
    is_empty (init c B block) = true ∧
    valid c B (init c B block) ∧
    ∀ key, lookup c (init c B block) key = none := by
  refine ⟨rfl, rfl, ?_, ?_, init_valid c B block h1 h2, ?_⟩
  · show u16 (B : Int) = B
    exact u16_nat B (by omega)
  · unfold is_empty
    exact decide_eq_true rfl
  · intro key
    apply lookup_none_of_not_mem
    intro v hmem
    rw [entries_of_npairs_zero c (show (init c B block).npairs = 0 from rfl)] at hmem
    exact List.not_mem_nil _ hmem

theorem init_empty_page_witness :
    (init example_decls 64 zero_block).magic = example_decls.expected_magic ∧
    (init example_decls 64 zero_block).npairs = 0 ∧
    (init example_decls 64 zero_block).frontmost_offset = 64 ∧
    is_empty (init example_decls 64 zero_block) = true ∧
    valid example_decls 64 (init example_decls 64 zero_block) ∧
    ∀ key, lookup example_decls (init example_decls 64 zero_block) key = none :=
  init_empty_page example_decls 64 zero_block (by decide) (by decide)

/-- C20 fails outside `sizeof(btree_leaf_node) ≤ B ≤ 65535`: for `B = 65536` the 16-bit
field holds `frontmost_offset = 0`, which is not `B` and breaks invariant 2, and for
`B = 4` the header of 8 bytes ends behind `frontmost_offset = 4`, which breaks
invariant 3. -/
theorem init_block_size_bounds :
    (init example_decls 65536 zero_block).frontmost_offset = 0 ∧
    ¬ (0 < (init example_decls 65536 zero_block).frontmost_offset) ∧
    (init example_decls 4 zero_block).frontmost_offset = 4 ∧
    ¬ (sizeof_btree_leaf_node + (init example_decls 4 zero_block).npairs * sizeof_pair_offset ≤
      (init example_decls 4 zero_block).frontmost_offset) := by
  decide

theorem same_pair_of_agree {c : leaf_decls} {m m' : Nat → Nat} {front o : Nat}
    (h : ∀ a, front ≤ a → m' a = m a) (ho : front ≤ o) : same_pair c m o m' o := by
  intro i _
  exact h (o + i) (by omega)

theorem heap_inv_of_same {c : leaf_decls} {B : Nat} {m m' : Nat → Nat} {front : Nat}
    {L : List Nat} (h : heap_inv c B m front L) (hsame : ∀ o ∈ L, same_pair c m o m' o) :
    heap_inv c B m' front L := by
  obtain ⟨h1, h2, h3, h4⟩ := h
  have hsz : ∀ o ∈ L, pair_size c m' o = pair_size c m o := fun o ho => same_pair_size (hsame o ho)
  refine ⟨h1, ?_, ?_, ?_⟩
  · intro o ho
    rw [hsz o ho]
    exact h2 o ho
  · refine List.Pairwise.imp_of_mem ?_ h3
    intro x y hx hy hxy
    unfold pairs_apart at hxy ⊢
    rw [hsz x hx, hsz y hy]
    exact hxy
  · rw [← h4]
    congr 1
    exact List.map_congr_left hsz

theorem heap_inv_of_agree {c : leaf_decls} {B : Nat} {m m' : Nat → Nat} {front : Nat}
    {L : List Nat} (h : heap_inv c B m front L) (hag : ∀ a, front ≤ a → m' a = m a) :
    heap_inv c B m' front L :=
  heap_inv_of_same h (fun o ho => same_pair_of_agree hag (h.2.1 o ho).1)

theorem store_offset_bytes (node : btree_leaf_node) (j v : Nat) {a : Nat}
    (ha : sizeof_btree_leaf_node + (j + 1) * sizeof_pair_offset ≤ a) :
    (store_offset node j v).bytes a = node.bytes a := by
  unfold store_offset
  simp only
  rw [if_neg (by omega)]

theorem move_offsets_bytes (node : btree_leaf_node) (p : Nat) {a : Nat}
    (ha : sizeof_btree_leaf_node + (p + node.npairs) * sizeof_pair_offset ≤ a) :
    (move_offsets node p).bytes a = node.bytes a := by
  unfold move_offsets
  simp only
  rw [if_neg (by omega)]

theorem move_offsets_moved (node : btree_leaf_node) (p : Nat) {j : Nat} (hj : j < node.npairs) :
    (move_offsets node p).pair_offsets (p + j) = node.pair_offsets j := by
  unfold move_offsets
  simp only
  rw [if_pos (by omega)]
  congr 1
  omega

theorem copy_loop_spec {c : leaf_decls} {B : Nat} {src : btree_leaf_node} (pos : Nat → Nat)
    (hB : B ≤ 65535) (dir_end : Nat) (k : Nat) :
    ∀ (i : Nat) (nd : btree_leaf_node) (L : List Nat),
      heap_inv c B nd.bytes nd.frontmost_offset L →
      (∀ t, i ≤ t → t < i + k →
        sizeof_btree_leaf_node + (pos t + 1) * sizeof_pair_offset ≤ dir_end) →
      (∀ s t, i ≤ s → s < t → t < i + k → pos s ≠ pos t) →
      dir_end + ((List.range' i k).map
        (fun t => pair_size c src.bytes (src.pair_offsets t))).sum ≤ nd.frontmost_offset →
      (copy_loop c src pos k i nd).npairs = nd.npairs ∧
      (copy_loop c src pos k i nd).magic = nd.magic ∧
      (copy_loop c src pos k i nd).frontmost_offset +
        ((List.range' i k).map (fun t => pair_size c src.bytes (src.pair_offsets t))).sum =
        nd.frontmost_offset ∧
      heap_inv c B (copy_loop c src pos k i nd).bytes
        (copy_loop c src pos k i nd).frontmost_offset
        ((List.range' i k).map (fun t => (copy_loop c src pos k i nd).pair_offsets (pos t))
          ++ L) ∧
      (∀ t, i ≤ t → t < i + k → same_pair c src.bytes (src.pair_offsets t)
        (copy_loop c src pos k i nd).bytes
        ((copy_loop c src pos k i nd).pair_offsets (pos t))) ∧
      (∀ j, (∀ t, i ≤ t → t < i + k → pos t ≠ j) →
        (copy_loop c src pos k i nd).pair_offsets j = nd.pair_offsets j) ∧
      (∀ a, nd.frontmost_offset ≤ a → (copy_loop c src pos k i nd).bytes a = nd.bytes a) := by
  induction k with
  | zero =>
    intro i nd L h1 _ _ _
    unfold copy_loop
    refine ⟨rfl, rfl, by simp, ?_, ?_, ?_, ?_⟩
    · simpa using h1
    · intro t h2 h3; omega
    · intro j _; rfl
    · intro a _; rfl
  | succ k ih =>
    intro i nd L h1 hdir hinj hfit
    unfold copy_loop
    simp only
    rw [List.range'_succ, List.map_cons, List.sum_cons] at hfit ⊢
    have hfr : nd.frontmost_offset < 65536 := by have := h1.1; omega
    obtain ⟨r1, r2, r3, r4, r5, r6, r7⟩ :=
      @insert_pair_spec c nd src.bytes (src.pair_offsets i) (by omega) hfr
    set r := insert_pair c nd src.bytes (src.pair_offsets i) with hr
    set nd1 := store_offset r.1 (pos i) r.2 with hnd1
    have hd := hdir i (le_refl _) (by omega)
    have hfront1 : nd1.frontmost_offset = r.2 := r2
    have hbytes1 : ∀ a, r.2 ≤ a → nd1.bytes a = r.1.bytes a := by
      intro a ha
      exact store_offset_bytes r.1 (pos i) r.2 (by rw [r1] at ha; omega)
    have hpo1 : nd1.pair_offsets (pos i) = r.2 := by
      show (if pos i = pos i then r.2 else _) = _
      rw [if_pos rfl]
    have hpo1' : ∀ j, j ≠ pos i → nd1.pair_offsets j = nd.pair_offsets j := by
      intro j hj
      show (if j = pos i then r.2 else r.1.pair_offsets j) = _
      rw [if_neg hj, r4]
    have hag : ∀ a, nd.frontmost_offset ≤ a → nd1.bytes a = nd.bytes a := by
      intro a ha
      rw [hbytes1 a (by rw [r1]; omega)]
      exact r6 a ha
    have hsame1 : same_pair c src.bytes (src.pair_offsets i) nd1.bytes r.2 :=
      same_pair_trans r7 (same_pair_of_agree (fun a ha => hbytes1 a ha) (le_refl _))
    have hheap1 : heap_inv c B nd1.bytes nd1.frontmost_offset (r.2 :: L) := by
      rw [hfront1]
      apply heap_inv_push h1 (fun o ho => same_pair_of_agree hag (h1.2.1 o ho).1)
      rw [same_pair_size hsame1, r1]
      omega
    have hfit1 : dir_end + ((List.range' (i + 1) k).map
        (fun t => pair_size c src.bytes (src.pair_offsets t))).sum ≤ nd1.frontmost_offset := by
      rw [hfront1, r1]; omega
    obtain ⟨g1, g2, g3, g4, g5, g6, g7⟩ := ih (i + 1) nd1 (r.2 :: L) hheap1
      (fun t h2 h3 => hdir t (by omega) (by omega))
      (fun s t h2 h3 h4 => hinj s t (by omega) h3 (by omega)) hfit1
    have hkeep : (copy_loop c src pos k (i + 1) nd1).pair_offsets (pos i) = r.2 := by
      rw [g6 (pos i) (fun t h2 h3 => (hinj i t (le_refl _) (by omega) (by omega)).symm)]
      exact hpo1
    refine ⟨?_, ?_, ?_, ?_, ?_, ?_, ?_⟩
    · rw [g1]; exact r3
    · rw [g2]; exact r5
    · rw [hfront1, r1] at g3
      omega
    · rw [List.map_cons, hkeep]
      refine heap_inv_perm ?_ g4
      exact List.perm_middle
    · intro t h2 h3
      rcases Nat.eq_or_lt_of_le h2 with h | h
      · rw [← h, hkeep]
        exact same_pair_trans hsame1
          (same_pair_of_agree (fun a ha => g7 a (by rw [hfront1]; exact ha)) (le_refl _))
      · exact g5 t (by omega) (by omega)
    · intro j hj
      rw [g6 j (fun t h2 h3 => hj t (by omega) (by omega))]
      exact hpo1' j (fun h => hj i (le_refl _) (by omega) h.symm)
    · intro a ha
      rw [g7 a (by rw [hfront1, r1]; omega)]
      exact hag a ha

theorem entries_eq_range (c : leaf_decls) (node : btree_leaf_node) :
    entries c node =
      (List.range node.npairs).map (fun t => pair_kv c node.bytes (node.pair_offsets t)) := by
  unfold entries slots
  rw [List.map_map]
  rfl

theorem slots_of_npairs_add {r : btree_leaf_node} {n m : Nat} (h : r.npairs = n + m) :
    slots r = (List.range n).map r.pair_offsets ++
      (List.range m).map (fun j => r.pair_offsets (n + j)) := by
  unfold slots
  rw [h, List.range_add, List.map_append, List.map_map]
  rfl

theorem pairs_bytes_eq_range (c : leaf_decls) (node : btree_leaf_node) :
    pairs_bytes c node = ((List.range' 0 node.npairs).map
      (fun t => pair_size c node.bytes (node.pair_offsets t))).sum := by
  unfold pairs_bytes slots
  rw [List.map_map, List.range_eq_range']
  rfl

theorem sorted_iff_keys (c : leaf_decls) (node : btree_leaf_node) :
    (slots node).Pairwise (leaf_key_lt node.bytes) ↔
      ((entries c node).map Prod.fst).Pairwise (fun k1 k2 => sized_strcmp k1 k2 < 0) := by
  unfold entries
  rw [List.map_map, List.pairwise_map]
  rfl

theorem merge_spec {c : leaf_decls} {B : Nat} {node rnode : btree_leaf_node}
    (hv : valid c B node) (hr : valid c B rnode)
    (hroom : sizeof_btree_leaf_node + (node.npairs + rnode.npairs) * sizeof_pair_offset +
      (B - node.frontmost_offset) + (B - rnode.frontmost_offset) < B) :
    ∃ r sep, merge c B node rnode = some (r, sep) ∧
      r.magic = c.expected_magic ∧
      r.npairs = node.npairs + rnode.npairs ∧
      r.frontmost_offset + (B - node.frontmost_offset) = rnode.frontmost_offset ∧
      heap_inv c B r.bytes r.frontmost_offset (slots r) ∧
      entries c r = entries c node ++ entries c rnode ∧
      sep = slot_key r 0 := by
  have hB := hv.block_u16
  have hf1 := hv.front_le
  have hf2 := hr.front_le
  have hd1 := hv.dir
  have hd2 := hr.dir
  have hsz : sizeof_btree_leaf_node = 8 := rfl
  have hsp : sizeof_pair_offset = 2 := rfl
  rw [hsz, hsp] at hroom hd1 hd2
  have hcond : (((sizeof_btree_leaf_node + (node.npairs + rnode.npairs) * sizeof_pair_offset +
      B : Nat) : Int) - node.frontmost_offset + B -
      rnode.frontmost_offset) % 18446744073709551616 < B := by
    rw [hsz, hsp]
    omega
  unfold merge
  rw [if_pos hcond]
  simp only
  set rnode1 := move_offsets rnode node.npairs with hrnode1
  have hheap1 : heap_inv c B rnode1.bytes rnode1.frontmost_offset (slots rnode) := by
    apply heap_inv_of_agree hr.heap
    intro a ha
    apply move_offsets_bytes
    rw [hsz, hsp]
    omega
  have hsum : ((List.range' 0 node.npairs).map
      (fun t => pair_size c node.bytes (node.pair_offsets t))).sum =
      B - node.frontmost_offset := by
    rw [← pairs_bytes_eq_range]
    exact hv.dense
  obtain ⟨g1, g2, g3, g4, g5, g6, g7⟩ := copy_loop_spec (fun i => i) hB
    (sizeof_btree_leaf_node + (node.npairs + rnode.npairs) * sizeof_pair_offset)
    node.npairs 0 rnode1 (slots rnode) hheap1
    (by intro t _ ht; show 8 + (t + 1) * 2 ≤ 8 + (node.npairs + rnode.npairs) * 2; omega)
    (by intro s t _ hst _; exact Nat.ne_of_lt hst)
    (by rw [hsum, hsz, hsp]; show _ ≤ rnode.frontmost_offset; omega)
  set rnode2 := copy_loop c node (fun i => i) node.npairs 0 rnode1 with hrnode2
  have hn2 : rnode2.npairs = rnode.npairs := g1
  have hu : u16 ((rnode2.npairs : Int) + node.npairs) = node.npairs + rnode.npairs := by
    rw [hn2]
    have := u16_nat (rnode.npairs + node.npairs) (by omega)
    rw [Nat.cast_add] at this
    rw [this]
    omega
  set r : btree_leaf_node :=
    { rnode2 with npairs := u16 ((rnode2.npairs : Int) + node.npairs) } with hrdef
  have hrn : r.npairs = node.npairs + rnode.npairs := hu
  have hpo_hi : ∀ j, j < rnode.npairs →
      rnode2.pair_offsets (node.npairs + j) = rnode.pair_offsets j := by
    intro j hj
    rw [g6 (node.npairs + j) (by intro t _ ht; omega)]
    exact move_offsets_moved rnode node.npairs hj
  have hslots : slots r = (List.range' 0 node.npairs).map
      (fun t => rnode2.pair_offsets t) ++ slots rnode := by
    rw [slots_of_npairs_add hrn, ← List.range_eq_range']
    congr 1
    unfold slots
    apply List.map_congr_left
    intro j hj
    exact hpo_hi j (List.mem_range.mp hj)
  refine ⟨r, _, rfl, ?_, hrn, ?_, ?_, ?_, rfl⟩
  · show rnode2.magic = _
    rw [g2]
    exact hr.magic
  · show rnode2.frontmost_offset + _ = _
    rw [hsum] at g3
    exact g3
  · rw [hslots]
    exact g4
  · show (slots r).map (pair_kv c rnode2.bytes) = _
    rw [hslots, List.map_append, List.map_map, ← List.range_eq_range']
    congr 1
    · rw [entries_eq_range]
      apply List.map_congr_left
      intro t ht
      exact same_pair_kv (g5 t (Nat.zero_le _) (by have := List.mem_range.mp ht; omega))
    · unfold entries
      apply List.map_congr_left
      intro o ho
      have hag1 : ∀ x, rnode.frontmost_offset ≤ x → rnode1.bytes x = rnode.bytes x := by
        intro x hx
        apply move_offsets_bytes
        rw [hsz, hsp]
        omega
      exact same_pair_kv (same_pair_trans
        (same_pair_of_agree hag1 (hr.slot_lo o ho))
        (same_pair_of_agree (fun x hx => g7 x hx) (hr.slot_lo o ho)))

theorem page_mn_valid : valid example_decls 64 page_mn :=
  insert_valid [110] (insert_valid [109] page0_valid (by decide)) (by decide)

theorem is_mergable_room {c : leaf_decls} {B : Nat} {node sibling : btree_leaf_node}
    (h : is_mergable c B node sibling = true) :
    sizeof_btree_leaf_node + (node.npairs + sibling.npairs) * sizeof_pair_offset +
      (B - node.frontmost_offset) + (B - sibling.frontmost_offset) + c.LEAF_EPSILON < B := by
  unfold is_mergable at h
  exact of_decide_eq_true h

theorem slot_key_of_entries_append {c : leaf_decls} {r left right : btree_leaf_node}
    (h : entries c r = entries c left ++ entries c right) {i : Nat} (hi : i < left.npairs) :
    slot_key r i = slot_key left i := by
  have h1 := getElem?_entries c r i
  rw [h, List.getElem?_append_left (by rw [length_entries]; exact hi), getElem?_entries,
    if_pos hi] at h1
  split_ifs at h1 with h2
  · have := Option.some.inj h1
    exact (congrArg Prod.fst this).symm

theorem first_key_le {c : leaf_decls} {B : Nat} {node : btree_leaf_node} (hv : valid c B node)
    {x : btree_key × btree_value} (hx : x ∈ entries c node) :
    sized_strcmp (slot_key node 0) x.1 ≤ 0 := by
  obtain ⟨i, hi, rfl⟩ := mem_entries.mp hx
  rcases Nat.eq_zero_or_pos i with h | h
  · rw [h]
    show sized_strcmp (slot_key node 0) (slot_key node 0) ≤ 0
    rw [sized_strcmp_self]
  · have := pairwise_slots.mp hv.sorted 0 i h hi
    exact le_of_lt this

/-- C11: for valid pages `left` and `right` with `is_mergable(left, right)`, `left` not
empty and every key of `left` smaller than every key of `right`, `merge` returns; the
pairs of the merged right page are exactly those of the two pages, its `npairs` is the
sum of the two counts, its directory is strictly sorted by key, and the key written to
`key_to_remove` is the first key of the merged page, which is the first and smallest
key of `left`. -/
theorem merge_union (c : leaf_decls) (B : Nat) (left right : btree_leaf_node)
    (hl : valid c B left) (hr : valid c B right)
    (hm : is_mergable c B left right = true) (hne : 0 < left.npairs)
    (hlt : ∀ x ∈ entries c left, ∀ y ∈ entries c right, sized_strcmp x.1 y.1 < 0) :
    ∃ r sep, merge c B left right = some (r, sep) ∧
      (∀ kv, kv ∈ entries c r ↔ kv ∈ entries c left ∨ kv ∈ entries c right) ∧
      r.npairs = left.npairs + right.npairs ∧
      (slots r).Pairwise (leaf_key_lt r.bytes) ∧
      sep = slot_key r 0 ∧
      sep = slot_key left 0 ∧
      ∀ x ∈ entries c left, sized_strcmp sep x.1 ≤ 0 := by
  have hroom := is_mergable_room hm
  obtain ⟨r, sep, h1, h2, h3, h4, h5, h6, h7⟩ :=
    @merge_spec c B left right hl hr (by omega)
  have h8 : sep = slot_key left 0 := by rw [h7]; exact slot_key_of_entries_append h6 hne
  refine ⟨r, sep, h1, ?_, h3, ?_, h7, h8, ?_⟩
  · intro kv
    rw [h6, List.mem_append]
  · rw [sorted_iff_keys c, h6, List.map_append, List.pairwise_append]
    refine ⟨(sorted_iff_keys c left).mp hl.sorted, (sorted_iff_keys c right).mp hr.sorted, ?_⟩
    intro k1 hk1 k2 hk2
    obtain ⟨x, hx, rfl⟩ := List.mem_map.mp hk1
    obtain ⟨y, hy, rfl⟩ := List.mem_map.mp hk2
    exact hlt x hx y hy
  · intro x hx
    rw [h8]
    exact first_key_le hl hx

theorem merge_union_witness :
    ∃ r sep, merge example_decls 64 page1 page_mn = some (r, sep) ∧
      (∀ kv, kv ∈ entries example_decls r ↔
        kv ∈ entries example_decls page1 ∨ kv ∈ entries example_decls page_mn) ∧
      r.npairs = page1.npairs + page_mn.npairs ∧
      (slots r).Pairwise (leaf_key_lt r.bytes) ∧
      sep = slot_key r 0 ∧
      sep = slot_key page1 0 ∧
      ∀ x ∈ entries example_decls page1, sized_strcmp sep x.1 ≤ 0 :=
  merge_union example_decls 64 page1 page_mn page1_valid page_mn_valid (by decide) (by decide)
    (by decide)

/-- C12: for valid pages of the same block size and any `LEAF_EPSILON`, when
`is_mergable(left, right)` holds the `guarantee` of `merge` does not fire (`merge`
returns), and in the merged right page the directory ends at or below
`frontmost_offset`, `0 < frontmost_offset ≤ B`, every slot points at a pair inside
`[frontmost_offset, B)`, and the pairs do not overlap and fill `[frontmost_offset, B)`. -/
theorem merge_keeps_layout (c : leaf_decls) (B : Nat) (left right : btree_leaf_node)
    (hl : valid c B left) (hr : valid c B right)
    (hm : is_mergable c B left right = true) :
    ∃ r sep, merge c B left right = some (r, sep) ∧
      r.npairs = left.npairs + right.npairs ∧
      sizeof_btree_leaf_node + (left.npairs + right.npairs) * sizeof_pair_offset ≤
        r.frontmost_offset ∧
      0 < r.frontmost_offset ∧ r.frontmost_offset ≤ B ∧
      (∀ o ∈ slots r, r.frontmost_offset ≤ o ∧ o < B ∧ o + pair_size c r.bytes o ≤ B) ∧
      (slots r).Pairwise (pairs_apart c r.bytes) ∧
      pairs_bytes c r = B - r.frontmost_offset := by
  have hroom := is_mergable_room hm
  obtain ⟨r, sep, h1, h2, h3, h4, h5, h6, h7⟩ :=
    @merge_spec c B left right hl hr (by omega)
  have hf1 := hl.front_le
  have hf2 := hr.front_le
  refine ⟨r, sep, h1, h3, by omega, by omega, h5.1, ?_, h5.2.2.1, h5.2.2.2⟩
  intro o ho
  have := h5.2.1 o ho
  have hp := pair_size_pos c r.bytes o
  omega

theorem merge_keeps_layout_witness :
    ∃ r sep, merge example_decls 64 page1 page_mn = some (r, sep) ∧
      r.npairs = page1.npairs + page_mn.npairs ∧
      sizeof_btree_leaf_node + (page1.npairs + page_mn.npairs) * sizeof_pair_offset ≤
        r.frontmost_offset ∧
      0 < r.frontmost_offset ∧ r.frontmost_offset ≤ 64 ∧
      (∀ o ∈ slots r, r.frontmost_offset ≤ o ∧ o < 64 ∧
        o + pair_size example_decls r.bytes o ≤ 64) ∧
      (slots r).Pairwise (pairs_apart example_decls r.bytes) ∧
      pairs_bytes example_decls r = 64 - r.frontmost_offset :=
  merge_keeps_layout example_decls 64 page1 page_mn page1_valid page_mn_valid (by decide)

/-- C13: `split` of a valid page (full or not) returns, and when the two pages it
leaves satisfy `is_mergable`, `merge` of them returns and leaves in the right page
exactly the key/value pairs of the page before the split, in the same order. -/
theorem split_merge_round_trip (c : leaf_decls) (B : Nat) (page rnode : btree_leaf_node)
    (hv : valid c B page) :
    ∃ l r med, split c B page rnode = some (l, r, med) ∧
      (is_mergable c B l r = true →
        ∃ r' sep, merge c B l r = some (r', sep) ∧ entries c r' = entries c page ∧
          ∀ kv, kv ∈ entries c r' ↔ kv ∈ entries c page) := by
  obtain ⟨m, l, r, med, h1, h2, h3, h4, h5, h6, h7, h8, h9, h10, h11, h12, h13⟩ :=
    split_spec rnode hv
  refine ⟨l, r, med, h1, ?_⟩
  intro hm
  have hroom := is_mergable_room hm
  obtain ⟨r', sep, g1, g2, g3, g4, g5, g6, g7⟩ := @merge_spec c B l r h5 h6 (by omega)
  have he : entries c r' = entries c page := by
    rw [g6, h9, h10, List.take_append_drop]
  refine ⟨r', sep, g1, he, ?_⟩
  intro kv
  rw [he]

theorem split_merge_round_trip_witness :
    valid example_decls 64 page3 ∧
    is_full example_decls page3 long_key mid_value = true ∧
    ∃ l r med, split example_decls 64 page3 zero_block = some (l, r, med) ∧
      is_mergable example_decls 64 l r = true ∧
      ∃ r' sep, merge example_decls 64 l r = some (r', sep) ∧
        entries example_decls r' = entries example_decls page3 ∧
        ∀ kv, kv ∈ entries example_decls r' ↔ kv ∈ entries example_decls page3 := by
  obtain ⟨l, r, med, h1, h2⟩ :=
    split_merge_round_trip example_decls 64 page3 zero_block page3_valid
  have hm : is_mergable example_decls 64 l r = true := by
    have h3 : (split example_decls 64 page3 zero_block).map
        (fun x => is_mergable example_decls 64 x.1 x.2.1) = some true := by decide
    rw [h1] at h3
    exact Option.some.inj h3
  exact ⟨page3_valid, by decide, l, r, med, h1, hm, h2 hm⟩

theorem pair_size_eq_entry (c : leaf_decls) (m : Nat → Nat) (o : Nat) :
    pair_size c m o = entry_size (pair_kv c m o) := by
  unfold entry_size pair_kv key_at value_at pair_size sizeof_btree_leaf_pair
  simp only [length_read_bytes]
  omega

theorem pairs_bytes_eq_entries (c : leaf_decls) (node : btree_leaf_node) :
    pairs_bytes c node = entries_bytes (entries c node) := by
  unfold pairs_bytes entries_bytes entries
  rw [List.map_map]
  congr 1
  apply List.map_congr_left
  intro o _
  exact pair_size_eq_entry c node.bytes o

theorem cum_bytes_eq_entries (c : leaf_decls) (node : btree_leaf_node) (j : Nat) :
    cum_bytes c node j = entries_bytes ((entries c node).take j) := by
  unfold cum_bytes entries_bytes entries
  rw [← List.map_take, List.map_map]
  congr 1
  apply List.map_congr_left
  intro o _
  exact pair_size_eq_entry c node.bytes o

theorem entries_bytes_append (L1 L2 : List (btree_key × btree_value)) :
    entries_bytes (L1 ++ L2) = entries_bytes L1 + entries_bytes L2 := by
  unfold entries_bytes
  rw [List.map_append, List.sum_append]

theorem entries_bytes_take_drop (L : List (btree_key × btree_value)) (k : Nat) :
    entries_bytes (L.take k) + entries_bytes (L.drop k) = entries_bytes L := by
  rw [← entries_bytes_append, List.take_append_drop]

theorem valid.used {c : leaf_decls} {B : Nat} {node : btree_leaf_node} (h : valid c B node) :
    node.frontmost_offset + entries_bytes (entries c node) = B := by
  have h1 := h.dense
  have h2 := h.front_le
  rw [pairs_bytes_eq_entries] at h1
  omega

theorem delete_slot_spec {c : leaf_decls} {B : Nat} {nd : btree_leaf_node} {i : Nat}
    (hv : valid c B nd) (hi : i < nd.npairs) :
    valid c B (delete_offset (delete_pair c nd (nd.pair_offsets i)) i) ∧
    (delete_offset (delete_pair c nd (nd.pair_offsets i)) i).npairs = nd.npairs - 1 ∧
    entries c (delete_offset (delete_pair c nd (nd.pair_offsets i)) i) =
      (entries c nd).eraseIdx i := by
  have hf := find_key_of_slot hv.sorted hi
  obtain ⟨node', h1, h2, h3, h4⟩ := @remove_spec c B nd (slot_key nd i) i hv hf
  unfold remove at h1
  rw [hf] at h1
  have := Option.some.inj h1
  rw [this]
  exact ⟨h2, h3, h4⟩

theorem level_delete_first_spec {c : leaf_decls} {B : Nat} (k : Nat) :
    ∀ (nd : btree_leaf_node), valid c B nd → k ≤ nd.npairs →
      valid c B (level_delete_first c k nd) ∧
      (level_delete_first c k nd).npairs = nd.npairs - k ∧
      entries c (level_delete_first c k nd) = (entries c nd).drop k := by
  induction k with
  | zero =>
    intro nd hv _
    exact ⟨hv, rfl, rfl⟩
  | succ k ih =>
    intro nd hv hk
    unfold level_delete_first
    obtain ⟨h1, h2, h3⟩ := @delete_slot_spec c B nd 0 hv (by omega)
    obtain ⟨g1, g2, g3⟩ := ih _ h1 (by omega)
    refine ⟨g1, by omega, ?_⟩
    rw [g3, h3, List.eraseIdx_zero, List.drop_tail]

theorem level_delete_last_spec {c : leaf_decls} {B : Nat} (index : Nat) (fuel : Nat) :
    ∀ (nd : btree_leaf_node), valid c B nd → index ≤ nd.npairs → nd.npairs ≤ index + fuel →
      valid c B (level_delete_last c index fuel nd) ∧
      (level_delete_last c index fuel nd).npairs = index ∧
      entries c (level_delete_last c index fuel nd) = (entries c nd).take index := by
  induction fuel with
  | zero =>
    intro nd hv h1 h2
    unfold level_delete_last
    refine ⟨hv, by omega, ?_⟩
    rw [List.take_of_length_le]
    rw [length_entries]
    omega
  | succ fuel ih =>
    intro nd hv h1 h2
    unfold level_delete_last
    by_cases h : index < nd.npairs
    · rw [if_pos h]
      obtain ⟨g1, g2, g3⟩ := @delete_slot_spec c B nd index hv h
      obtain ⟨f1, f2, f3⟩ := ih _ g1 (by omega) (by omega)
      refine ⟨f1, f2, ?_⟩
      rw [f3, g3, List.eraseIdx_eq_take_drop_succ, List.take_append_of_le_length,
        List.take_take, Nat.min_self]
      rw [List.length_take, length_entries]
      omega
    · rw [if_neg h]
      refine ⟨hv, by omega, ?_⟩
      rw [List.take_of_length_le]
      rw [length_entries]
      omega

theorem level_walk_up_spec {c : leaf_decls} {b : btree_leaf_node} (adj0 : Int)
    (hle : adj0 ≤ pairs_bytes c b) :
    ∀ (fuel j : Nat), j ≤ b.npairs → (adj0 - cum_bytes c b j).toNat ≤ fuel →
      (0 < j → (cum_bytes c b (j - 1) : Int) < adj0) →
      ∃ w : Nat, level_walk_up c b fuel (adj0 - cum_bytes c b j) ((j : Int) - 1) =
          some ((w : Int) - 1) ∧
        j ≤ w ∧ w ≤ b.npairs ∧ adj0 ≤ cum_bytes c b w ∧
        (0 < w → (cum_bytes c b (w - 1) : Int) < adj0) := by
  intro fuel
  induction fuel with
  | zero =>
    intro j hj hfuel hprev
    unfold level_walk_up
    have : ¬ (adj0 - (cum_bytes c b j : Int) > 0) := by omega
    rw [if_neg this]
    exact ⟨j, rfl, le_refl _, hj, by omega, hprev⟩
  | succ fuel ih =>
    intro j hj hfuel hprev
    unfold level_walk_up
    by_cases h : adj0 - (cum_bytes c b j : Int) > 0
    · rw [if_pos h]
      have hjlt : j < b.npairs := by
        rcases Nat.lt_or_ge j b.npairs with h1 | h1
        · exact h1
        · have : j = b.npairs := by omega
          rw [this, cum_bytes_all] at h
          omega
      have hidx : ((j : Int) - 1 + 1).toNat = j := by omega
      have hsucc := cum_bytes_succ c b hjlt
      have hpos := pair_size_pos c b.bytes (b.pair_offsets j)
      rw [hidx]
      have e1 : adj0 - (cum_bytes c b j : Int) - (pair_size c b.bytes (b.pair_offsets j) : Int) =
          adj0 - (cum_bytes c b (j + 1) : Int) := by
        rw [hsucc]; push_cast; omega
      have e2 : (j : Int) - 1 + 1 = ((j + 1 : Nat) : Int) - 1 := by push_cast; omega
      rw [e1, e2]
      obtain ⟨w, g1, g2, g3, g4, g5⟩ := ih (j + 1) hjlt (by omega)
        (by intro _; rw [Nat.add_sub_cancel]; omega)
      exact ⟨w, g1, by omega, g3, g4, g5⟩
    · rw [if_neg h]
      exact ⟨j, rfl, le_refl _, hj, by omega, hprev⟩

theorem level_walk_down_spec {c : leaf_decls} {b : btree_leaf_node} (adj0 : Int)
    (hle : adj0 ≤ pairs_bytes c b) :
    ∀ (fuel index : Nat), index ≤ b.npairs →
      (adj0 - ((pairs_bytes c b : Int) - cum_bytes c b index)).toNat ≤ fuel →
      (index < b.npairs → (pairs_bytes c b : Int) - cum_bytes c b (index + 1) < adj0) →
      ∃ idx : Nat, level_walk_down c b fuel
          (adj0 - ((pairs_bytes c b : Int) - cum_bytes c b index)) index = some idx ∧
        idx ≤ index ∧ adj0 ≤ (pairs_bytes c b : Int) - cum_bytes c b idx ∧
        (idx < b.npairs → (pairs_bytes c b : Int) - cum_bytes c b (idx + 1) < adj0) := by
  intro fuel
  induction fuel with
  | zero =>
    intro index hi hfuel hprev
    unfold level_walk_down
    have : ¬ (adj0 - ((pairs_bytes c b : Int) - cum_bytes c b index) > 0) := by omega
    rw [if_neg this]
    exact ⟨index, rfl, le_refl _, by omega, hprev⟩
  | succ fuel ih =>
    intro index hi hfuel hprev
    unfold level_walk_down
    by_cases h : adj0 - ((pairs_bytes c b : Int) - cum_bytes c b index) > 0
    · rw [if_pos h]
      have hne : index ≠ 0 := by
        intro h0
        rw [h0, cum_bytes_zero] at h
        omega
      rw [if_neg hne]
      have hsucc := @cum_bytes_succ c b (index - 1) (by omega)
      rw [show index - 1 + 1 = index by omega] at hsucc
      have hpos := pair_size_pos c b.bytes (b.pair_offsets (index - 1))
      have e1 : adj0 - ((pairs_bytes c b : Int) - cum_bytes c b index) -
          (pair_size c b.bytes (b.pair_offsets (index - 1)) : Int) =
          adj0 - ((pairs_bytes c b : Int) - cum_bytes c b (index - 1)) := by
        rw [hsucc]; push_cast; omega
      rw [e1]
      obtain ⟨idx, g1, g2, g3, g4⟩ := ih (index - 1) (by omega) (by omega)
        (by intro _; rw [show index - 1 + 1 = index by omega]; omega)
      exact ⟨idx, g1, by omega, g3, g4⟩
    · rw [if_neg h]
      exact ⟨index, rfl, le_refl _, by omega, hprev⟩

theorem tdiv_two (x : Int) : Int.tdiv x 2 = if 0 ≤ x then x / 2 else -((-x) / 2) := by
  split_ifs with h
  · exact Int.tdiv_eq_ediv h (by decide)
  · have h1 : x = -(-x) := by omega
    rw [h1, Int.neg_tdiv, Int.tdiv_eq_ediv (by omega) (by decide)]
    simp

theorem level_adjustment {c : leaf_decls} {B : Nat} {a b : btree_leaf_node}
    (ha : valid c B a) (hb : valid c B b) :
    Int.tdiv ((u16 ((B : Int) - b.frontmost_offset) : Int) -
      (u16 ((B : Int) - a.frontmost_offset) : Int)) 2 =
    Int.tdiv ((pairs_bytes c b : Int) - pairs_bytes c a) 2 ∧
    Int.tdiv ((pairs_bytes c b : Int) - pairs_bytes c a) 2 ≤ pairs_bytes c b := by
  have h1 := ha.front_le
  have h2 := hb.front_le
  have h3 := ha.block_u16
  have e1 : u16 ((B : Int) - b.frontmost_offset) = B - b.frontmost_offset := by
    rw [u16_of_lt _ (by omega) (by omega)]; omega
  have e2 : u16 ((B : Int) - a.frontmost_offset) = B - a.frontmost_offset := by
    rw [u16_of_lt _ (by omega) (by omega)]; omega
  rw [e1, e2, ha.dense, hb.dense]
  refine ⟨rfl, ?_⟩
  rw [tdiv_two]
  split_ifs with h <;> omega

theorem copy_loop_npairs (c : leaf_decls) (src : btree_leaf_node) (pos : Nat → Nat) (k : Nat) :
    ∀ (i : Nat) (nd : btree_leaf_node), (copy_loop c src pos k i nd).npairs = nd.npairs := by
  induction k with
  | zero => intro i nd; rfl
  | succ k ih =>
    intro i nd
    unfold copy_loop
    simp only
    rw [ih]
    rfl

theorem level_head_eq {c : leaf_decls} {B : Nat} {a b : btree_leaf_node}
    (ha : valid c B a) (hb : valid c B b) (hcmp : nodecmp a b < 0) :
    ∃ w : Nat, w ≤ b.npairs ∧
      Int.tdiv ((pairs_bytes c b : Int) - pairs_bytes c a) 2 ≤ cum_bytes c b w ∧
      (0 < w → (cum_bytes c b (w - 1) : Int) <
        Int.tdiv ((pairs_bytes c b : Int) - pairs_bytes c a) 2) ∧
      level c B a b = some (if w ≤ 1 then ⟨false, a, b, none, none⟩
        else level_move_first c a b (w - 1)) := by
  obtain ⟨e, hle⟩ := level_adjustment ha hb
  obtain ⟨w, g1, g2, g3, g4, g5⟩ := level_walk_up_spec
    (Int.tdiv ((pairs_bytes c b : Int) - pairs_bytes c a) 2) hle
    (Int.tdiv ((pairs_bytes c b : Int) - pairs_bytes c a) 2).toNat 0 (Nat.zero_le _)
    (by rw [cum_bytes_zero]; simp) (by intro h; omega)
  rw [cum_bytes_zero] at g1
  have e0 : ((0 : Nat) : Int) - 1 = -1 := by decide
  have e1 : Int.tdiv ((pairs_bytes c b : Int) - pairs_bytes c a) 2 - ((0 : Nat) : Int) =
      Int.tdiv ((pairs_bytes c b : Int) - pairs_bytes c a) 2 := by simp
  rw [e0, e1] at g1
  refine ⟨w, g3, g4, g5, ?_⟩
  unfold level
  simp only
  rw [e, if_pos hcmp, g1]
  simp only
  by_cases h : w ≤ 1
  · rw [if_pos h, if_pos (by omega)]
  · rw [if_neg h, if_neg (by omega)]
    congr 2
    omega

theorem level_tail_eq {c : leaf_decls} {B : Nat} {a b : btree_leaf_node}
    (ha : valid c B a) (hb : valid c B b) (hcmp : ¬ nodecmp a b < 0) :
    ∃ idx : Nat, idx ≤ b.npairs ∧
      Int.tdiv ((pairs_bytes c b : Int) - pairs_bytes c a) 2 ≤
        (pairs_bytes c b : Int) - cum_bytes c b idx ∧
      (idx < b.npairs → (pairs_bytes c b : Int) - cum_bytes c b (idx + 1) <
        Int.tdiv ((pairs_bytes c b : Int) - pairs_bytes c a) 2) ∧
      level c B a b = some (if idx = b.npairs then ⟨false, a, b, none, none⟩
        else level_move_last c a b idx (b.npairs - idx)) := by
  obtain ⟨e, hle⟩ := level_adjustment ha hb
  obtain ⟨idx, g1, g2, g3, g4⟩ := level_walk_down_spec
    (Int.tdiv ((pairs_bytes c b : Int) - pairs_bytes c a) 2) hle
    (Int.tdiv ((pairs_bytes c b : Int) - pairs_bytes c a) 2).toNat b.npairs (le_refl _)
    (by rw [cum_bytes_all]; simp) (by intro h; omega)
  have e1 : Int.tdiv ((pairs_bytes c b : Int) - pairs_bytes c a) 2 -
      ((pairs_bytes c b : Int) - cum_bytes c b b.npairs) =
      Int.tdiv ((pairs_bytes c b : Int) - pairs_bytes c a) 2 := by
    rw [cum_bytes_all]; simp
  rw [e1] at g1
  refine ⟨idx, g2, g3, g4, ?_⟩
  unfold level
  simp only
  rw [e, if_neg hcmp, g1]
  simp only
  rw [if_neg (by omega)]
  by_cases h : idx = b.npairs
  · rw [if_pos h, if_pos (by omega)]
  · rw [if_neg h, if_neg (by omega)]
    congr 2
    omega

theorem cum_bytes_eq_range (c : leaf_decls) (b : btree_leaf_node) {k : Nat} (hk : k ≤ b.npairs) :
    ((List.range' 0 k).map (fun t => pair_size c b.bytes (b.pair_offsets t))).sum =
      cum_bytes c b k := by
  unfold cum_bytes
  rw [slots_take b hk, List.map_map, List.range_eq_range']
  rfl

theorem entries_take_eq_range (c : leaf_decls) (b : btree_leaf_node) {k : Nat}
    (hk : k ≤ b.npairs) :
    (entries c b).take k =
      (List.range k).map (fun t => pair_kv c b.bytes (b.pair_offsets t)) := by
  unfold entries
  rw [← List.map_take, slots_take b hk, List.map_map]
  rfl

theorem entries_drop_eq_range (c : leaf_decls) (b : btree_leaf_node) (m : Nat) :
    (entries c b).drop m =
      (List.range (b.npairs - m)).map (fun t => pair_kv c b.bytes (b.pair_offsets (m + t))) := by
  unfold entries
  rw [← List.map_drop, slots_drop b m, List.map_map]
  rfl

theorem level_move_first_spec {c : leaf_decls} {B : Nat} {a b : btree_leaf_node}
    (ha : valid c B a) (hb : valid c B b) {k : Nat} (hk : k ≤ b.npairs)
    (hroom : sizeof_btree_leaf_node + (a.npairs + k) * sizeof_pair_offset +
      (B - a.frontmost_offset) + cum_bytes c b k ≤ B) :
    (level_move_first c a b k).node.magic = c.expected_magic ∧
    (level_move_first c a b k).node.npairs = a.npairs + k ∧
    (level_move_first c a b k).node.frontmost_offset + cum_bytes c b k = a.frontmost_offset ∧
    heap_inv c B (level_move_first c a b k).node.bytes
      (level_move_first c a b k).node.frontmost_offset
      (slots (level_move_first c a b k).node) ∧
    entries c (level_move_first c a b k).node = entries c a ++ (entries c b).take k := by
  have hB := ha.block_u16
  have hf1 := ha.front_le
  have hd1 := ha.dir
  have hsz : sizeof_btree_leaf_node = 8 := rfl
  have hsp : sizeof_pair_offset = 2 := rfl
  rw [hsz, hsp] at hroom hd1
  have hsum := cum_bytes_eq_range c b hk
  obtain ⟨g1, g2, g3, g4, g5, g6, g7⟩ := copy_loop_spec (fun i => a.npairs + i) hB
    (sizeof_btree_leaf_node + (a.npairs + k) * sizeof_pair_offset)
    k 0 a (slots a) ha.heap
    (by intro t _ ht; show 8 + (a.npairs + t + 1) * 2 ≤ 8 + (a.npairs + k) * 2; omega)
    (by intro s t _ hst _; show a.npairs + s ≠ a.npairs + t; omega)
    (by rw [hsum, hsz, hsp]; omega)
  rw [hsum] at g3
  unfold level_move_first
  simp only
  set node1 := copy_loop c b (fun i => a.npairs + i) k 0 a with hnode1
  have hu : u16 ((node1.npairs : Int) + k) = a.npairs + k := by
    rw [g1]
    have := u16_nat (a.npairs + k) (by have := hb.npairs_lt; omega)
    rw [Nat.cast_add] at this
    exact this
  set r : btree_leaf_node := { node1 with npairs := u16 ((node1.npairs : Int) + k) } with hrdef
  have hrn : r.npairs = a.npairs + k := hu
  have hslots : slots r = slots a ++
      (List.range' 0 k).map (fun t => node1.pair_offsets (a.npairs + t)) := by
    rw [slots_of_npairs_add hrn, ← List.range_eq_range']
    congr 1
    unfold slots
    apply List.map_congr_left
    intro j hj
    exact g6 j (by intro t _ _; show a.npairs + t ≠ j; have := List.mem_range.mp hj; omega)
  refine ⟨?_, hrn, g3, ?_, ?_⟩
  · show node1.magic = _
    rw [g2]
    exact ha.magic
  · rw [hslots]
    exact heap_inv_perm List.perm_append_comm g4
  · show (slots r).map (pair_kv c node1.bytes) = _
    rw [hslots, List.map_append, List.map_map, ← List.range_eq_range']
    congr 1
    · unfold entries
      apply List.map_congr_left
      intro o ho
      exact same_pair_kv (same_pair_of_agree (fun x hx => g7 x hx) (ha.slot_lo o ho))
    · rw [entries_take_eq_range c b hk]
      apply List.map_congr_left
      intro t ht
      exact same_pair_kv (g5 t (Nat.zero_le _) (by have := List.mem_range.mp ht; omega))

theorem level_move_last_spec {c : leaf_decls} {B : Nat} {a b : btree_leaf_node}
    (ha : valid c B a) (hb : valid c B b) {idx : Nat} (_hidx : idx ≤ b.npairs)
    (hroom : sizeof_btree_leaf_node + (a.npairs + (b.npairs - idx)) * sizeof_pair_offset +
      (B - a.frontmost_offset) + (pairs_bytes c b - cum_bytes c b idx) ≤ B) :
    (level_move_last c a b idx (b.npairs - idx)).node.magic = c.expected_magic ∧
    (level_move_last c a b idx (b.npairs - idx)).node.npairs = a.npairs + (b.npairs - idx) ∧
    (level_move_last c a b idx (b.npairs - idx)).node.frontmost_offset +
      (pairs_bytes c b - cum_bytes c b idx) = a.frontmost_offset ∧
    heap_inv c B (level_move_last c a b idx (b.npairs - idx)).node.bytes
      (level_move_last c a b idx (b.npairs - idx)).node.frontmost_offset
      (slots (level_move_last c a b idx (b.npairs - idx)).node) ∧
    entries c (level_move_last c a b idx (b.npairs - idx)).node =
      (entries c b).drop idx ++ entries c a := by
  have hB := ha.block_u16
  have hf1 := ha.front_le
  have hd1 := ha.dir
  have hsz : sizeof_btree_leaf_node = 8 := rfl
  have hsp : sizeof_pair_offset = 2 := rfl
  rw [hsz, hsp] at hroom hd1
  have hrest := cum_bytes_add_rest c b idx
  have hsum : ((List.range' idx (b.npairs - idx)).map
      (fun t => pair_size c b.bytes (b.pair_offsets t))).sum =
      pairs_bytes c b - cum_bytes c b idx := by
    rw [List.range'_eq_map_range, List.map_map]
    rw [← List.range_eq_range'] at hrest
    have : ((fun t => pair_size c b.bytes (b.pair_offsets t)) ∘ fun x => idx + x) =
        fun t => pair_size c b.bytes (b.pair_offsets (idx + t)) := rfl
    rw [this]
    omega
  set p := b.npairs - idx with hp
  set node1 := move_offsets a p with hnode1
  have hag1 : ∀ x, a.frontmost_offset ≤ x → node1.bytes x = a.bytes x := by
    intro x hx
    apply move_offsets_bytes
    rw [hsz, hsp]
    omega
  have hheap1 : heap_inv c B node1.bytes node1.frontmost_offset (slots a) :=
    heap_inv_of_agree ha.heap hag1
  obtain ⟨g1, g2, g3, g4, g5, g6, g7⟩ := copy_loop_spec (fun i => i - idx) hB
    (sizeof_btree_leaf_node + (a.npairs + p) * sizeof_pair_offset)
    p idx node1 (slots a) hheap1
    (by intro t h1 ht; show 8 + (t - idx + 1) * 2 ≤ 8 + (a.npairs + p) * 2; omega)
    (by intro s t h1 hst _; show s - idx ≠ t - idx; omega)
    (by rw [hsum, hsz, hsp]; show _ ≤ a.frontmost_offset; omega)
  rw [hsum] at g3
  unfold level_move_last
  simp only
  rw [← hnode1]
  set node2 := copy_loop c b (fun i => i - idx) p idx node1 with hnode2
  have hu : u16 ((node2.npairs : Int) + p) = p + a.npairs := by
    rw [g1]
    show u16 ((a.npairs : Int) + p) = _
    have := u16_nat (a.npairs + p) (by have := hb.npairs_lt; omega)
    rw [Nat.cast_add] at this
    rw [this]
    omega
  set r : btree_leaf_node := { node2 with npairs := u16 ((node2.npairs : Int) + p) } with hrdef
  have hrn : r.npairs = p + a.npairs := hu
  have hslots : slots r = (List.range' idx p).map (fun t => node2.pair_offsets (t - idx)) ++
      slots a := by
    rw [slots_of_npairs_add hrn, List.range'_eq_map_range, List.map_map]
    congr 1
    · apply List.map_congr_left
      intro j _
      show node2.pair_offsets j = node2.pair_offsets (idx + j - idx)
      rw [Nat.add_sub_cancel_left]
    · unfold slots
      apply List.map_congr_left
      intro j hj
      have hj' := List.mem_range.mp hj
      rw [g6 (p + j) (by intro t h1 h2; show t - idx ≠ p + j; omega)]
      exact move_offsets_moved a p hj'
  refine ⟨?_, hu.trans (Nat.add_comm _ _), g3, ?_, ?_⟩
  · show node2.magic = _
    rw [g2]
    exact ha.magic
  · rw [hslots]
    exact g4
  · show (slots r).map (pair_kv c node2.bytes) = _
    rw [hslots, List.map_append, List.map_map, List.range'_eq_map_range, List.map_map]
    congr 1
    · rw [entries_drop_eq_range]
      apply List.map_congr_left
      intro t ht
      have ht' := List.mem_range.mp ht
      exact same_pair_kv (g5 (idx + t) (by omega) (by omega))
    · unfold entries
      apply List.map_congr_left
      intro o ho
      exact same_pair_kv (same_pair_trans
        (same_pair_of_agree hag1 (ha.slot_lo o ho))
        (same_pair_of_agree (fun x hx => g7 x hx) (ha.slot_lo o ho)))

theorem entries_bytes_take (c : leaf_decls) (b : btree_leaf_node) (k : Nat) :
    entries_bytes ((entries c b).take k) = cum_bytes c b k :=
  (cum_bytes_eq_entries c b k).symm

theorem entries_bytes_drop (c : leaf_decls) (b : btree_leaf_node) (k : Nat) :
    entries_bytes ((entries c b).drop k) = pairs_bytes c b - cum_bytes c b k := by
  have h := entries_bytes_take_drop (entries c b) k
  rw [entries_bytes_take, ← pairs_bytes_eq_entries] at h
  omega

theorem level_spec {c : leaf_decls} {B : Nat} {a b : btree_leaf_node}
    (ha : valid c B a) (hb : valid c B b) :
    ∃ (r : level_result) (M K : List (btree_key × btree_value)),
      level c B a b = some r ∧
      (if nodecmp a b < 0 then entries c b = M ++ K else entries c b = K ++ M) ∧
      valid c B r.sibling ∧ entries c r.sibling = K ∧
      r.sibling.npairs + M.length = b.npairs ∧
      r.node.npairs = a.npairs + M.length ∧
      (r.result = true ↔ 0 < M.length) ∧
      (M.length = 0 → r = ⟨false, a, b, none, none⟩) ∧
      (pairs_bytes c b ≤ pairs_bytes c a → M.length = 0) ∧
      (0 < M.length → ∃ o ∈ slots b,
        Int.tdiv ((pairs_bytes c b : Int) - pairs_bytes c a) 2 ≤
          (entries_bytes M : Int) + pair_size c b.bytes o ∧
        (entries_bytes M : Int) <
          Int.tdiv ((pairs_bytes c b : Int) - pairs_bytes c a) 2 + pair_size c b.bytes o) ∧
      (0 < M.length →
        r.key_to_replace = some (key_at (if nodecmp a b < 0 then r.node else r.sibling).bytes
          ((if nodecmp a b < 0 then r.node else r.sibling).pair_offsets 0)) ∧
        r.replacement_key = some (key_at (if nodecmp a b < 0 then r.node else r.sibling).bytes
          (last_offset (if nodecmp a b < 0 then r.node else r.sibling)))) ∧
      (sizeof_btree_leaf_node + (a.npairs + M.length) * sizeof_pair_offset +
          (B - a.frontmost_offset) + entries_bytes M ≤ B →
        r.node.magic = c.expected_magic ∧
        r.node.frontmost_offset + entries_bytes M = a.frontmost_offset ∧
        heap_inv c B r.node.bytes r.node.frontmost_offset (slots r.node) ∧
        (if nodecmp a b < 0 then entries c r.node = entries c a ++ M
          else entries c r.node = M ++ entries c a)) := by
  have hlen := length_entries c b
  by_cases hcmp : nodecmp a b < 0
  · obtain ⟨w, h1, h2, h3, h4⟩ := level_head_eq ha hb hcmp
    simp only [if_pos hcmp]
    by_cases hw : w ≤ 1
    · rw [if_pos hw] at h4
      refine ⟨_, [], entries c b, h4, rfl, hb, rfl, rfl, rfl, by simp, fun _ => rfl, fun _ => rfl,
        fun h => absurd h (by simp), fun h => absurd h (by simp), ?_⟩
      intro _
      refine ⟨ha.magic, rfl, ha.heap, ?_⟩
      simp
    · rw [if_neg hw] at h4
      have hk : w - 1 ≤ b.npairs := by omega
      obtain ⟨d1, d2, d3⟩ := @level_delete_first_spec c B (w - 1) b hb hk
      have hMlen : ((entries c b).take (w - 1)).length = w - 1 := by
        rw [List.length_take, hlen]; omega
      have hnp : (level_move_first c a b (w - 1)).node.npairs = a.npairs + (w - 1) := by
        show u16 (((copy_loop c b (fun i => a.npairs + i) (w - 1) 0 a).npairs : Int) +
          ((w - 1 : Nat) : Int)) = _
        rw [copy_loop_npairs]
        have := u16_nat (a.npairs + (w - 1))
          (by have := hb.npairs_lt; have := ha.npairs_lt; omega)
        rw [Nat.cast_add] at this
        exact this
      have hsucc := @cum_bytes_succ c b (w - 1) (by omega)
      rw [show w - 1 + 1 = w by omega] at hsucc
      have h3' := h3 (by omega)
      refine ⟨_, (entries c b).take (w - 1), (entries c b).drop (w - 1), h4,
        (List.take_append_drop _ _).symm, d1, d3, ?_, ?_, ?_, ?_, ?_, ?_, ?_, ?_⟩
      · rw [hMlen]
        show (level_delete_first c (w - 1) b).npairs + _ = _
        rw [d2]; omega
      · rw [hMlen]; exact hnp
      · rw [hMlen]
        exact ⟨fun _ => by omega, fun _ => rfl⟩
      · rw [hMlen]; intro h; omega
      · intro hle
        rw [tdiv_two] at h3'
        have := Nat.zero_le (cum_bytes c b (w - 1))
        split_ifs at h3' <;> omega
      · intro _
        refine ⟨b.pair_offsets (w - 1), slot_mem b (by omega), ?_, ?_⟩
        · rw [entries_bytes_take]
          have : (cum_bytes c b w : Int) = (cum_bytes c b (w - 1) : Int) +
              pair_size c b.bytes (b.pair_offsets (w - 1)) := by rw [hsucc]; push_cast; rfl
          omega
        · rw [entries_bytes_take]
          have := pair_size_pos c b.bytes (b.pair_offsets (w - 1))
          omega
      · intro _
        exact ⟨rfl, rfl⟩
      · rw [hMlen, entries_bytes_take]
        intro hroom
        obtain ⟨f1, f2, f3, f4, f5⟩ := level_move_first_spec ha hb hk hroom
        exact ⟨f1, f3, f4, f5⟩
  · obtain ⟨idx, h1, h2, h3, h4⟩ := level_tail_eq ha hb hcmp
    simp only [if_neg hcmp]
    by_cases hi : idx = b.npairs
    · rw [if_pos hi] at h4
      refine ⟨_, [], entries c b, h4, by simp, hb, rfl, rfl, rfl, by simp, fun _ => rfl,
        fun _ => rfl, fun h => absurd h (by simp), fun h => absurd h (by simp), ?_⟩
      intro _
      refine ⟨ha.magic, rfl, ha.heap, ?_⟩
      simp
    · rw [if_neg hi] at h4
      have hlt : idx < b.npairs := by omega
      obtain ⟨d1, d2, d3⟩ := @level_delete_last_spec c B idx b.npairs b hb h1 (by omega)
      have hMlen : ((entries c b).drop idx).length = b.npairs - idx := by
        rw [List.length_drop, hlen]
      have hnp : (level_move_last c a b idx (b.npairs - idx)).node.npairs =
          a.npairs + (b.npairs - idx) := by
        show u16 (((copy_loop c b (fun i => i - idx) (b.npairs - idx) idx
          (move_offsets a (b.npairs - idx))).npairs : Int) +
          ((b.npairs - idx : Nat) : Int)) = _
        rw [copy_loop_npairs]
        show u16 ((a.npairs : Int) + ((b.npairs - idx : Nat) : Int)) = _
        have := u16_nat (a.npairs + (b.npairs - idx))
          (by have := hb.npairs_lt; have := ha.npairs_lt; omega)
        rw [Nat.cast_add] at this
        exact this
      have hsucc := @cum_bytes_succ c b idx hlt
      have h3' := h3 hlt
      have hmono := cum_bytes_mono c b (Nat.le_succ idx) hlt
      have hmono2 := cum_bytes_mono c b h1 (le_refl _)
      rw [cum_bytes_all] at hmono2
      have hmono3 := cum_bytes_mono c b (show idx + 1 ≤ b.npairs from hlt) (le_refl _)
      rw [cum_bytes_all] at hmono3
      refine ⟨_, (entries c b).drop idx, (entries c b).take idx, h4,
        (List.take_append_drop _ _).symm, d1, d3, ?_, ?_, ?_, ?_, ?_, ?_, ?_, ?_⟩
      · rw [hMlen]
        show (level_delete_last c idx b.npairs b).npairs + _ = _
        rw [d2]; omega
      · rw [hMlen]; exact hnp
      · rw [hMlen]
        exact ⟨fun _ => by omega, fun _ => rfl⟩
      · rw [hMlen]; intro h; omega
      · intro hle
        rw [tdiv_two] at h3'
        split_ifs at h3' <;> omega
      · intro _
        refine ⟨b.pair_offsets idx, slot_mem b hlt, ?_, ?_⟩
        · rw [entries_bytes_drop]
          have := pair_size_pos c b.bytes (b.pair_offsets idx)
          omega
        · rw [entries_bytes_drop]
          omega
      · intro _
        exact ⟨rfl, rfl⟩
      · rw [hMlen, entries_bytes_drop]
        intro hroom
        obtain ⟨f1, f2, f3, f4, f5⟩ := level_move_last_spec ha hb h1 hroom
        exact ⟨f1, f3, f4, f5⟩

theorem valid.sorted_entries {c : leaf_decls} {B : Nat} {node : btree_leaf_node}
    (h : valid c B node) :
    ((entries c node).map Prod.fst).Pairwise (fun k1 k2 => sized_strcmp k1 k2 < 0) :=
  (sorted_iff_keys c node).mp h.sorted

theorem sorted_append_iff (L1 L2 : List (btree_key × btree_value)) :
    ((L1 ++ L2).map Prod.fst).Pairwise (fun k1 k2 => sized_strcmp k1 k2 < 0) ↔
      (L1.map Prod.fst).Pairwise (fun k1 k2 => sized_strcmp k1 k2 < 0) ∧
      (L2.map Prod.fst).Pairwise (fun k1 k2 => sized_strcmp k1 k2 < 0) ∧
      keys_below L1 L2 := by
  rw [List.map_append, List.pairwise_append]
  unfold keys_below
  constructor
  · rintro ⟨h1, h2, h3⟩
    exact ⟨h1, h2, fun x hx y hy =>
      h3 x.1 (List.mem_map_of_mem _ hx) y.1 (List.mem_map_of_mem _ hy)⟩
  · rintro ⟨h1, h2, h3⟩
    refine ⟨h1, h2, ?_⟩
    intro k1 hk1 k2 hk2
    obtain ⟨x, hx, rfl⟩ := List.mem_map.mp hk1
    obtain ⟨y, hy, rfl⟩ := List.mem_map.mp hk2
    exact h3 x hx y hy

theorem first_entry_mem (c : leaf_decls) {node : btree_leaf_node} (h : 0 < node.npairs) :
    (slot_key node 0, slot_value c node 0) ∈ entries c node :=
  mem_entries.mpr ⟨0, h, rfl⟩

theorem nodecmp_orient {c : leaf_decls} {a b : btree_leaf_node}
    (hna : 0 < a.npairs) (hnb : 0 < b.npairs)
    (hsep : keys_below (entries c a) (entries c b) ∨ keys_below (entries c b) (entries c a)) :
    (nodecmp a b < 0 → keys_below (entries c a) (entries c b)) ∧
    (¬ nodecmp a b < 0 → keys_below (entries c b) (entries c a)) := by
  have h1 := first_entry_mem c hna
  have h2 := first_entry_mem c hnb
  have e : nodecmp a b = sized_strcmp (slot_key a 0) (slot_key b 0) := rfl
  constructor
  · intro h
    rcases hsep with hs | hs
    · exact hs
    · have := hs _ h2 _ h1
      rw [e] at h
      exact absurd (sized_strcmp_trans h this) (sized_strcmp_irrefl _)
  · intro h
    rcases hsep with hs | hs
    · have := hs _ h1 _ h2
      rw [e] at h
      exact absurd this h
    · exact hs

theorem keys_below_ne {L1 L2 : List (btree_key × btree_value)} (h : keys_below L1 L2)
    {x y : btree_key × btree_value} (hx : x ∈ L1) (hy : y ∈ L2) : x.1 ≠ y.1 := by
  intro he
  have := h x hx y hy
  rw [he] at this
  exact sized_strcmp_irrefl _ this

theorem level_room_spec {c : leaf_decls} {B : Nat} {a b : btree_leaf_node}
    (ha : valid c B a) (hb : valid c B b) (hna : 0 < a.npairs) (hnb : 0 < b.npairs)
    (hsep : keys_below (entries c a) (entries c b) ∨ keys_below (entries c b) (entries c a)) :
    ∃ r, level c B a b = some r ∧ valid c B r.sibling ∧
      (level_room B a b r →
        valid c B r.node ∧
        (entries c r.node ++ entries c r.sibling).Perm (entries c a ++ entries c b) ∧
        (nodecmp a b < 0 → keys_below (entries c r.node) (entries c r.sibling)) ∧
        (¬ nodecmp a b < 0 → keys_below (entries c r.sibling) (entries c r.node))) := by
  obtain ⟨r, M, K, h1, h2, h3, h4, h5, h6, h7, h8, h9, h10, h11, h12⟩ := level_spec ha hb
  obtain ⟨o1, o2⟩ := nodecmp_orient hna hnb hsep
  refine ⟨r, h1, h3, ?_⟩
  intro hroom
  unfold level_room at hroom
  have hB := ha.block_u16
  have hbytes : entries_bytes (entries c b) = entries_bytes M + entries_bytes K := by
    split_ifs at h2 with hc
    · rw [h2, entries_bytes_append]
    · rw [h2, entries_bytes_append]; omega
  have hu1 := hb.used
  have hu2 := h3.used
  rw [h4] at hu2
  have hmoved : r.sibling.frontmost_offset - b.frontmost_offset = entries_bytes M := by omega
  rw [hmoved, h6] at hroom
  obtain ⟨g1, g2, g3, g4⟩ := h12 hroom
  have hsb := hb.sorted_entries
  have hsz : sizeof_btree_leaf_node = 8 := rfl
  have hsp : sizeof_pair_offset = 2 := rfl
  have hf1 := ha.front_le
  have hd1 := ha.dir
  rw [hsz, hsp] at hroom hd1
  have hvalid : ((entries c r.node).map Prod.fst).Pairwise
      (fun k1 k2 => sized_strcmp k1 k2 < 0) → valid c B r.node := by
    intro hs
    apply valid_of_heap hB g1 (by omega) (by rw [hsz, hsp, h6]; omega) g3
    exact (sorted_iff_keys c r.node).mpr hs
  by_cases hc : nodecmp a b < 0
  · rw [if_pos hc] at h2 g4
    rw [h2] at hsb
    obtain ⟨s1, s2, s3⟩ := (sorted_append_iff M K).mp hsb
    have hab := o1 hc
    rw [h2] at hab
    have hAM : keys_below (entries c a) M :=
      fun x hx y hy => hab x hx y (List.mem_append_left _ hy)
    have hAK : keys_below (entries c a) K :=
      fun x hx y hy => hab x hx y (List.mem_append_right _ hy)
    refine ⟨?_, ?_, ?_, fun h => absurd hc h⟩
    · apply hvalid
      rw [g4]
      exact (sorted_append_iff _ _).mpr ⟨ha.sorted_entries, s1, hAM⟩
    · rw [g4, h4, h2, List.append_assoc]
    · intro _
      rw [g4, h4]
      intro x hx y hy
      rcases List.mem_append.mp hx with h | h
      · exact hAK x h y hy
      · exact s3 x h y hy
  · rw [if_neg hc] at h2 g4
    rw [h2] at hsb
    obtain ⟨s1, s2, s3⟩ := (sorted_append_iff K M).mp hsb
    have hba := o2 hc
    rw [h2] at hba
    have hMA : keys_below M (entries c a) :=
      fun x hx y hy => hba x (List.mem_append_right _ hx) y hy
    have hKA : keys_below K (entries c a) :=
      fun x hx y hy => hba x (List.mem_append_left _ hx) y hy
    refine ⟨?_, ?_, fun h => absurd h hc, ?_⟩
    · apply hvalid
      rw [g4]
      exact (sorted_append_iff _ _).mpr ⟨s2, ha.sorted_entries, hMA⟩
    · rw [g4, h4, h2]
      have p1 : (M ++ entries c a ++ K).Perm (K ++ (M ++ entries c a)) :=
        List.perm_append_comm
      have p2 : (K ++ (M ++ entries c a)).Perm (K ++ M ++ entries c a) := by
        rw [List.append_assoc]
      exact (p1.trans p2).trans List.perm_append_comm
    · intro _
      rw [g4, h4]
      intro x hx y hy
      rcases List.mem_append.mp hy with h | h
      · exact s3 x hx y h
      · exact hKA x hx y h

theorem page_five_valid : valid example_decls 64 page_five :=
  insert_valid [100] (insert_valid [99] (insert_valid [98] (insert_valid [97]
    (insert_valid [101] page0_valid (by decide)) (by decide)) (by decide)) (by decide))
    (by decide)

theorem page_wide_valid : valid example_decls 64 page_wide :=
  insert_valid [110] (insert_valid [109] page0_valid (by decide)) (by decide)

theorem page_z_valid : valid example_decls 64 page_z :=
  insert_valid [122] page0_valid (by decide)

theorem page_mno_valid : valid example_decls 64 page_mno :=
  insert_valid [111] (insert_valid [110] (insert_valid [109] page0_valid (by decide))
    (by decide)) (by decide)

theorem last_key_ge {c : leaf_decls} {B : Nat} {node : btree_leaf_node} (hv : valid c B node)
    {x : btree_key × btree_value} (hx : x ∈ entries c node) :
    sized_strcmp x.1 (slot_key node (node.npairs - 1)) ≤ 0 := by
  obtain ⟨i, hi, rfl⟩ := mem_entries.mp hx
  rcases Nat.lt_or_ge i (node.npairs - 1) with h | h
  · have := pairwise_slots.mp hv.sorted i (node.npairs - 1) h (by omega)
    exact le_of_lt this
  · have : i = node.npairs - 1 := by omega
    rw [this]
    show sized_strcmp (slot_key node (node.npairs - 1)) (slot_key node (node.npairs - 1)) ≤ 0
    rw [sized_strcmp_self]

theorem last_offset_of_pos {node : btree_leaf_node} (h : 0 < node.npairs) :
    last_offset node = node.pair_offsets (node.npairs - 1) := by
  unfold last_offset
  rw [if_neg (by omega)]

theorem level_moved_bytes {c : leaf_decls} {B : Nat} {b : btree_leaf_node}
    {r : level_result} {M K : List (btree_key × btree_value)} (hb : valid c B b)
    (h2 : entries c b = M ++ K ∨ entries c b = K ++ M)
    (h3 : valid c B r.sibling) (h4 : entries c r.sibling = K) :
    r.sibling.frontmost_offset = b.frontmost_offset + entries_bytes M := by
  have hbytes : entries_bytes (entries c b) = entries_bytes M + entries_bytes K := by
    rcases h2 with h | h
    · rw [h, entries_bytes_append]
    · rw [h, entries_bytes_append]; omega
  have hu1 := hb.used
  have hu2 := h3.used
  rw [h4] at hu2
  omega

/-- C14 as amended: for valid non-empty sibling pages whose key ranges do not
interleave, `level` returns, and when the page `a` has room for the pairs moved to it
(`level_room`), the pairs of the two pages after the call are those of the two pages
before it, and no key is on both pages, whether the call returns `true` or `false`. -/
theorem level_preserves_union (c : leaf_decls) (B : Nat) (a b : btree_leaf_node)
    (ha : valid c B a) (hb : valid c B b) (hna : 0 < a.npairs) (hnb : 0 < b.npairs)
    (hsep : keys_below (entries c a) (entries c b) ∨ keys_below (entries c b) (entries c a)) :
    ∃ r, level c B a b = some r ∧
      (level_room B a b r →
        (entries c r.node ++ entries c r.sibling).Perm (entries c a ++ entries c b) ∧
        (∀ kv, kv ∈ entries c r.node ∨ kv ∈ entries c r.sibling ↔
          kv ∈ entries c a ∨ kv ∈ entries c b) ∧
        ∀ x ∈ entries c r.node, ∀ y ∈ entries c r.sibling, x.1 ≠ y.1) := by
  obtain ⟨r, h1, h2, h3⟩ := level_room_spec ha hb hna hnb hsep
  refine ⟨r, h1, ?_⟩
  intro hroom
  obtain ⟨g1, g2, g3, g4⟩ := h3 hroom
  refine ⟨g2, ?_, ?_⟩
  · intro kv
    rw [← List.mem_append, ← List.mem_append]
    exact g2.mem_iff
  · intro x hx y hy
    by_cases hc : nodecmp a b < 0
    · exact keys_below_ne (g3 hc) hx hy
    · exact (keys_below_ne (g4 hc) hy hx).symm

theorem level_preserves_union_witness :
    valid example_decls 64 page1 ∧ valid example_decls 64 page_mn ∧
    ∃ r, level example_decls 64 page1 page_mn = some r ∧ r.result = true ∧
      level_room 64 page1 page_mn r ∧
      (entries example_decls r.node ++ entries example_decls r.sibling).Perm
        (entries example_decls page1 ++ entries example_decls page_mn) ∧
      (∀ kv, kv ∈ entries example_decls r.node ∨ kv ∈ entries example_decls r.sibling ↔
        kv ∈ entries example_decls page1 ∨ kv ∈ entries example_decls page_mn) ∧
      ∀ x ∈ entries example_decls r.node, ∀ y ∈ entries example_decls r.sibling,
        x.1 ≠ y.1 := by
  obtain ⟨r, h1, h2⟩ := level_preserves_union example_decls 64 page1 page_mn page1_valid
    page_mn_valid (by decide) (by decide) (Or.inl (by decide))
  have h3 : (level example_decls 64 page1 page_mn).map
      (fun r => (r.result, decide (level_room 64 page1 page_mn r))) = some (true, true) := by
    decide
  rw [h1] at h3
  have h4 := Option.some.inj h3
  have hroom : level_room 64 page1 page_mn r := of_decide_eq_true (congrArg Prod.snd h4)
  exact ⟨page1_valid, page_mn_valid, r, h1, congrArg Prod.fst h4, hroom, h2 hroom⟩

/-- C14 fails without room on the receiving page: `page_five` and `page_wide` are valid,
not empty, and every key of the first is below every key of the second; `level` returns
`true` and moves the pair ("m", "") of `page_wide`, but the sixth slot of `page_five`
is stored on the first byte of the copied pair (offset 19), and the pair ("m", "") is
on neither page afterwards. -/
theorem level_loses_pair :
    valid example_decls 64 page_five ∧ valid example_decls 64 page_wide ∧
    0 < page_five.npairs ∧ 0 < page_wide.npairs ∧
    keys_below (entries example_decls page_five) (entries example_decls page_wide) ∧
    ([109], [0]) ∈ entries example_decls page_wide ∧
    ∃ r, level example_decls 64 page_five page_wide = some r ∧ r.result = true ∧
      ([109], [0]) ∉ entries example_decls r.node ∧
      ([109], [0]) ∉ entries example_decls r.sibling := by
  have h3 : (level example_decls 64 page_five page_wide).map
      (fun r => (r.result, decide (([109], [0]) ∈ entries example_decls r.node),
        decide (([109], [0]) ∈ entries example_decls r.sibling))) =
      some (true, false, false) := by decide
  obtain ⟨r, h1, h2⟩ := Option.map_eq_some'.mp h3
  refine ⟨page_five_valid, page_wide_valid, by decide, by decide, by decide, by decide,
    r, h1, congrArg Prod.fst h2, ?_, ?_⟩
  · exact of_decide_eq_false (congrArg (fun p => p.2.1) h2)
  · exact of_decide_eq_false (congrArg (fun p => p.2.2) h2)

/-- C15 as amended: for valid non-empty sibling pages of the same block size whose key
ranges do not interleave, `level` returns, and when the page `a` has room for the pairs
moved to it (`level_room`), both pages satisfy invariants 1 to 6 afterwards. -/
theorem level_keeps_invariants (c : leaf_decls) (B : Nat) (a b : btree_leaf_node)
    (ha : valid c B a) (hb : valid c B b) (hna : 0 < a.npairs) (hnb : 0 < b.npairs)
    (hsep : keys_below (entries c a) (entries c b) ∨ keys_below (entries c b) (entries c a)) :
    ∃ r, level c B a b = some r ∧
      (level_room B a b r → valid c B r.node ∧ valid c B r.sibling) := by
  obtain ⟨r, h1, h2, h3⟩ := level_room_spec ha hb hna hnb hsep
  exact ⟨r, h1, fun hroom => ⟨(h3 hroom).1, h2⟩⟩

theorem level_keeps_invariants_witness :
    valid example_decls 64 page1 ∧ valid example_decls 64 page_mn ∧
    ∃ r, level example_decls 64 page1 page_mn = some r ∧ r.result = true ∧
      level_room 64 page1 page_mn r ∧
      valid example_decls 64 r.node ∧ valid example_decls 64 r.sibling := by
  obtain ⟨r, h1, h2⟩ := level_keeps_invariants example_decls 64 page1 page_mn page1_valid
    page_mn_valid (by decide) (by decide) (Or.inl (by decide))
  have h3 : (level example_decls 64 page1 page_mn).map
      (fun r => (r.result, decide (level_room 64 page1 page_mn r))) = some (true, true) := by
    decide
  rw [h1] at h3
  have h4 := Option.some.inj h3
  have hroom : level_room 64 page1 page_mn r := of_decide_eq_true (congrArg Prod.snd h4)
  exact ⟨page1_valid, page_mn_valid, r, h1, congrArg Prod.fst h4, hroom, h2 hroom⟩

/-- C15 fails without room on the receiving page: `page_five` (5 pairs, four free bytes)
and `page_wide` are valid, not empty, with every key of the first below every key of the
second; `level` returns `true` and leaves `page_five` with 6 slots, whose directory ends
at byte 20, and `frontmost_offset = 19`, which breaks invariant 3. -/
theorem level_overruns_directory :
    valid example_decls 64 page_five ∧ valid example_decls 64 page_wide ∧
    0 < page_five.npairs ∧ 0 < page_wide.npairs ∧
    keys_below (entries example_decls page_five) (entries example_decls page_wide) ∧
    ∃ r, level example_decls 64 page_five page_wide = some r ∧ r.result = true ∧
      r.node.npairs = 6 ∧ r.node.frontmost_offset = 19 ∧
      ¬ (sizeof_btree_leaf_node + r.node.npairs * sizeof_pair_offset ≤
        r.node.frontmost_offset) ∧
      ¬ valid example_decls 64 r.node := by
  have h3 : (level example_decls 64 page_five page_wide).map
      (fun r => (r.result, r.node.npairs, r.node.frontmost_offset)) = some (true, 6, 19) := by
    decide
  obtain ⟨r, h1, h2⟩ := Option.map_eq_some'.mp h3
  have e1 : r.node.npairs = 6 := congrArg (fun p => p.2.1) h2
  have e2 : r.node.frontmost_offset = 19 := congrArg (fun p => p.2.2) h2
  have hdir : ¬ (sizeof_btree_leaf_node + r.node.npairs * sizeof_pair_offset ≤
      r.node.frontmost_offset) := by
    rw [e1, e2]; decide
  exact ⟨page_five_valid, page_wide_valid, by decide, by decide, by decide,
    r, h1, congrArg Prod.fst h2, e1, e2, hdir, fun hv => hdir hv.dir⟩

theorem spec_transfer_count_eq (sizes : List Nat) :
    ∀ (adj : Int) (w : Nat), w ≤ sizes.length → adj ≤ ((sizes.take w).sum : Nat) →
      (0 < w → (((sizes.take (w - 1)).sum : Nat) : Int) < adj) →
      spec_transfer_count sizes adj = w := by
  induction sizes with
  | nil =>
    intro adj w hw _ _
    unfold spec_transfer_count
    simp only [List.length_nil] at hw
    omega
  | cons s rest ih =>
    intro adj w hw h1 h2
    unfold spec_transfer_count
    by_cases h : adj ≤ 0
    · rw [if_pos h]
      rcases Nat.eq_zero_or_pos w with h0 | h0
      · exact h0.symm
      · have := h2 h0
        omega
    · rw [if_neg h]
      rcases Nat.eq_zero_or_pos w with h0 | h0
      · rw [h0] at h1
        simp only [List.take_zero, List.sum_nil] at h1
        omega
      · obtain ⟨w', rfl⟩ : ∃ w', w = w' + 1 := ⟨w - 1, by omega⟩
        rw [List.take_succ_cons, List.sum_cons] at h1
        simp only [List.length_cons] at hw
        have h3 := h2 (by omega)
        rw [Nat.add_sub_cancel] at h3
        have := ih (adj - s) w' (by omega) (by omega)
          (by
            intro hw'
            obtain ⟨w'', rfl⟩ : ∃ w'', w' = w'' + 1 := ⟨w' - 1, by omega⟩
            rw [List.take_succ_cons, List.sum_cons] at h3
            rw [Nat.add_sub_cancel]
            omega)
        rw [this]
        omega

theorem sum_take_reverse (L : List Nat) (w : Nat) :
    (L.reverse.take w).sum + (L.take (L.length - w)).sum = L.sum := by
  rw [List.take_reverse, List.sum_reverse, Nat.add_comm]
  have := List.take_append_drop (L.length - w) L
  conv_rhs => rw [← this]
  rw [List.sum_append]

theorem sizes_take_sum (c : leaf_decls) (b : btree_leaf_node) (w : Nat) :
    (((slots b).map (pair_size c b.bytes)).take w).sum = cum_bytes c b w := by
  unfold cum_bytes
  rw [List.map_take]

theorem sizes_sum (c : leaf_decls) (b : btree_leaf_node) :
    ((slots b).map (pair_size c b.bytes)).sum = pairs_bytes c b := rfl

theorem spec_level_count_first {c : leaf_decls} {B : Nat} {a b : btree_leaf_node}
    (ha : valid c B a) (hb : valid c B b) (hcmp : nodecmp a b < 0) {w : Nat}
    (h1 : w ≤ b.npairs)
    (h2 : Int.tdiv ((pairs_bytes c b : Int) - pairs_bytes c a) 2 ≤ cum_bytes c b w)
    (h3 : 0 < w → (cum_bytes c b (w - 1) : Int) <
      Int.tdiv ((pairs_bytes c b : Int) - pairs_bytes c a) 2) :
    spec_level_count c B a b = w := by
  unfold spec_level_count
  simp only
  rw [if_pos hcmp, ← ha.dense, ← hb.dense]
  apply spec_transfer_count_eq
  · rw [List.length_map, length_slots]; exact h1
  · rw [sizes_take_sum]; exact h2
  · intro hw
    rw [sizes_take_sum]
    exact h3 hw

theorem spec_level_count_last {c : leaf_decls} {B : Nat} {a b : btree_leaf_node}
    (ha : valid c B a) (hb : valid c B b) (hcmp : ¬ nodecmp a b < 0) {idx : Nat}
    (h1 : idx ≤ b.npairs)
    (h2 : Int.tdiv ((pairs_bytes c b : Int) - pairs_bytes c a) 2 ≤
      (pairs_bytes c b : Int) - cum_bytes c b idx)
    (h3 : idx < b.npairs → (pairs_bytes c b : Int) - cum_bytes c b (idx + 1) <
      Int.tdiv ((pairs_bytes c b : Int) - pairs_bytes c a) 2) :
    spec_level_count c B a b = b.npairs - idx := by
  unfold spec_level_count
  simp only
  rw [if_neg hcmp, ← ha.dense, ← hb.dense]
  have hlen : ((slots b).map (pair_size c b.bytes)).length = b.npairs := by
    rw [List.length_map, length_slots]
  have hsum : ∀ w, w ≤ b.npairs →
      (((slots b).map (pair_size c b.bytes)).reverse.take w).sum +
        cum_bytes c b (b.npairs - w) = pairs_bytes c b := by
    intro w _
    have := sum_take_reverse ((slots b).map (pair_size c b.bytes)) w
    rw [hlen, sizes_take_sum, sizes_sum] at this
    exact this
  apply spec_transfer_count_eq
  · rw [List.length_reverse, hlen]; omega
  · have := hsum (b.npairs - idx) (by omega)
    rw [show b.npairs - (b.npairs - idx) = idx by omega] at this
    omega
  · intro hw
    have := hsum (b.npairs - idx - 1) (by omega)
    rw [show b.npairs - (b.npairs - idx - 1) = idx + 1 by omega] at this
    have := h3 (by omega)
    omega

/-- C16 as amended: on valid pages `level` returns, and the number of pairs that leave
the sibling is the number of pairs walked by the rule of the spec
(`spec_level_count`) when the sibling holds the smaller keys, and one less than that
number (none when no pair or one pair is walked) when the page holds the smaller keys
(`nodecmp(a, b) < 0`); when the page has room (`level_room`) the same number of pairs
has come to the page. -/
theorem level_transfer_count (c : leaf_decls) (B : Nat) (a b : btree_leaf_node)
    (ha : valid c B a) (hb : valid c B b) :
    ∃ r, level c B a b = some r ∧ r.sibling.npairs ≤ b.npairs ∧
      (nodecmp a b < 0 → b.npairs - r.sibling.npairs = spec_level_count c B a b - 1) ∧
      (¬ nodecmp a b < 0 → b.npairs - r.sibling.npairs = spec_level_count c B a b) ∧
      (level_room B a b r → r.node.npairs = a.npairs + (b.npairs - r.sibling.npairs)) := by
  obtain ⟨r, M, K, g1, g2, g3, g4, g5, g6, _⟩ := level_spec ha hb
  refine ⟨r, g1, by omega, ?_, ?_, fun _ => by omega⟩
  · intro hcmp
    obtain ⟨w, h1, h2, h3, h4⟩ := level_head_eq ha hb hcmp
    rw [spec_level_count_first ha hb hcmp h1 h2 h3]
    have hr := Option.some.inj (g1.symm.trans h4)
    rw [hr]
    by_cases hw : w ≤ 1
    · rw [if_pos hw]
      show b.npairs - b.npairs = w - 1
      omega
    · rw [if_neg hw]
      obtain ⟨d1, d2, d3⟩ := @level_delete_first_spec c B (w - 1) b hb (by omega)
      show b.npairs - (level_delete_first c (w - 1) b).npairs = w - 1
      rw [d2]
      omega
  · intro hcmp
    obtain ⟨idx, h1, h2, h3, h4⟩ := level_tail_eq ha hb hcmp
    rw [spec_level_count_last ha hb hcmp h1 h2 h3]
    have hr := Option.some.inj (g1.symm.trans h4)
    rw [hr]
    by_cases hi : idx = b.npairs
    · rw [if_pos hi]
      show b.npairs - b.npairs = b.npairs - idx
      omega
    · rw [if_neg hi]
      obtain ⟨d1, d2, d3⟩ := @level_delete_last_spec c B idx b.npairs b hb h1 (by omega)
      show b.npairs - (level_delete_last c idx b.npairs b).npairs = b.npairs - idx
      rw [d2]

theorem level_transfer_count_witness :
    valid example_decls 64 page1 ∧ valid example_decls 64 page_six ∧
    nodecmp page1 page_six < 0 ∧ spec_level_count example_decls 64 page1 page_six = 3 ∧
    ∃ r, level example_decls 64 page1 page_six = some r ∧ r.result = true ∧
      level_room 64 page1 page_six r ∧
      page_six.npairs - r.sibling.npairs = 2 ∧ r.node.npairs = page1.npairs + 2 := by
  obtain ⟨r, h1, h2, h3, h4, h5⟩ := level_transfer_count example_decls 64 page1 page_six
    page1_valid page_six_valid
  have h6 : (level example_decls 64 page1 page_six).map
      (fun r => (r.result, decide (level_room 64 page1 page_six r))) = some (true, true) := by
    decide
  rw [h1] at h6
  have h7 := Option.some.inj h6
  have hroom : level_room 64 page1 page_six r := of_decide_eq_true (congrArg Prod.snd h7)
  have hc : nodecmp page1 page_six < 0 := by decide
  have hs : spec_level_count example_decls 64 page1 page_six = 3 := by decide
  have h8 := h3 hc
  rw [hs] at h8
  have h9 := h5 hroom
  rw [h8] at h9
  exact ⟨page1_valid, page_six_valid, hc, hs, r, h1, congrArg Prod.fst h7, hroom, h8, h9⟩

/-- C16 fails as stated when the page holds the smaller keys: `page1` holds one pair of
4 bytes and is underfull, `page_six` holds six pairs of 7 bytes with larger keys; the
pages are valid, not empty and not mergable, and `page1` has room.  The adjustment is
`(42 - 4) / 2 = 19` and the walk from the first pair of `page_six` takes three pairs
(19 - 7 = 12, 12 - 7 = 5, 5 - 7 ≤ 0), but `level` moves two pairs. -/
theorem level_moves_one_less :
    valid example_decls 64 page1 ∧ valid example_decls 64 page_six ∧
    0 < page1.npairs ∧ 0 < page_six.npairs ∧
    is_underfull example_decls 64 page1 = true ∧
    is_mergable example_decls 64 page1 page_six = false ∧
    nodecmp page1 page_six < 0 ∧
    spec_level_count example_decls 64 page1 page_six = 3 ∧
    ∃ r, level example_decls 64 page1 page_six = some r ∧ r.result = true ∧
      level_room 64 page1 page_six r ∧
      r.node.npairs - page1.npairs = 2 ∧ page_six.npairs - r.sibling.npairs = 2 ∧
      page_six.npairs - r.sibling.npairs ≠ spec_level_count example_decls 64 page1 page_six := by
  have h3 : (level example_decls 64 page1 page_six).map
      (fun r => (r.result, decide (level_room 64 page1 page_six r),
        r.node.npairs - page1.npairs, page_six.npairs - r.sibling.npairs)) =
      some (true, true, 2, 2) := by decide
  obtain ⟨r, h1, h2⟩ := Option.map_eq_some'.mp h3
  have e : page_six.npairs - r.sibling.npairs = 2 := congrArg (fun p => p.2.2.2) h2
  have hs : spec_level_count example_decls 64 page1 page_six = 3 := by decide
  refine ⟨page1_valid, page_six_valid, by decide, by decide, by decide, by decide, by decide,
    hs, r, h1, congrArg Prod.fst h2, of_decide_eq_true (congrArg (fun p => p.2.1) h2),
    congrArg (fun p => p.2.2.1) h2, e, ?_⟩
  rw [e, hs]
  decide

/-- C17: for valid sibling pages `level` returns; it returns `false` exactly when no
pair has left the sibling (the sibling is written by the delete loops only); when it
returns `false` both pages are unchanged; it returns `false` whenever the used bytes
of the sibling are not more than those of the page; and when the page has room for
what is moved to it (`level_room`), it returns `false` exactly when the pair count of
the page has not changed. -/
theorem level_false_iff_no_transfer (c : leaf_decls) (B : Nat) (a b : btree_leaf_node)
    (ha : valid c B a) (hb : valid c B b) :
    ∃ r, level c B a b = some r ∧
      (r.result = false ↔ r.sibling.npairs = b.npairs) ∧
      (r.result = false → r.node = a ∧ r.sibling = b) ∧
      (B - b.frontmost_offset ≤ B - a.frontmost_offset → r.result = false) ∧
      (level_room B a b r → (r.result = false ↔ r.node.npairs = a.npairs)) := by
  obtain ⟨r, M, K, h1, h2, h3, h4, h5, h6, h7, h8, h9, h10, h11, h12⟩ := level_spec ha hb
  have hres : r.result = false ↔ M.length = 0 := by
    constructor
    · intro h
      rcases Nat.eq_zero_or_pos M.length with h0 | h0
      · exact h0
      · have := h7.mpr h0
        rw [h] at this
        exact absurd this (by decide)
    · intro h
      rw [h8 h]
  refine ⟨r, h1, ?_, ?_, ?_, ?_⟩
  · rw [hres]; omega
  · intro h
    rw [h8 (hres.mp h)]
    exact ⟨rfl, rfl⟩
  · intro h
    rw [hres]
    apply h9
    rw [ha.dense, hb.dense]
    exact h
  · intro _
    rw [hres]; omega

theorem level_false_iff_no_transfer_witness :
    valid example_decls 64 page_mn ∧ valid example_decls 64 page1 ∧
    ∃ r, level example_decls 64 page_mn page1 = some r ∧ r.result = false ∧
      level_room 64 page_mn page1 r ∧
      (r.result = false ↔ r.sibling.npairs = page1.npairs) ∧
      (r.result = false → r.node = page_mn ∧ r.sibling = page1) ∧
      (64 - page1.frontmost_offset ≤ 64 - page_mn.frontmost_offset → r.result = false) ∧
      (r.result = false ↔ r.node.npairs = page_mn.npairs) := by
  obtain ⟨r, h1, h2, h3, h4, h5⟩ :=
    level_false_iff_no_transfer example_decls 64 page_mn page1 page_mn_valid page1_valid
  have h6 : (level example_decls 64 page_mn page1).map
      (fun r => decide (level_room 64 page_mn page1 r)) = some true := by decide
  rw [h1] at h6
  have hroom : level_room 64 page_mn page1 r := of_decide_eq_true (Option.some.inj h6)
  exact ⟨page_mn_valid, page1_valid, r, h1, h4 (by decide), hroom, h2, h3, h4, h5 hroom⟩

/-- C18 as amended: for valid sibling pages `level` returns, and when it returns `true`
and the page `a` has room for the pairs moved to it (`level_room`), the used heap bytes
of the two pages afterwards differ by at most `2 * P + 1`, where `P` bounds the
`pair_size` of the pairs of the sibling. -/
theorem level_used_bytes_close (c : leaf_decls) (B : Nat) (a b : btree_leaf_node)
    (ha : valid c B a) (hb : valid c B b) :
    ∃ r, level c B a b = some r ∧
      (level_room B a b r → r.result = true →
        ∀ P, (∀ o ∈ slots b, pair_size c b.bytes o ≤ P) →
          B - r.node.frontmost_offset ≤ (B - r.sibling.frontmost_offset) + (2 * P + 1) ∧
          B - r.sibling.frontmost_offset ≤ (B - r.node.frontmost_offset) + (2 * P + 1)) := by
  obtain ⟨r, M, K, h1, h2, h3, h4, h5, h6, h7, h8, h9, h10, h11, h12⟩ := level_spec ha hb
  refine ⟨r, h1, ?_⟩
  intro hroom hres P hP
  have hk := h7.mp hres
  have hmoved := level_moved_bytes hb
    (by split_ifs at h2 with hc; exact Or.inl h2; exact Or.inr h2) h3 h4
  unfold level_room at hroom
  rw [h6, hmoved, Nat.add_sub_cancel_left] at hroom
  obtain ⟨g1, g2, g3, g4⟩ := h12 hroom
  obtain ⟨o, ho, b1, b2⟩ := h10 hk
  have hPo := hP o ho
  have hgt : ¬ (pairs_bytes c b ≤ pairs_bytes c a) := fun h => by
    have := h9 h
    omega
  rw [tdiv_two, if_pos (by omega)] at b1 b2
  have hd1 := ha.dense
  have hd2 := hb.dense
  have hf1 := ha.front_le
  have hf2 := hb.front_le
  have hf3 := h3.front_le
  omega

theorem level_used_bytes_close_witness :
    valid example_decls 64 page_z ∧ valid example_decls 64 page_mno ∧
    (∀ o ∈ slots page_mno, pair_size example_decls page_mno.bytes o ≤ 12) ∧
    ∃ r, level example_decls 64 page_z page_mno = some r ∧ r.result = true ∧
      level_room 64 page_z page_mno r ∧
      64 - r.node.frontmost_offset ≤ (64 - r.sibling.frontmost_offset) + (2 * 12 + 1) ∧
      64 - r.sibling.frontmost_offset ≤ (64 - r.node.frontmost_offset) + (2 * 12 + 1) := by
  obtain ⟨r, h1, h2⟩ := level_used_bytes_close example_decls 64 page_z page_mno page_z_valid
    page_mno_valid
  have h3 : (level example_decls 64 page_z page_mno).map
      (fun r => (r.result, decide (level_room 64 page_z page_mno r))) = some (true, true) := by
    decide
  rw [h1] at h3
  have h4 := Option.some.inj h3
  have hroom : level_room 64 page_z page_mno r := of_decide_eq_true (congrArg Prod.snd h4)
  have hP : ∀ o ∈ slots page_mno, pair_size example_decls page_mno.bytes o ≤ 12 := by decide
  exact ⟨page_z_valid, page_mno_valid, hP, r, h1, congrArg Prod.fst h4, hroom,
    h2 hroom (congrArg Prod.fst h4) 12 hP⟩

/-- C18 fails as stated: `page_z` holds one pair of 6 bytes, `page_mno` pairs of 5, 12
and 9 bytes with smaller keys, so the largest pair of the two pages has 12 bytes, and
`page_z` has room for all of them.  `level` returns `true` and moves the pairs of 12
and 9 bytes: afterwards 27 bytes are used on the one page and 5 on the other, a
difference of 22 bytes. -/
theorem level_used_bytes_far :
    valid example_decls 64 page_z ∧ valid example_decls 64 page_mno ∧
    0 < page_z.npairs ∧ 0 < page_mno.npairs ∧
    (∀ o ∈ slots page_z, pair_size example_decls page_z.bytes o ≤ 12) ∧
    (∀ o ∈ slots page_mno, pair_size example_decls page_mno.bytes o ≤ 12) ∧
    ∃ r, level example_decls 64 page_z page_mno = some r ∧ r.result = true ∧
      level_room 64 page_z page_mno r ∧
      64 - r.node.frontmost_offset = 27 ∧ 64 - r.sibling.frontmost_offset = 5 ∧
      ¬ (64 - r.node.frontmost_offset ≤ (64 - r.sibling.frontmost_offset) + 12) := by
  have h3 : (level example_decls 64 page_z page_mno).map
      (fun r => (r.result, decide (level_room 64 page_z page_mno r),
        64 - r.node.frontmost_offset, 64 - r.sibling.frontmost_offset)) =
      some (true, true, 27, 5) := by decide
  obtain ⟨r, h1, h2⟩ := Option.map_eq_some'.mp h3
  have e1 : 64 - r.node.frontmost_offset = 27 := congrArg (fun p => p.2.2.1) h2
  have e2 : 64 - r.sibling.frontmost_offset = 5 := congrArg (fun p => p.2.2.2) h2
  refine ⟨page_z_valid, page_mno_valid, by decide, by decide, by decide, by decide,
    r, h1, congrArg Prod.fst h2, of_decide_eq_true (congrArg (fun p => p.2.1) h2), e1, e2, ?_⟩
  rw [e1, e2]
  decide

/-- C19 as amended: for valid non-empty sibling pages whose key ranges do not
interleave, `level` returns, and when it returns `true`, the page `a` has room for the
pairs moved to it (`level_room`) and the sibling keeps at least one pair, the key
written to `replacement_key` is the last key of the page that holds the smaller keys
after the transfer (of `a` when `nodecmp(a, b) < 0`, of the sibling otherwise): every
key of that page is `≤` it and every key of the other page is `>` it. -/
theorem level_replacement_key (c : leaf_decls) (B : Nat) (a b : btree_leaf_node)
    (ha : valid c B a) (hb : valid c B b) (hna : 0 < a.npairs) (hnb : 0 < b.npairs)
    (hsep : keys_below (entries c a) (entries c b) ∨ keys_below (entries c b) (entries c a)) :
    ∃ r, level c B a b = some r ∧
      (level_room B a b r → r.result = true → 0 < r.sibling.npairs →
        ∃ key, r.replacement_key = some key ∧
          (nodecmp a b < 0 →
            key = slot_key r.node (r.node.npairs - 1) ∧
            (∀ x ∈ entries c r.node, sized_strcmp x.1 key ≤ 0) ∧
            (∀ y ∈ entries c r.sibling, sized_strcmp key y.1 < 0)) ∧
          (¬ nodecmp a b < 0 →
            key = slot_key r.sibling (r.sibling.npairs - 1) ∧
            (∀ x ∈ entries c r.sibling, sized_strcmp x.1 key ≤ 0) ∧
            (∀ y ∈ entries c r.node, sized_strcmp key y.1 < 0))) := by
  obtain ⟨r, h1, hvs, hr⟩ := level_room_spec ha hb hna hnb hsep
  obtain ⟨r', M, K, h1', h2, h3, h4, h5, h6, h7, h8, h9, h10, h11, h12⟩ := level_spec ha hb
  have hrr : r' = r := Option.some.inj (h1'.symm.trans h1)
  rw [hrr] at h6 h7 h11
  refine ⟨r, h1, ?_⟩
  intro hroom hres hsib
  obtain ⟨g1, g2, g3, g4⟩ := hr hroom
  obtain ⟨k1, k2⟩ := h11 (h7.mp hres)
  have hnode : 0 < r.node.npairs := by omega
  refine ⟨_, k2, ?_, ?_⟩
  · intro hc
    rw [if_pos hc, last_offset_of_pos hnode]
    refine ⟨rfl, fun x hx => last_key_ge g1 hx, ?_⟩
    intro y hy
    exact g3 hc _ (mem_entries.mpr ⟨r.node.npairs - 1, by omega, rfl⟩) y hy
  · intro hc
    rw [if_neg hc, last_offset_of_pos hsib]
    refine ⟨rfl, fun x hx => last_key_ge hvs hx, ?_⟩
    intro y hy
    exact g4 hc _ (mem_entries.mpr ⟨r.sibling.npairs - 1, by omega, rfl⟩) y hy

theorem level_replacement_key_witness :
    valid example_decls 64 page1 ∧ valid example_decls 64 page_mn ∧
    nodecmp page1 page_mn < 0 ∧
    ∃ r, level example_decls 64 page1 page_mn = some r ∧ r.result = true ∧
      level_room 64 page1 page_mn r ∧ 0 < r.sibling.npairs ∧
      ∃ key, r.replacement_key = some key ∧
        key = slot_key r.node (r.node.npairs - 1) ∧
        (∀ x ∈ entries example_decls r.node, sized_strcmp x.1 key ≤ 0) ∧
        (∀ y ∈ entries example_decls r.sibling, sized_strcmp key y.1 < 0) := by
  obtain ⟨r, h1, h2⟩ := level_replacement_key example_decls 64 page1 page_mn page1_valid
    page_mn_valid (by decide) (by decide) (Or.inl (by decide))
  have h3 : (level example_decls 64 page1 page_mn).map
      (fun r => (r.result, decide (level_room 64 page1 page_mn r),
        decide (0 < r.sibling.npairs))) = some (true, true, true) := by
    decide
  rw [h1] at h3
  have h4 := Option.some.inj h3
  have hroom : level_room 64 page1 page_mn r :=
    of_decide_eq_true (congrArg (fun p => p.2.1) h4)
  have hsib : 0 < r.sibling.npairs := of_decide_eq_true (congrArg (fun p => p.2.2) h4)
  have hc : nodecmp page1 page_mn < 0 := by decide
  obtain ⟨key, k1, k2, _⟩ := h2 hroom (congrArg Prod.fst h4) hsib
  exact ⟨page1_valid, page_mn_valid, hc, r, h1, congrArg Prod.fst h4, hroom, hsib, key, k1,
    k2 hc⟩

/-- C19 fails without room on the receiving page: `page_five` and `page_wide` are valid,
not empty, with every key of the first below every key of the second.  `level` returns
`true`, the sibling keeps a pair, and the key written to `replacement_key`, read from
the pair whose first byte the sixth slot is stored on, is the empty key, although the
page it is read from holds the key "a". -/
theorem level_replacement_key_overwritten :
    valid example_decls 64 page_five ∧ valid example_decls 64 page_wide ∧
    0 < page_five.npairs ∧ 0 < page_wide.npairs ∧
    keys_below (entries example_decls page_five) (entries example_decls page_wide) ∧
    nodecmp page_five page_wide < 0 ∧
    ∃ r, level example_decls 64 page_five page_wide = some r ∧ r.result = true ∧
      0 < r.sibling.npairs ∧
      r.replacement_key = some [] ∧
      ([97], [0]) ∈ entries example_decls r.node ∧
      ¬ sized_strcmp [97] [] ≤ 0 := by
  have h3 : (level example_decls 64 page_five page_wide).map
      (fun r => (r.result, decide (0 < r.sibling.npairs), r.replacement_key,
        decide (([97], [0]) ∈ entries example_decls r.node))) =
      some (true, true, some [], true) := by decide
  obtain ⟨r, h1, h2⟩ := Option.map_eq_some'.mp h3
  exact ⟨page_five_valid, page_wide_valid, by decide, by decide, by decide, by decide,
    r, h1, congrArg Prod.fst h2, of_decide_eq_true (congrArg (fun p => p.2.1) h2),
    congrArg (fun p => p.2.2.1) h2, of_decide_eq_true (congrArg (fun p => p.2.2.2) h2),
    by decide⟩

/-! ### Claims on the capacity predicates and on the slots `level` reads -/

theorem page_z_small_valid : valid example_decls 64 page_z_small :=
  insert_valid [122] page0_valid (by decide)

theorem page_m_large_valid : valid example_decls 64 page_m_large :=
  insert_valid [110] (insert_valid [109] page0_valid (by decide)) (by decide)

/-- C21: for every block size, every `LEAF_EPSILON` and any two pages, `is_mergable` is
symmetric in the two pages, and when both pages are underfull they are mergable. -/
theorem underfull_siblings_mergable (c : leaf_decls) (B : Nat) (a b : btree_leaf_node) :
    is_mergable c B a b = is_mergable c B b a ∧
    (is_underfull c B a = true → is_underfull c B b = true → is_mergable c B a b = true) := by
  constructor
  · unfold is_mergable
    congr 1
    rw [Nat.add_comm a.npairs b.npairs]
    apply propext
    constructor <;> intro h <;> omega
  · intro ha hb
    unfold is_underfull at ha hb
    unfold is_mergable
    have h1 := of_decide_eq_true ha
    have h2 := of_decide_eq_true hb
    apply decide_eq_true
    have hs : sizeof_btree_leaf_node = 8 := rfl
    have hp : sizeof_pair_offset = 2 := rfl
    rw [hs, hp] at h1 h2 ⊢
    omega

theorem underfull_siblings_mergable_witness :
    valid example_decls 64 page1 ∧ valid example_decls 64 page_z ∧
    is_underfull example_decls 64 page1 = true ∧
    is_underfull example_decls 64 page_z = true ∧
    is_mergable example_decls 64 page1 page_z = true ∧
    is_mergable example_decls 64 page1 page_z = is_mergable example_decls 64 page_z page1 :=
  ⟨page1_valid, page_z_valid, by decide, by decide,
    (underfull_siblings_mergable example_decls 64 page1 page_z).2 (by decide) (by decide),
    (underfull_siblings_mergable example_decls 64 page1 page_z).1⟩

/-- C22: on valid pages `level` returns, whichever page holds the smaller keys (its walk
does not leave the directory of the sibling), and when the page holds the smaller
keys (`nodecmp(a, b) < 0`) a call that returns `true` leaves at least one pair on the
sibling.  When the sibling holds the smaller keys this fails: `page_z_small` (one pair
of 3 bytes, underfull) and `page_m_large` (pairs of 40 and 4 bytes) are valid, not
empty and not mergable, and the page has room for both pairs; the adjustment is
`(44 - 3) / 2 = 20`, the walk from the last pair takes both pairs (20 - 4 = 16, then
16 - 40 ≤ 0), `level` returns `true` with the sibling empty, and the slot read for
`replacement_key`, `pair_offsets[npairs - 1]`, is the header field `frontmost_offset`,
which holds 64, the end of the block. -/
theorem level_empties_sibling :
    (∀ (c : leaf_decls) (B : Nat) (a b : btree_leaf_node), valid c B a → valid c B b →
      ∃ r, level c B a b = some r ∧
        (nodecmp a b < 0 → r.result = true → 0 < r.sibling.npairs)) ∧
    valid example_decls 64 page_z_small ∧ valid example_decls 64 page_m_large ∧
    0 < page_z_small.npairs ∧ 0 < page_m_large.npairs ∧
    keys_below (entries example_decls page_m_large) (entries example_decls page_z_small) ∧
    is_underfull example_decls 64 page_z_small = true ∧
    is_mergable example_decls 64 page_z_small page_m_large = false ∧
    ¬ nodecmp page_z_small page_m_large < 0 ∧
    ∃ r, level example_decls 64 page_z_small page_m_large = some r ∧ r.result = true ∧
      level_room 64 page_z_small page_m_large r ∧
      r.node.npairs = 3 ∧ r.sibling.npairs = 0 ∧
      r.sibling.frontmost_offset = 64 ∧ last_offset r.sibling = 64 ∧
      r.replacement_key = some (key_at r.sibling.bytes 64) := by
  refine ⟨?_, page_z_small_valid, page_m_large_valid, by decide, by decide, by decide,
    by decide, by decide, by decide, ?_⟩
  · intro c B a b ha hb
    by_cases hcmp : nodecmp a b < 0
    · obtain ⟨w, h1, h2, h3, h4⟩ := level_head_eq ha hb hcmp
      refine ⟨_, h4, ?_⟩
      intro _ hres
      by_cases hw : w ≤ 1
      · rw [if_pos hw] at hres
        exact absurd hres Bool.false_ne_true
      · rw [if_neg hw]
        obtain ⟨d1, d2, d3⟩ := @level_delete_first_spec c B (w - 1) b hb (by omega)
        show 0 < (level_delete_first c (w - 1) b).npairs
        rw [d2]
        omega
    · obtain ⟨r, M, K, h1, _⟩ := level_spec ha hb
      exact ⟨r, h1, fun h => absurd h hcmp⟩
  · have h3 : (level example_decls 64 page_z_small page_m_large).map
        (fun r => (r.result, decide (level_room 64 page_z_small page_m_large r),
          r.node.npairs, r.sibling.npairs)) = some (true, true, 3, 0) := by decide
    have h4 : (level example_decls 64 page_z_small page_m_large).map
        (fun r => (r.sibling.frontmost_offset, last_offset r.sibling, r.replacement_key,
          key_at r.sibling.bytes 64)) = some (64, 64, some [], []) := by decide
    obtain ⟨r, h1, h2⟩ := Option.map_eq_some'.mp h3
    rw [h1] at h4
    have h5 := Option.some.inj h4
    exact ⟨r, h1, congrArg Prod.fst h2, of_decide_eq_true (congrArg (fun p => p.2.1) h2),
      congrArg (fun p => p.2.2.1) h2, congrArg (fun p => p.2.2.2) h2,
      congrArg Prod.fst h5, congrArg (fun p => p.2.1) h5,
      (congrArg (fun p => p.2.2.1) h5).trans
        (congrArg some (congrArg (fun p => p.2.2.2) h5).symm)⟩

end leaf_node_handler
